import Mathlib

/-!
# tbox `container/dlist.c`: a doubly-linked list over a slot pool

A shallow embedding of `src/container/dlist.c`.  The list keeps its nodes in a
fixed-slot pool (`tb_fpool_t`) and addresses them by integer handles; handle `0`
is the boundary "before the head / past the last".  Every slot is laid out as
`next (u32) | prev (u32) | payload (step bytes)`.

Conventions of the embedding
* a slot is the record `Slot` of its three regions; the two link fields are
  written through `tb_bits_set_u32_ne`, which keeps the low 32 bits;
* a pointer into the pool is the handle it was resolved from, so a write through
  the pointer is a write to the pool at that handle (aliasing is kept);
* the assertion macros are modelled from the spec (fail-fast abort for invariant
  violations): `tb_assert_abort` is `none`, `tb_assert_and_check_return_val(x, v)`
  returns `v` when `x` fails;
* the release callback is observed through the trace `released` of the payloads
  handed to it, oldest first; `func_free` tells whether a callback is registered.
-/

namespace TBox

/-! ## Slots and the slot pool -/

/-- One pool slot: the `next` link (offset 0), the `prev` link (offset 4) and the
payload bytes (offset 8). -/
structure Slot where
  next : Nat
  prev : Nat
  data : List Nat
deriving DecidableEq, Repr

/-- The release trace: payloads handed to the release callback, oldest first. -/
abbrev Trace := List (List Nat)

/-- Modelled from the spec: the slot pool `tb_fpool_t`, whose implementation
(`fpool.c`) is missing.  `slots` are the live slots with their handles, `free` is the
free list: the handles `put` hands out next, recycled ones first.  `step` is the slot
size in bytes. -/
structure tb_fpool_t where
  step : Nat
  slots : List (Nat × Slot)
  free : List Nat
deriving DecidableEq, Repr

/-- The slot stored under handle `h` in an association list of live slots. -/
def slot_find : List (Nat × Slot) → Nat → Option Slot
  | [], _ => none
  | e :: t, h => if e.1 = h then some e.2 else slot_find t h

/-- Overwrite the slot stored under handle `h`. -/
def slot_store : List (Nat × Slot) → Nat → Slot → List (Nat × Slot)
  | [], _, _ => []
  | e :: t, h, v => if e.1 = h then (e.1, v) :: t else e :: slot_store t h v

/-- Drop the slot stored under handle `h`. -/
def slot_erase (l : List (Nat × Slot)) (h : Nat) : List (Nat × Slot) :=
  l.filter (fun e => decide (e.1 ≠ h))

/-- The handles of the live slots. -/
def tb_fpool_t.keys (p : tb_fpool_t) : List Nat := p.slots.map Prod.fst

/-- Modelled from the spec: pool `init(slotSize, growStep, itemFuncs)`.  `supply`
is the sequence of handles the new pool will hand out. -/
def tb_fpool_init (step : Nat) (supply : List Nat) : tb_fpool_t :=
  { step := step, slots := [], free := supply }

/-- Modelled from the spec: pool `put(none)`, returning the handle (0 signals
exhaustion) and the pool.  A freed slot is reused before a fresh one. -/
def tb_fpool_put (p : tb_fpool_t) : Nat × tb_fpool_t :=
  match p.free with
  | [] => (0, p)
  | h :: rest =>
    (h, { p with slots := (h, { next := 0, prev := 0, data := List.replicate (p.step - 8) 0 }) :: p.slots,
                 free := rest })

/-- Modelled from the spec: pool `resolve(handle)`; fails if the handle is 0 or
unknown. -/
def tb_fpool_itor_at (p : tb_fpool_t) (itor : Nat) : Option Slot :=
  if itor = 0 then none else slot_find p.slots itor

/-- Modelled from the spec: pool `del(handle)`: invokes the registered finalizer
on the slot, then returns it to the free list. -/
def tb_fpool_del (func : Slot → Trace → Trace) (p : tb_fpool_t) (itor : Nat) (tr : Trace) :
    tb_fpool_t × Trace :=
  match tb_fpool_itor_at p itor with
  | none => (p, tr)
  | some s => ({ p with slots := slot_erase p.slots itor, free := itor :: p.free }, func s tr)

/-- Modelled from the spec: pool `clear()`: finalizes and frees every live slot,
retaining capacity. -/
def tb_fpool_clear (func : Slot → Trace → Trace) (p : tb_fpool_t) (tr : Trace) :
    tb_fpool_t × Trace :=
  ({ p with slots := [], free := p.keys ++ p.free },
   p.slots.foldl (fun t e => func e.2 t) tr)

/-- Modelled from the spec: pool live-count query (`pool->size`). -/
def tb_fpool_size (p : tb_fpool_t) : Nat := p.slots.length

/-- Modelled from the spec: the raw helper writing a 32-bit field.  The field at
byte offset `off` (0 is `next`, otherwise `prev`) of a slot receives the low 32
bits of `v`. -/
def Slot.set_u32 (s : Slot) (off : Nat) (v : Nat) : Slot :=
  if off = 0 then { s with next := v % 2 ^ 32 } else { s with prev := v % 2 ^ 32 }

/-- Modelled from the spec: the raw helper reading a 32-bit field at byte offset
`off` of a slot (0 is `next`, otherwise `prev`). -/
def tb_bits_get_u32_ne (s : Slot) (off : Nat) : Nat :=
  if off = 0 then s.next else s.prev

/-- A write `tb_bits_set_u32_ne(p + off, v)` through the pointer `p` resolved from
handle `h`. -/
def tb_bits_set_u32_ne (p : tb_fpool_t) (h : Nat) (off : Nat) (v : Nat) : tb_fpool_t :=
  match slot_find p.slots h with
  | none => p
  | some s => { p with slots := slot_store p.slots h (s.set_u32 off v) }

/-- Modelled from the spec: the libc helper `tb_memcpy(dst, src, n)`, as the bytes it
leaves in a destination of `n` bytes (the first `n` bytes of `src`). -/
def tb_memcpy (src : List Nat) (n : Nat) : List Nat := src.take n

/-- Modelled from the spec: the libc helper `tb_memset(dst, c, n)`, as the bytes it
leaves in a destination of `n` bytes. -/
def tb_memset (c : Nat) (n : Nat) : List Nat := List.replicate n c

/-- A write of the payload region (`p + 8`) through the pointer `p` resolved from
handle `h`. -/
def slot_set_data (p : tb_fpool_t) (h : Nat) (bytes : List Nat) : tb_fpool_t :=
  match slot_find p.slots h with
  | none => p
  | some s => { p with slots := slot_store p.slots h { s with data := bytes } }

/-! ## The list controller -/

/-- The list `tb_dlist_t` (non-null, with a non-null pool). -/
structure tb_dlist_t where
  pool : tb_fpool_t
  head : Nat
  last : Nat
  step : Nat
  func_free : Bool
  released : Trace
deriving DecidableEq, Repr

/-- The pool finalizer `tb_dlist_item_free(item, priv)`: forwards the payload
(`item + 8`) to the release callback when one is registered. -/
def tb_dlist_item_free (func_free : Bool) (item : Slot) (tr : Trace) : Trace :=
  if func_free then tr ++ [item.data] else tr

/-- `tb_dlist_init(step, grow, func)`; the pool is created with slot size
`8 + step`. -/
def tb_dlist_init (step : Nat) (supply : List Nat) (func_free : Bool) : tb_dlist_t :=
  { pool := tb_fpool_init (8 + step) supply, head := 0, last := 0, step := step,
    func_free := func_free, released := [] }

/-- `tb_dlist_clear`. -/
def tb_dlist_clear (d : tb_dlist_t) : tb_dlist_t :=
  let r := tb_fpool_clear (tb_dlist_item_free d.func_free) d.pool d.released
  { d with pool := r.1, released := r.2, head := 0, last := 0 }

/-- `tb_dlist_itor_const_at`: the payload of the slot at `itor`; `none` is the
abort of `tb_assert_abort(data)`. -/
def tb_dlist_itor_const_at (d : tb_dlist_t) (itor : Nat) : Option (List Nat) :=
  match tb_fpool_itor_at d.pool itor with
  | none => none
  | some s => some s.data

/-- `tb_dlist_itor_at`. -/
def tb_dlist_itor_at (d : tb_dlist_t) (itor : Nat) : Option (List Nat) :=
  tb_dlist_itor_const_at d itor

/-- `tb_dlist_itor_head`. -/
def tb_dlist_itor_head (d : tb_dlist_t) : Nat := d.head

/-- `tb_dlist_itor_last`. -/
def tb_dlist_itor_last (d : tb_dlist_t) : Nat := d.last

/-- `tb_dlist_itor_tail`. -/
def tb_dlist_itor_tail (_d : tb_dlist_t) : Nat := 0

/-- `tb_dlist_itor_next`. -/
def tb_dlist_itor_next (d : tb_dlist_t) (itor : Nat) : Option Nat :=
  if itor = 0 then some d.head
  else
    match tb_fpool_itor_at d.pool itor with
    | none => none
    | some s => some (tb_bits_get_u32_ne s 0)

/-- `tb_dlist_itor_prev`. -/
def tb_dlist_itor_prev (d : tb_dlist_t) (itor : Nat) : Option Nat :=
  if itor = 0 then some d.last
  else
    match tb_fpool_itor_at d.pool itor with
    | none => none
    | some s => some (tb_bits_get_u32_ne s 4)

/-- `tb_dlist_size`. -/
def tb_dlist_size (d : tb_dlist_t) : Nat := tb_fpool_size d.pool

/-- `tb_dlist_insert(dlist, index, item)`: the returned handle and the new list;
`none` is an abort. -/
def tb_dlist_insert (d : tb_dlist_t) (index : Nat) (item : Option (List Nat)) :
    Option (Nat × tb_dlist_t) :=
  -- alloc a new node
  let node := (tb_fpool_put d.pool).1
  let pool := (tb_fpool_put d.pool).2
  if node = 0 then some (0, { d with pool := pool })
  else
    -- get the node data
    match tb_fpool_itor_at pool node with
    | none => none
    | some _ =>
      -- init node, node <=> 0
      let pool := tb_bits_set_u32_ne pool node 0 0
      let pool := tb_bits_set_u32_ne pool node 4 0
      -- copy the item data
      let pool :=
        match item with
        | some bytes => slot_set_data pool node (tb_memcpy bytes d.step)
        | none => slot_set_data pool node (tb_memset 0 d.step)
      -- is null?
      if d.head = 0 ∧ d.last = 0 then
        some (node, { d with pool := pool, head := node, last := node })
      else if d.head = 0 ∨ d.last = 0 then none
      -- insert to tail
      else if index = 0 then
        let last := d.last
        match tb_fpool_itor_at pool last with
        | none => none
        | some _ =>
          -- last <=> node <=> 0
          let pool := tb_bits_set_u32_ne pool last 0 node
          let pool := tb_bits_set_u32_ne pool node 4 last
          some (node, { d with pool := pool, last := node })
      -- insert to head
      else if index = d.head then
        let head := d.head
        match tb_fpool_itor_at pool head with
        | none => none
        | some _ =>
          -- 0 <=> node <=> head
          let pool := tb_bits_set_u32_ne pool head 4 node
          let pool := tb_bits_set_u32_ne pool node 0 head
          some (node, { d with pool := pool, head := node })
      -- insert to body
      else
        let body := index
        match tb_fpool_itor_at pool body with
        | none => none
        | some sbody =>
          let prev := tb_bits_get_u32_ne sbody 4
          match tb_fpool_itor_at pool prev with
          | none => none
          | some _ =>
            let pool := tb_bits_set_u32_ne pool node 0 body
            let pool := tb_bits_set_u32_ne pool node 4 prev
            let pool := tb_bits_set_u32_ne pool prev 0 node
            let pool := tb_bits_set_u32_ne pool body 4 node
            some (node, { d with pool := pool })

/-- `tb_dlist_insert_head`. -/
def tb_dlist_insert_head (d : tb_dlist_t) (item : Option (List Nat)) : Option (Nat × tb_dlist_t) :=
  tb_dlist_insert d (tb_dlist_itor_head d) item

/-- `tb_dlist_insert_tail`. -/
def tb_dlist_insert_tail (d : tb_dlist_t) (item : Option (List Nat)) : Option (Nat × tb_dlist_t) :=
  tb_dlist_insert d (tb_dlist_itor_tail d) item

/-- `tb_dlist_replace(dlist, index, item)`. -/
def tb_dlist_replace (d : tb_dlist_t) (index : Nat) (item : Option (List Nat)) :
    Option (Nat × tb_dlist_t) :=
  match tb_dlist_itor_at d index with
  | none => none
  | some data =>
    match item with
    | none => some (index, d)
    | some bytes =>
      -- do free
      let released := if d.func_free then d.released ++ [data] else d.released
      -- copy data
      some (index, { d with pool := slot_set_data d.pool index (tb_memcpy bytes d.step),
                            released := released })

/-- `tb_dlist_remove(dlist, index)`. -/
def tb_dlist_remove (d : tb_dlist_t) (index : Nat) : Option (Nat × tb_dlist_t) :=
  if index = 0 then some (index, d)
  else if d.head ≠ 0 ∧ d.last ≠ 0 then
    -- only one?
    if d.head = d.last then
      if d.head ≠ index then none
      else
        let r := tb_fpool_del (tb_dlist_item_free d.func_free) d.pool index d.released
        some (index, { d with pool := r.1, released := r.2, head := 0, last := 0 })
    -- remove head?
    else if index = d.head then
      match tb_dlist_itor_next d index with
      | none => none
      | some next =>
        match tb_fpool_itor_at d.pool next with
        | none => none
        | some _ =>
          let pool := tb_bits_set_u32_ne d.pool next 4 0
          let r := tb_fpool_del (tb_dlist_item_free d.func_free) pool index d.released
          some (next, { d with pool := r.1, released := r.2, head := next })
    -- remove last?
    else if index = d.last then
      match tb_dlist_itor_prev d index with
      | none => none
      | some prev =>
        match tb_fpool_itor_at d.pool prev with
        | none => none
        | some _ =>
          let pool := tb_bits_set_u32_ne d.pool prev 0 0
          let r := tb_fpool_del (tb_dlist_item_free d.func_free) pool index d.released
          some (prev, { d with pool := r.1, released := r.2, last := prev })
    -- remove body?
    else
      let body := index
      match tb_fpool_itor_at d.pool body with
      | none => none
      | some sbody =>
        let next := tb_bits_get_u32_ne sbody 0
        match tb_fpool_itor_at d.pool next with
        | none => none
        | some _ =>
          let prev := tb_bits_get_u32_ne sbody 4
          match tb_fpool_itor_at d.pool prev with
          | none => none
          | some _ =>
            let pool := tb_bits_set_u32_ne d.pool prev 0 next
            let pool := tb_bits_set_u32_ne pool next 4 prev
            let r := tb_fpool_del (tb_dlist_item_free d.func_free) pool index d.released
            some (next, { d with pool := r.1, released := r.2 })
  else some (index, d)

/-- The loop of `tb_dlist_ninsert`: `while (size--) node = tb_dlist_insert(dlist, node, item)`. -/
def ninsert_loop (item : Option (List Nat)) : Nat → tb_dlist_t → Nat → Option (Nat × tb_dlist_t)
  | 0, d, node => some (node, d)
  | size + 1, d, node =>
    match tb_dlist_insert d node item with
    | none => none
    | some r => ninsert_loop item size r.2 r.1

/-- `tb_dlist_ninsert(dlist, index, item, size)`. -/
def tb_dlist_ninsert (d : tb_dlist_t) (index : Nat) (item : Option (List Nat)) (size : Nat) :
    Option (Nat × tb_dlist_t) :=
  if size = 0 then some (0, d)
  else
    -- insert items
    let node := index
    ninsert_loop item size d node

/-- The loop of `tb_dlist_nreplace`:
`for (; size-- && itor != tail; itor = tb_dlist_itor_next(dlist, itor)) tb_dlist_replace(...)`. -/
def nreplace_loop (item : Option (List Nat)) (tail : Nat) :
    Nat → tb_dlist_t → Nat → Option tb_dlist_t
  | 0, d, _ => some d
  | size + 1, d, itor =>
    if itor = tail then some d
    else
      match tb_dlist_replace d itor item with
      | none => none
      | some r =>
        match tb_dlist_itor_next r.2 itor with
        | none => none
        | some nx => nreplace_loop item tail size r.2 nx

/-- `tb_dlist_nreplace(dlist, index, item, size)`. -/
def tb_dlist_nreplace (d : tb_dlist_t) (index : Nat) (item : Option (List Nat)) (size : Nat) :
    Option (Nat × tb_dlist_t) :=
  if item = none ∨ size = 0 then some (index, d)
  else
    let itor := index
    let tail := tb_dlist_itor_tail d
    (nreplace_loop item tail size d itor).map (fun d2 => (index, d2))

/-- `tb_dlist_nreplace_head`. -/
def tb_dlist_nreplace_head (d : tb_dlist_t) (item : Option (List Nat)) (size : Nat) :
    Option (Nat × tb_dlist_t) :=
  tb_dlist_nreplace d (tb_dlist_itor_head d) item size

/-- The loop of `tb_dlist_nreplace_last`:
`for (; size-- && itor != tail; itor = tb_dlist_itor_prev(dlist, itor)) node = tb_dlist_replace(...)`. -/
def nreplace_last_loop (item : Option (List Nat)) (tail : Nat) :
    Nat → tb_dlist_t → Nat → Nat → Option (Nat × tb_dlist_t)
  | 0, d, _, node => some (node, d)
  | size + 1, d, itor, node =>
    if itor = tail then some (node, d)
    else
      match tb_dlist_replace d itor item with
      | none => none
      | some r =>
        match tb_dlist_itor_prev r.2 itor with
        | none => none
        | some pv => nreplace_last_loop item tail size r.2 pv r.1

/-- `tb_dlist_nreplace_last(dlist, item, size)`. -/
def tb_dlist_nreplace_last (d : tb_dlist_t) (item : Option (List Nat)) (size : Nat) :
    Option (Nat × tb_dlist_t) :=
  let node := 0
  let itor := tb_dlist_itor_last d
  let tail := tb_dlist_itor_tail d
  nreplace_last_loop item tail size d itor node

/-- `tb_dlist_remove_head`. -/
def tb_dlist_remove_head (d : tb_dlist_t) : Option (Nat × tb_dlist_t) :=
  tb_dlist_remove d (tb_dlist_itor_head d)

/-- `tb_dlist_remove_last`. -/
def tb_dlist_remove_last (d : tb_dlist_t) : Option (Nat × tb_dlist_t) :=
  tb_dlist_remove d (tb_dlist_itor_last d)

/-- The loop of `tb_dlist_nremove_head`:
`while (size-- && tb_dlist_size(dlist)) tb_dlist_remove_head(dlist)`.  Besides the list
it yields the handles the successive `tb_dlist_remove_head` calls were made on, in
order (an observer of the calls, not part of the C state). -/
def nremove_head_loop : Nat → tb_dlist_t → Option (List Nat × tb_dlist_t)
  | 0, d => some ([], d)
  | size + 1, d =>
    if tb_dlist_size d = 0 then some ([], d)
    else
      match tb_dlist_remove_head d with
      | none => none
      | some r => (nremove_head_loop size r.2).map (fun q => (tb_dlist_itor_head d :: q.1, q.2))

/-- `tb_dlist_nremove_head(dlist, size)`: the handle returned and the new list. -/
def tb_dlist_nremove_head (d : tb_dlist_t) (size : Nat) : Option (Nat × tb_dlist_t) :=
  (nremove_head_loop size d).map (fun q => (tb_dlist_itor_head q.2, q.2))

/-- The loop of `tb_dlist_nremove`: `while (size--) next = tb_dlist_remove(dlist, next)`. -/
def nremove_loop : Nat → tb_dlist_t → Nat → Option (Nat × tb_dlist_t)
  | 0, d, next => some (next, d)
  | size + 1, d, next =>
    match tb_dlist_remove d next with
    | none => none
    | some r => nremove_loop size r.2 r.1

/-- `tb_dlist_nremove(dlist, index, size)`. -/
def tb_dlist_nremove (d : tb_dlist_t) (index : Nat) (size : Nat) : Option (Nat × tb_dlist_t) :=
  if size = 0 then some (index, d)
  else
    let next := index
    nremove_loop size d next

/-! ## Walks -/

/-- The handles met walking `tb_dlist_itor_next` from `h` to the boundary 0, in at
most `fuel` steps. -/
def walk_next (d : tb_dlist_t) : Nat → Nat → Option (List Nat)
  | fuel, h =>
    if h = tb_dlist_itor_tail d then some []
    else
      match fuel with
      | 0 => none
      | fuel + 1 =>
        match tb_dlist_itor_next d h with
        | none => none
        | some n => (walk_next d fuel n).map (fun l => h :: l)

/-- The handles met walking `tb_dlist_itor_prev` from `h` to the boundary 0, in at
most `fuel` steps. -/
def walk_prev (d : tb_dlist_t) : Nat → Nat → Option (List Nat)
  | fuel, h =>
    if h = tb_dlist_itor_tail d then some []
    else
      match fuel with
      | 0 => none
      | fuel + 1 =>
        match tb_dlist_itor_prev d h with
        | none => none
        | some n => (walk_prev d fuel n).map (fun l => h :: l)

/-- The forward walk of handles, from the head, in at most `size` steps. -/
def forward_walk (d : tb_dlist_t) : Option (List Nat) :=
  walk_next d (tb_dlist_size d) (tb_dlist_itor_head d)

/-- The backward walk of handles, from the last node, in at most `size` steps. -/
def backward_walk (d : tb_dlist_t) : Option (List Nat) :=
  walk_prev d (tb_dlist_size d) (tb_dlist_itor_last d)

/-- The payloads read by `tb_dlist_itor_at` at the given handles. -/
def payloads_at (d : tb_dlist_t) : List Nat → Option (List (List Nat))
  | [] => some []
  | h :: t =>
    match tb_dlist_itor_at d h, payloads_at d t with
    | some x, some xs => some (x :: xs)
    | _, _ => none

/-- The forward walk of payloads. -/
def forward_payloads (d : tb_dlist_t) : Option (List (List Nat)) :=
  match forward_walk d with
  | none => none
  | some l => payloads_at d l

/-- The backward walk of payloads. -/
def backward_payloads (d : tb_dlist_t) : Option (List (List Nat)) :=
  match backward_walk d with
  | none => none
  | some l => payloads_at d l

/-! ## Well-formed lists -/

/-- The nodes `l` form a doubly-linked run in the pool: every handle resolves, the
`prev` link of the first node is `pv`, the `next` link of the last node is `nx`, and
adjacent nodes point at each other. -/
def Linked (p : tb_fpool_t) : Nat → List Nat → Nat → Prop
  | _, [], _ => True
  | pv, h :: t, nx =>
    match tb_fpool_itor_at p h with
    | none => False
    | some s => s.prev = pv ∧ s.next = t.headD nx ∧ Linked p h t nx

instance Linked.decidable (p : tb_fpool_t) : (pv : Nat) → (l : List Nat) → (nx : Nat) →
    Decidable (Linked p pv l nx)
  | _, [], _ => isTrue trivial
  | pv, h :: t, nx =>
    match hs : tb_fpool_itor_at p h with
    | none => isFalse (by simp [Linked, hs])
    | some s =>
      match Linked.decidable p h t nx with
      | isTrue ht =>
        if hc : s.prev = pv ∧ s.next = t.headD nx then isTrue (by simp [Linked, hs, hc, ht])
        else isFalse (by simp only [Linked, hs]; tauto)
      | isFalse ht => isFalse (by simp only [Linked, hs]; tauto)

/-- The pool keeps its contract: live and free handles are pairwise distinct, none
is 0, and every one fits the 32-bit link fields. -/
def PoolOK (p : tb_fpool_t) : Prop :=
  (p.keys ++ p.free).Nodup ∧ ∀ h ∈ p.keys ++ p.free, h ≠ 0 ∧ h < 2 ^ 32

instance PoolOK.decidable (p : tb_fpool_t) : Decidable (PoolOK p) := by
  unfold PoolOK; infer_instance

/-- The list `d` is well formed with forward sequence of handles `l`: the pool keeps
its contract, `head` and `last` are the ends of `l` (0 when empty), the nodes of `l`
are doubly linked between the boundaries 0, and the live slots are the nodes of `l`. -/
def WF (d : tb_dlist_t) (l : List Nat) : Prop :=
  PoolOK d.pool ∧ d.head = l.headD 0 ∧ d.last = l.getLastD 0 ∧ Linked d.pool 0 l 0 ∧
    d.pool.keys.Perm l

instance WF.decidable (d : tb_dlist_t) (l : List Nat) : Decidable (WF d l) := by
  unfold WF; infer_instance

/-! ## Specification-level definitions -/

/-- The payload bytes `tb_dlist_insert` leaves in the new node: the first `step`
bytes of the item, or `step` zero bytes when the item is absent. -/
def insert_payload (step : Nat) (item : Option (List Nat)) : List Nat :=
  match item with
  | some bytes => tb_memcpy bytes step
  | none => tb_memset 0 step

/-- The forward sequence after inserting `n` before `t`: at the end when `t` does
not occur (in particular for the boundary 0). -/
def insert_before (n t : Nat) : List Nat → List Nat
  | [] => [n]
  | h :: r => if h = t then n :: h :: r else h :: insert_before n t r

/-- What a successful `tb_dlist_insert` returning `n` leaves as it was: the
configuration, the release trace and every payload but the new one, which holds the
item. -/
def InsertFrame (d d2 : tb_dlist_t) (n : Nat) (item : Option (List Nat)) : Prop :=
  d2.step = d.step ∧ d2.func_free = d.func_free ∧ d2.released = d.released ∧
    d2.pool.free = d.pool.free.tail ∧
    tb_dlist_itor_at d2 n = some (insert_payload d.step item) ∧
    ∀ k, k ≠ n → tb_dlist_itor_at d2 k = tb_dlist_itor_at d k

/-- What `tb_dlist_remove` of the node `h` leaves as it was, and what it does to the
slot of `h`: the slot is finalized (its payload goes to the release callback when
one is registered) and its handle returns to the free list. -/
def RemoveFrame (d d2 : tb_dlist_t) (h : Nat) : Prop :=
  d2.step = d.step ∧ d2.func_free = d.func_free ∧ d2.pool.free = h :: d.pool.free ∧
    (∃ s, tb_fpool_itor_at d.pool h = some s ∧
      d2.released = tb_dlist_item_free d.func_free s d.released) ∧
    tb_fpool_itor_at d2.pool h = none ∧
    ∀ k, k ≠ h → tb_dlist_itor_at d2 k = tb_dlist_itor_at d k

/-- The handle `tb_dlist_remove` returns for a node `h` of a non-empty list, read off
the list before the removal: `h` itself when `h` is the only node, the `prev` of `h`
when `h` is the last of several nodes, the `next` of `h` otherwise. -/
def remove_result (d : tb_dlist_t) (h : Nat) : Option Nat :=
  if d.head = d.last then some h
  else if h = d.head then tb_dlist_itor_next d h
  else if h = d.last then tb_dlist_itor_prev d h
  else tb_dlist_itor_next d h

/-- The lists reachable from `tb_dlist_init` over a pool that keeps its contract, by
successful inserts, removes of nodes of the list, replaces and clears. -/
inductive Reachable : tb_dlist_t → Prop
  | init (step : Nat) (supply : List Nat) (func_free : Bool) :
      PoolOK (tb_fpool_init (8 + step) supply) → Reachable (tb_dlist_init step supply func_free)
  | insert {d d2 : tb_dlist_t} {index n : Nat} {item : Option (List Nat)} :
      Reachable d → tb_dlist_insert d index item = some (n, d2) → n ≠ 0 → Reachable d2
  | remove {d d2 : tb_dlist_t} {l : List Nat} {h r : Nat} :
      Reachable d → forward_walk d = some l → h ∈ l →
      tb_dlist_remove d h = some (r, d2) → Reachable d2
  | replace {d d2 : tb_dlist_t} {h r : Nat} {item : Option (List Nat)} :
      Reachable d → tb_dlist_replace d h item = some (r, d2) → Reachable d2
  | clear {d : tb_dlist_t} : Reachable d → Reachable (tb_dlist_clear d)

/-- Repeated `tb_dlist_insert_tail`, every call successful (a non-zero handle). -/
def insert_tail_all (d : tb_dlist_t) : List (List Nat) → Option tb_dlist_t
  | [] => some d
  | x :: xs =>
    match tb_dlist_insert_tail d (some x) with
    | none => none
    | some r => if r.1 = 0 then none else insert_tail_all r.2 xs

/-- Repeated `tb_dlist_insert_head`, every call successful (a non-zero handle). -/
def insert_head_all (d : tb_dlist_t) : List (List Nat) → Option tb_dlist_t
  | [] => some d
  | x :: xs =>
    match tb_dlist_insert_head d (some x) with
    | none => none
    | some r => if r.1 = 0 then none else insert_head_all r.2 xs

/-- A sequence of successful `tb_dlist_insert` calls, each given by its target and
item. -/
def insert_seq (d : tb_dlist_t) : List (Nat × Option (List Nat)) → Option tb_dlist_t
  | [] => some d
  | c :: cs =>
    match tb_dlist_insert d c.1 c.2 with
    | none => none
    | some r => if r.1 = 0 then none else insert_seq r.2 cs

/-- A sequence of `tb_dlist_remove` calls, each on a handle that is in the list (on
its forward walk) at the time of the call. -/
def remove_seq (d : tb_dlist_t) : List Nat → Option tb_dlist_t
  | [] => some d
  | h :: hs =>
    match forward_walk d with
    | none => none
    | some l =>
      if h ∈ l then
        match tb_dlist_remove d h with
        | none => none
        | some r => remove_seq r.2 hs
      else none

/-- The adjacency invariant along the walk `l`: for adjacent nodes A then B,
`tb_dlist_itor_next` at A reads the handle of B and `tb_dlist_itor_prev` at B reads the
handle of A. -/
def Adjacent (d : tb_dlist_t) (l : List Nat) : Prop :=
  ∀ (a b : List Nat) (x y : Nat), l = a ++ x :: y :: b →
    tb_dlist_itor_next d x = some y ∧ tb_dlist_itor_prev d y = some x

/-! ## Example lists (`step = 4`, storing 32-bit integers) -/

/-- The empty list over a pool handing out the handles 1, 2, 3, 4, 5. -/
def ex_empty : tb_dlist_t := tb_dlist_init 4 [1, 2, 3, 4, 5] true

/-- A one-node list. -/
def ex_1 : tb_dlist_t :=
  { pool := { step := 12, slots := [(1, { next := 0, prev := 0, data := [1, 0, 0, 0] })],
              free := [2, 3, 4, 5] },
    head := 1, last := 1, step := 4, func_free := true, released := [] }

/-- The list `[1, 2]` built by two `insertTail`. -/
def ex_12 : tb_dlist_t :=
  { pool := { step := 12,
              slots := [(2, { next := 0, prev := 1, data := [2, 0, 0, 0] }),
                        (1, { next := 2, prev := 0, data := [1, 0, 0, 0] })],
              free := [3, 4, 5] },
    head := 1, last := 2, step := 4, func_free := true, released := [] }

/-- The list `[1, 2, 3]` built by three `insertTail`. -/
def ex_123 : tb_dlist_t :=
  { pool := { step := 12,
              slots := [(3, { next := 0, prev := 2, data := [3, 0, 0, 0] }),
                        (2, { next := 3, prev := 1, data := [2, 0, 0, 0] }),
                        (1, { next := 2, prev := 0, data := [1, 0, 0, 0] })],
              free := [4, 5] },
    head := 1, last := 3, step := 4, func_free := true, released := [] }

/-- The list `[1, 3]` left by removing the node holding 2 from `ex_123`. -/
def ex_13 : tb_dlist_t :=
  { pool := { step := 12,
              slots := [(3, { next := 0, prev := 1, data := [3, 0, 0, 0] }),
                        (1, { next := 3, prev := 0, data := [1, 0, 0, 0] })],
              free := [2, 4, 5] },
    head := 1, last := 3, step := 4, func_free := true, released := [[2, 0, 0, 0]] }

/-- The list `[0, 1, 3]` left by `insertHead(0)` on `ex_13`. -/
def ex_013 : tb_dlist_t :=
  { pool := { step := 12,
              slots := [(2, { next := 1, prev := 0, data := [0, 0, 0, 0] }),
                        (3, { next := 0, prev := 1, data := [3, 0, 0, 0] }),
                        (1, { next := 3, prev := 2, data := [1, 0, 0, 0] })],
              free := [4, 5] },
    head := 2, last := 3, step := 4, func_free := true, released := [[2, 0, 0, 0]] }

/-- The list left by inserting 9 before the node 2 of `ex_123`. -/
def ex_1423 : tb_dlist_t :=
  { pool := { step := 12,
              slots := [(4, { next := 2, prev := 1, data := [9, 0, 0, 0] }),
                        (3, { next := 0, prev := 2, data := [3, 0, 0, 0] }),
                        (2, { next := 3, prev := 4, data := [2, 0, 0, 0] }),
                        (1, { next := 4, prev := 0, data := [1, 0, 0, 0] })],
              free := [5] },
    head := 1, last := 3, step := 4, func_free := true, released := [] }

/-- A list whose pool is exhausted. -/
def ex_full : tb_dlist_t :=
  { pool := { step := 12,
              slots := [(2, { next := 0, prev := 1, data := [2, 0, 0, 0] }),
                        (1, { next := 2, prev := 0, data := [1, 0, 0, 0] })],
              free := [] },
    head := 1, last := 2, step := 4, func_free := true, released := [] }

/-- The list left by `insertHead` of A, B, C (65, 66, 67) on the empty list. -/
def ex_cba : tb_dlist_t :=
  { pool := { step := 12,
              slots := [(3, { next := 2, prev := 0, data := [67, 0, 0, 0] }),
                        (2, { next := 1, prev := 3, data := [66, 0, 0, 0] }),
                        (1, { next := 0, prev := 2, data := [65, 0, 0, 0] })],
              free := [4, 5] },
    head := 3, last := 1, step := 4, func_free := true, released := [] }

/-- The empty list left by removing the nodes 2, 1, 3 of `ex_123`. -/
def ex_gone : tb_dlist_t :=
  { pool := { step := 12, slots := [], free := [3, 1, 2, 4, 5] },
    head := 0, last := 0, step := 4, func_free := true,
    released := [[2, 0, 0, 0], [1, 0, 0, 0], [3, 0, 0, 0]] }

/-- The list `[3]` left by `nRemoveHead(2)` on `ex_123`. -/
def ex_3 : tb_dlist_t :=
  { pool := { step := 12, slots := [(3, { next := 0, prev := 0, data := [3, 0, 0, 0] })],
              free := [2, 1, 4, 5] },
    head := 3, last := 3, step := 4, func_free := true,
    released := [[1, 0, 0, 0], [2, 0, 0, 0]] }

/-- The list `[1, 2, 3, 4, 5]` over an exhausted pool. -/
def ex_12345 : tb_dlist_t :=
  { pool := { step := 12,
              slots := [(5, { next := 0, prev := 4, data := [5, 0, 0, 0] }),
                        (4, { next := 5, prev := 3, data := [4, 0, 0, 0] }),
                        (3, { next := 4, prev := 2, data := [3, 0, 0, 0] }),
                        (2, { next := 3, prev := 1, data := [2, 0, 0, 0] }),
                        (1, { next := 2, prev := 0, data := [1, 0, 0, 0] })],
              free := [] },
    head := 1, last := 5, step := 4, func_free := true, released := [] }

/-- A one-node list whose pool hands out next the handle `2^32 + 2`, which does not
fit a 32-bit link field. -/
def ex_wide : tb_dlist_t :=
  { pool := { step := 12, slots := [(1, { next := 0, prev := 0, data := [1, 0, 0, 0] })],
              free := [4294967298] },
    head := 1, last := 1, step := 4, func_free := true, released := [] }

/-- The list `[1, 2]` over a pool whose next free handle, `2^32 + 7`, does not fit a
link field. -/
def ex_wide2 : tb_dlist_t :=
  { pool := { step := 12,
              slots := [(2, { next := 0, prev := 1, data := [2, 0, 0, 0] }),
                        (1, { next := 2, prev := 0, data := [1, 0, 0, 0] })],
              free := [4294967303] },
    head := 1, last := 2, step := 4, func_free := true, released := [] }

/-! ## Lemmas on the pool -/

theorem slot_find_store (l : List (Nat × Slot)) (h : Nat) (v : Slot) (k : Nat) :
    slot_find (slot_store l h v) k
      = if k = h then (slot_find l h).map (fun _ => v) else slot_find l k := by
  induction l with
  | nil => simp [slot_store, slot_find]
  | cons e t ih =>
    by_cases he : e.1 = h
    · by_cases hk : k = h
      · simp [slot_store, slot_find, he, hk]
      · have : ¬ h = k := fun x => hk x.symm
        simp [slot_store, slot_find, he, hk, this]
    · by_cases hk : k = h
      · subst hk; simp [slot_store, slot_find, he, ih]
      · by_cases hek : e.1 = k
        · simp [slot_store, slot_find, he, hk, hek]
        · simp [slot_store, slot_find, he, hk, hek, ih]

theorem slot_store_keys (l : List (Nat × Slot)) (h : Nat) (v : Slot) :
    (slot_store l h v).map Prod.fst = l.map Prod.fst := by
  induction l with
  | nil => simp [slot_store]
  | cons e t ih =>
    by_cases he : e.1 = h
    · simp [slot_store, he]
    · simp [slot_store, he, ih]

theorem slot_find_erase (l : List (Nat × Slot)) (h k : Nat) :
    slot_find (slot_erase l h) k = if k = h then none else slot_find l k := by
  induction l with
  | nil => simp [slot_erase, slot_find]
  | cons e t ih =>
    simp only [slot_erase] at ih ⊢
    by_cases he : e.1 = h
    · rw [List.filter_cons_of_neg (by simpa using he), ih]
      by_cases hk : k = h
      · simp [hk]
      · have : ¬ e.1 = k := fun x => hk (x.symm.trans he)
        simp [hk, slot_find, this]
    · rw [List.filter_cons_of_pos (by simpa using he)]
      by_cases hk : k = h
      · subst hk; simp only [slot_find, if_neg he]; rw [ih]; simp
      · simp only [slot_find]; rw [ih]; simp [hk]

theorem slot_erase_keys (l : List (Nat × Slot)) (h : Nat) :
    (slot_erase l h).map Prod.fst = (l.map Prod.fst).filter (fun k => decide (k ≠ h)) := by
  induction l with
  | nil => simp [slot_erase]
  | cons e t ih =>
    simp only [slot_erase] at ih ⊢
    by_cases he : e.1 = h
    · rw [List.filter_cons_of_neg (by simpa using he), ih, List.map_cons,
        List.filter_cons_of_neg (by simpa using he)]
    · rw [List.filter_cons_of_pos (by simpa using he), List.map_cons, ih, List.map_cons,
        List.filter_cons_of_pos (by simpa using he)]

theorem slot_find_eq_none (l : List (Nat × Slot)) (h : Nat) :
    slot_find l h = none ↔ h ∉ l.map Prod.fst := by
  induction l with
  | nil => simp [slot_find]
  | cons e t ih =>
    by_cases he : e.1 = h
    · simp [slot_find, he]
    · have : ¬ h = e.1 := fun x => he x.symm
      simp [slot_find, he, ih, this]

theorem itor_at_some_mem {p : tb_fpool_t} {h : Nat} {s : Slot}
    (hs : tb_fpool_itor_at p h = some s) : h ≠ 0 ∧ h ∈ p.keys := by
  unfold tb_fpool_itor_at at hs
  by_cases h0 : h = 0
  · simp [h0] at hs
  · refine ⟨h0, ?_⟩
    simp only [h0, if_false] at hs
    by_contra hn
    have := (slot_find_eq_none p.slots h).2 hn
    rw [this] at hs; cases hs

theorem itor_at_none_of_not_mem {p : tb_fpool_t} {h : Nat} (hn : h ∉ p.keys) :
    tb_fpool_itor_at p h = none := by
  unfold tb_fpool_itor_at
  split
  · rfl
  · exact (slot_find_eq_none p.slots h).2 hn

theorem itor_at_set_u32 (p : tb_fpool_t) (h off v k : Nat) :
    tb_fpool_itor_at (tb_bits_set_u32_ne p h off v) k
      = if k = h then (tb_fpool_itor_at p h).map (fun s => s.set_u32 off v)
        else tb_fpool_itor_at p k := by
  unfold tb_bits_set_u32_ne tb_fpool_itor_at
  cases hf : slot_find p.slots h with
  | none =>
    by_cases hk : k = h
    · subst hk; simp [hf]
    · simp [hk]
  | some s =>
    by_cases hk : k = h
    · subst hk; by_cases h0 : k = 0 <;> simp [h0, slot_find_store, hf]
    · simp only [slot_find_store, if_neg hk]

theorem itor_at_set_data (p : tb_fpool_t) (h : Nat) (b : List Nat) (k : Nat) :
    tb_fpool_itor_at (slot_set_data p h b) k
      = if k = h then (tb_fpool_itor_at p h).map (fun s => { s with data := b })
        else tb_fpool_itor_at p k := by
  unfold slot_set_data tb_fpool_itor_at
  cases hf : slot_find p.slots h with
  | none =>
    by_cases hk : k = h
    · subst hk; simp [hf]
    · simp [hk]
  | some s =>
    by_cases hk : k = h
    · subst hk; by_cases h0 : k = 0 <;> simp [h0, slot_find_store, hf]
    · simp only [slot_find_store, if_neg hk]

@[simp] theorem set_u32_keys (p : tb_fpool_t) (h off v : Nat) :
    (tb_bits_set_u32_ne p h off v).keys = p.keys := by
  unfold tb_bits_set_u32_ne tb_fpool_t.keys
  cases slot_find p.slots h <;> simp [slot_store_keys]

@[simp] theorem set_u32_free (p : tb_fpool_t) (h off v : Nat) :
    (tb_bits_set_u32_ne p h off v).free = p.free := by
  unfold tb_bits_set_u32_ne
  cases slot_find p.slots h <;> rfl

@[simp] theorem set_u32_step (p : tb_fpool_t) (h off v : Nat) :
    (tb_bits_set_u32_ne p h off v).step = p.step := by
  unfold tb_bits_set_u32_ne
  cases slot_find p.slots h <;> rfl

@[simp] theorem set_data_keys (p : tb_fpool_t) (h : Nat) (b : List Nat) :
    (slot_set_data p h b).keys = p.keys := by
  unfold slot_set_data tb_fpool_t.keys
  cases slot_find p.slots h <;> simp [slot_store_keys]

@[simp] theorem set_data_free (p : tb_fpool_t) (h : Nat) (b : List Nat) :
    (slot_set_data p h b).free = p.free := by
  unfold slot_set_data
  cases slot_find p.slots h <;> rfl

@[simp] theorem set_data_step (p : tb_fpool_t) (h : Nat) (b : List Nat) :
    (slot_set_data p h b).step = p.step := by
  unfold slot_set_data
  cases slot_find p.slots h <;> rfl

theorem set_u32_size (p : tb_fpool_t) (h off v : Nat) :
    tb_fpool_size (tb_bits_set_u32_ne p h off v) = tb_fpool_size p := by
  have := congrArg List.length (set_u32_keys p h off v)
  simpa [tb_fpool_t.keys, tb_fpool_size] using this

theorem set_data_size (p : tb_fpool_t) (h : Nat) (b : List Nat) :
    tb_fpool_size (slot_set_data p h b) = tb_fpool_size p := by
  have := congrArg List.length (set_data_keys p h b)
  simpa [tb_fpool_t.keys, tb_fpool_size] using this

theorem size_eq_keys_length (p : tb_fpool_t) : tb_fpool_size p = p.keys.length := by
  simp [tb_fpool_size, tb_fpool_t.keys]

/-! ## Lemmas on linked runs and walks -/

theorem linked_cons_iff (p : tb_fpool_t) (pv h : Nat) (t : List Nat) (nx : Nat) :
    Linked p pv (h :: t) nx ↔
      ∃ s, tb_fpool_itor_at p h = some s ∧ s.prev = pv ∧ s.next = t.headD nx ∧
        Linked p h t nx := by
  simp only [Linked]
  cases tb_fpool_itor_at p h <;> simp

theorem headD_append (l1 l2 : List Nat) (x : Nat) :
    (l1 ++ l2).headD x = l1.headD (l2.headD x) := by
  cases l1 <;> simp

theorem getLastD_append (l1 l2 : List Nat) (x : Nat) :
    (l1 ++ l2).getLastD x = l2.getLastD (l1.getLastD x) := by
  induction l1 generalizing x with
  | nil => simp
  | cons a t ih =>
    rw [List.cons_append, List.getLastD_cons, List.getLastD_cons, ih]

theorem linked_append (p : tb_fpool_t) (l1 l2 : List Nat) (pv nx : Nat) :
    Linked p pv (l1 ++ l2) nx ↔
      Linked p pv l1 (l2.headD nx) ∧ Linked p (l1.getLastD pv) l2 nx := by
  induction l1 generalizing pv with
  | nil => simp [Linked]
  | cons h t ih =>
    simp only [List.cons_append, linked_cons_iff, ih, headD_append, List.getLastD_cons]
    constructor
    · rintro ⟨s, h1, h2, h3, h4, h5⟩
      exact ⟨⟨s, h1, h2, h3, h4⟩, h5⟩
    · rintro ⟨⟨s, h1, h2, h3, h4⟩, h5⟩
      exact ⟨s, h1, h2, h3, h4, h5⟩

theorem linked_cons_of {p : tb_fpool_t} {pv h : Nat} {t : List Nat} {nx : Nat} {s : Slot}
    (hs : tb_fpool_itor_at p h = some s) (h1 : s.prev = pv) (h2 : s.next = t.headD nx)
    (h3 : Linked p h t nx) : Linked p pv (h :: t) nx :=
  (linked_cons_iff p pv h t nx).2 ⟨s, hs, h1, h2, h3⟩

theorem linked_congr {p q : tb_fpool_t} (l : List Nat)
    (hagree : ∀ h ∈ l, tb_fpool_itor_at q h = tb_fpool_itor_at p h) (pv nx : Nat) :
    Linked q pv l nx ↔ Linked p pv l nx := by
  induction l generalizing pv with
  | nil => simp [Linked]
  | cons h t ih =>
    have ht : ∀ k ∈ t, tb_fpool_itor_at q k = tb_fpool_itor_at p k :=
      fun k hk => hagree k (List.mem_cons_of_mem _ hk)
    simp only [linked_cons_iff, hagree h (List.mem_cons_self _ _), ih ht]

theorem linked_live {p : tb_fpool_t} {l : List Nat} {pv nx : Nat} (hl : Linked p pv l nx)
    {h : Nat} (hm : h ∈ l) : ∃ s, tb_fpool_itor_at p h = some s := by
  induction l generalizing pv with
  | nil => cases hm
  | cons a t ih =>
    obtain ⟨s, h1, _, _, h4⟩ := (linked_cons_iff p pv a t nx).1 hl
    rcases List.mem_cons.1 hm with rfl | hm
    · exact ⟨s, h1⟩
    · exact ih h4 hm

theorem walk_next_zero (d : tb_dlist_t) (fuel : Nat) : walk_next d fuel 0 = some [] := by
  cases fuel <;> simp [walk_next, tb_dlist_itor_tail]

theorem walk_prev_zero (d : tb_dlist_t) (fuel : Nat) : walk_prev d fuel 0 = some [] := by
  cases fuel <;> simp [walk_prev, tb_dlist_itor_tail]

theorem walk_next_of_linked (d : tb_dlist_t) (l : List Nat) (pv fuel : Nat)
    (hl : Linked d.pool pv l 0) (hf : l.length ≤ fuel) :
    walk_next d fuel (l.headD 0) = some l := by
  induction l generalizing pv fuel with
  | nil => simpa using walk_next_zero d fuel
  | cons h t ih =>
    obtain ⟨s, h1, _, h3, h4⟩ := (linked_cons_iff d.pool pv h t 0).1 hl
    have h0 : h ≠ 0 := (itor_at_some_mem h1).1
    cases fuel with
    | zero => simp at hf
    | succ f =>
      have hf2 : t.length ≤ f := by simpa using hf
      have := ih h f h4 hf2
      simpa [walk_next, tb_dlist_itor_tail, h0, tb_dlist_itor_next, h1, tb_bits_get_u32_ne, h3]
        using this

theorem walk_prev_of_linked (d : tb_dlist_t) (l : List Nat) (nx fuel : Nat)
    (hl : Linked d.pool 0 l nx) (hf : l.length ≤ fuel) :
    walk_prev d fuel (l.getLastD 0) = some l.reverse := by
  induction l using List.reverseRecOn generalizing nx fuel with
  | nil => simpa using walk_prev_zero d fuel
  | append_singleton t x ih =>
    obtain ⟨h4, hx⟩ := (linked_append d.pool t [x] 0 nx).1 hl
    obtain ⟨s, h1, h2, _, _⟩ := (linked_cons_iff d.pool _ x [] nx).1 hx
    have h0 : x ≠ 0 := (itor_at_some_mem h1).1
    cases fuel with
    | zero => simp at hf
    | succ f =>
      have hf2 : t.length ≤ f := by simpa using hf
      have := ih x f (by simpa using h4) hf2
      rw [getLastD_append]
      simpa [walk_prev, tb_dlist_itor_tail, h0, tb_dlist_itor_prev, h1, tb_bits_get_u32_ne, h2]
        using this

theorem WF.nodup {d : tb_dlist_t} {l : List Nat} (h : WF d l) : l.Nodup :=
  (h.2.2.2.2.nodup_iff).1 (List.Nodup.of_append_left h.1.1)

theorem WF.mem_keys {d : tb_dlist_t} {l : List Nat} (h : WF d l) {k : Nat} :
    k ∈ d.pool.keys ↔ k ∈ l := h.2.2.2.2.mem_iff

theorem WF.ne_zero {d : tb_dlist_t} {l : List Nat} (h : WF d l) {k : Nat} (hk : k ∈ l) :
    k ≠ 0 := (h.1.2 k (List.mem_append_left _ (h.mem_keys.2 hk))).1

theorem WF.lt {d : tb_dlist_t} {l : List Nat} (h : WF d l) {k : Nat} (hk : k ∈ l) :
    k < 2 ^ 32 := (h.1.2 k (List.mem_append_left _ (h.mem_keys.2 hk))).2

theorem WF.size {d : tb_dlist_t} {l : List Nat} (h : WF d l) : tb_dlist_size d = l.length := by
  unfold tb_dlist_size
  rw [size_eq_keys_length]
  exact h.2.2.2.2.length_eq

theorem WF.forward {d : tb_dlist_t} {l : List Nat} (h : WF d l) : forward_walk d = some l := by
  unfold forward_walk tb_dlist_itor_head
  rw [h.2.1]
  exact walk_next_of_linked d l 0 _ h.2.2.2.1 (le_of_eq h.size.symm)

theorem WF.backward {d : tb_dlist_t} {l : List Nat} (h : WF d l) :
    backward_walk d = some l.reverse := by
  unfold backward_walk tb_dlist_itor_last
  rw [h.2.2.1]
  exact walk_prev_of_linked d l 0 _ h.2.2.2.1 (le_of_eq h.size.symm)

/-! ## The effect of `tb_dlist_insert` on the pool -/

theorem put_spec (p : tb_fpool_t) (n : Nat) (rest : List Nat) (hfree : p.free = n :: rest)
    (hn0 : n ≠ 0) :
    (tb_fpool_put p).1 = n ∧ (tb_fpool_put p).2.keys = n :: p.keys ∧
      (tb_fpool_put p).2.free = rest ∧ (tb_fpool_put p).2.step = p.step ∧
      ∀ k, tb_fpool_itor_at (tb_fpool_put p).2 k
        = if k = n then some { next := 0, prev := 0, data := List.replicate (p.step - 8) 0 }
          else tb_fpool_itor_at p k := by
  unfold tb_fpool_put
  rw [hfree]
  refine ⟨rfl, rfl, rfl, rfl, fun k => ?_⟩
  unfold tb_fpool_itor_at
  by_cases hk : k = n
  · subst hk; simp [slot_find, hn0]
  · have : ¬ n = k := fun x => hk x.symm
    simp [slot_find, hk, this]

theorem insert_init_spec (p : tb_fpool_t) (n : Nat) (rest : List Nat)
    (hfree : p.free = n :: rest) (hn0 : n ≠ 0) (bytes : List Nat) :
    ∃ q, slot_set_data
          (tb_bits_set_u32_ne (tb_bits_set_u32_ne (tb_fpool_put p).2 n 0 0) n 4 0) n bytes = q ∧
      q.keys = n :: p.keys ∧ q.free = rest ∧ q.step = p.step ∧
      ∀ k, tb_fpool_itor_at q k
        = if k = n then some { next := 0, prev := 0, data := bytes }
          else tb_fpool_itor_at p k := by
  obtain ⟨_, h2, h3, h4, h5⟩ := put_spec p n rest hfree hn0
  refine ⟨_, rfl, by simp [h2], by simp [h3], by simp [h4], fun k => ?_⟩
  by_cases hk : k = n
  · simp [itor_at_set_data, itor_at_set_u32, h5, hk, Slot.set_u32]
  · simp [itor_at_set_data, itor_at_set_u32, h5, hk]

theorem insert_empty_effect (d : tb_dlist_t) (index : Nat) (item : Option (List Nat))
    (n : Nat) (rest : List Nat) (hfree : d.pool.free = n :: rest) (hn0 : n ≠ 0)
    (hh : d.head = 0) (hl : d.last = 0) :
    ∃ q, tb_dlist_insert d index item = some (n, { d with pool := q, head := n, last := n }) ∧
      q.keys = n :: d.pool.keys ∧ q.free = rest ∧ q.step = d.pool.step ∧
      ∀ k, tb_fpool_itor_at q k
        = if k = n then some { next := 0, prev := 0, data := insert_payload d.step item }
          else tb_fpool_itor_at d.pool k := by
  obtain ⟨h1, _, _, _, h5⟩ := put_spec d.pool n rest hfree hn0
  obtain ⟨q, hq, hq2, hq3, hq4, hq5⟩ :=
    insert_init_spec d.pool n rest hfree hn0 (insert_payload d.step item)
  refine ⟨q, ?_, hq2, hq3, hq4, hq5⟩
  unfold tb_dlist_insert
  cases item <;>
  · simp only [h1, hn0, if_false, h5, if_true]
    simp only [insert_payload] at hq
    simp only [hq, hh, hl, and_self, if_true]

theorem insert_tail_effect (d : tb_dlist_t) (item : Option (List Nat))
    (n : Nat) (rest : List Nat) (hfree : d.pool.free = n :: rest) (hn0 : n ≠ 0)
    (hh : d.head ≠ 0) (hl : d.last ≠ 0) (sl : Slot)
    (hlast : tb_fpool_itor_at d.pool d.last = some sl) (hne : d.last ≠ n) :
    ∃ q, tb_dlist_insert d 0 item = some (n, { d with pool := q, last := n }) ∧
      q.keys = n :: d.pool.keys ∧ q.free = rest ∧ q.step = d.pool.step ∧
      ∀ k, tb_fpool_itor_at q k
        = if k = n then
            some { next := 0, prev := d.last % 2 ^ 32, data := insert_payload d.step item }
          else if k = d.last then some { sl with next := n % 2 ^ 32 }
          else tb_fpool_itor_at d.pool k := by
  obtain ⟨h1, _, _, _, h5⟩ := put_spec d.pool n rest hfree hn0
  obtain ⟨q, hq, hq2, hq3, hq4, hq5⟩ :=
    insert_init_spec d.pool n rest hfree hn0 (insert_payload d.step item)
  refine ⟨tb_bits_set_u32_ne (tb_bits_set_u32_ne q d.last 0 n) n 4 d.last, ?_, by simp [hq2],
    by simp [hq3], by simp [hq4], fun k => ?_⟩
  · unfold tb_dlist_insert
    cases item <;>
    · simp only [h1, hn0, if_false, h5, if_true]
      simp only [insert_payload] at hq
      simp only [hq, hh, hl, and_self, or_self, if_false, hq5, if_neg hne, hlast, if_true]
  · by_cases hk : k = n
    · subst hk
      have : ¬ k = d.last := fun x => hne x.symm
      simp [itor_at_set_u32, hq5, this, Slot.set_u32]
    · by_cases hk2 : k = d.last
      · subst hk2
        simp [itor_at_set_u32, hq5, hk, hlast, Slot.set_u32]
      · simp [itor_at_set_u32, hq5, hk, hk2]

theorem insert_head_effect (d : tb_dlist_t) (item : Option (List Nat))
    (n : Nat) (rest : List Nat) (hfree : d.pool.free = n :: rest) (hn0 : n ≠ 0)
    (hh : d.head ≠ 0) (hl : d.last ≠ 0) (sh : Slot)
    (hhead : tb_fpool_itor_at d.pool d.head = some sh) (hne : d.head ≠ n) :
    ∃ q, tb_dlist_insert d d.head item = some (n, { d with pool := q, head := n }) ∧
      q.keys = n :: d.pool.keys ∧ q.free = rest ∧ q.step = d.pool.step ∧
      ∀ k, tb_fpool_itor_at q k
        = if k = n then
            some { next := d.head % 2 ^ 32, prev := 0, data := insert_payload d.step item }
          else if k = d.head then some { sh with prev := n % 2 ^ 32 }
          else tb_fpool_itor_at d.pool k := by
  obtain ⟨h1, _, _, _, h5⟩ := put_spec d.pool n rest hfree hn0
  obtain ⟨q, hq, hq2, hq3, hq4, hq5⟩ :=
    insert_init_spec d.pool n rest hfree hn0 (insert_payload d.step item)
  refine ⟨tb_bits_set_u32_ne (tb_bits_set_u32_ne q d.head 4 n) n 0 d.head, ?_, by simp [hq2],
    by simp [hq3], by simp [hq4], fun k => ?_⟩
  · unfold tb_dlist_insert
    cases item <;>
    · simp only [h1, hn0, if_false, h5, if_true]
      simp only [insert_payload] at hq
      simp only [hq, hh, hl, and_self, or_self, if_false, hq5, if_neg hne, hhead, if_true]
  · by_cases hk : k = n
    · subst hk
      have : ¬ k = d.head := fun x => hne x.symm
      simp [itor_at_set_u32, hq5, this, Slot.set_u32]
    · by_cases hk2 : k = d.head
      · subst hk2
        simp [itor_at_set_u32, hq5, hk, hhead, Slot.set_u32]
      · simp [itor_at_set_u32, hq5, hk, hk2]

theorem insert_body_effect (d : tb_dlist_t) (index : Nat) (item : Option (List Nat))
    (n : Nat) (rest : List Nat) (hfree : d.pool.free = n :: rest) (hn0 : n ≠ 0)
    (hh : d.head ≠ 0) (hl : d.last ≠ 0) (hi0 : index ≠ 0) (hih : index ≠ d.head)
    (sb sp : Slot) (hbody : tb_fpool_itor_at d.pool index = some sb) (hne : index ≠ n)
    (hprev : tb_fpool_itor_at d.pool sb.prev = some sp) (hnp : sb.prev ≠ n)
    (hbp : sb.prev ≠ index) :
    ∃ q, tb_dlist_insert d index item = some (n, { d with pool := q }) ∧
      q.keys = n :: d.pool.keys ∧ q.free = rest ∧ q.step = d.pool.step ∧
      ∀ k, tb_fpool_itor_at q k
        = if k = n then
            some { next := index % 2 ^ 32, prev := sb.prev % 2 ^ 32,
                   data := insert_payload d.step item }
          else if k = index then some { sb with prev := n % 2 ^ 32 }
          else if k = sb.prev then some { sp with next := n % 2 ^ 32 }
          else tb_fpool_itor_at d.pool k := by
  obtain ⟨h1, _, _, _, h5⟩ := put_spec d.pool n rest hfree hn0
  obtain ⟨q, hq, hq2, hq3, hq4, hq5⟩ :=
    insert_init_spec d.pool n rest hfree hn0 (insert_payload d.step item)
  refine ⟨tb_bits_set_u32_ne (tb_bits_set_u32_ne (tb_bits_set_u32_ne
      (tb_bits_set_u32_ne q n 0 index) n 4 sb.prev) sb.prev 0 n) index 4 n, ?_, by simp [hq2],
    by simp [hq3], by simp [hq4], fun k => ?_⟩
  · unfold tb_dlist_insert
    cases item <;>
    · simp only [h1, hn0, if_false, h5, if_true]
      simp only [insert_payload] at hq
      simp only [hq, hh, hl, and_self, or_self, if_false, hq5, if_neg hne, hbody, if_true, hi0,
        hih, tb_bits_get_u32_ne]
      simp [hnp, hprev]
  · have e1 : ¬ n = index := fun x => hne x.symm
    have e2 : ¬ n = sb.prev := fun x => hnp x.symm
    have e3 : ¬ index = sb.prev := fun x => hbp x.symm
    by_cases hk : k = n
    · subst hk
      simp [itor_at_set_u32, hq5, e1, e2, Slot.set_u32]
    · by_cases hk2 : k = index
      · subst hk2
        simp [itor_at_set_u32, hq5, hk, hbody, Slot.set_u32, e3]
      · by_cases hk3 : k = sb.prev
        · subst hk3
          simp [itor_at_set_u32, hq5, hk, hk2, hprev, Slot.set_u32]
        · simp [itor_at_set_u32, hq5, hk, hk2, hk3]

/-! ## `tb_dlist_insert` keeps the list well formed -/

theorem insert_before_not_mem (n t : Nat) (l : List Nat) (ht : t ∉ l) :
    insert_before n t l = l ++ [n] := by
  induction l with
  | nil => rfl
  | cons h r ih =>
    have h1 : ¬ h = t := fun x => ht (by simp [x])
    have h2 : t ∉ r := fun x => ht (List.mem_cons_of_mem _ x)
    simp [insert_before, h1, ih h2]

theorem insert_before_split (n t : Nat) (l1 l2 : List Nat) (ht : t ∉ l1) :
    insert_before n t (l1 ++ t :: l2) = l1 ++ n :: t :: l2 := by
  induction l1 with
  | nil => simp [insert_before]
  | cons h r ih =>
    have h1 : ¬ h = t := fun x => ht (by simp [x])
    have h2 : t ∉ r := fun x => ht (List.mem_cons_of_mem _ x)
    simp [insert_before, h1, ih h2]

theorem insert_before_perm (n t : Nat) (l : List Nat) :
    (insert_before n t l).Perm (n :: l) := by
  induction l with
  | nil => simp [insert_before]
  | cons h r ih =>
    by_cases h1 : h = t
    · simp [insert_before, h1]
    · simp only [insert_before, if_neg h1]
      exact (List.Perm.cons h ih).trans (List.Perm.swap n h r)

theorem WF.fresh {d : tb_dlist_t} {l : List Nat} (hwf : WF d l) {n : Nat} {rest : List Nat}
    (hfree : d.pool.free = n :: rest) : n ≠ 0 ∧ n < 2 ^ 32 ∧ n ∉ l ∧ n ∉ d.pool.keys := by
  have hmk := fun hm => (hwf.mem_keys (k := n)).2 hm
  obtain ⟨⟨hnd, hb⟩, _⟩ := hwf
  rw [hfree] at hnd hb
  have hb := hb n (by simp)
  have hnk : n ∉ d.pool.keys := by
    intro hm
    have := List.nodup_append.1 hnd
    exact this.2.2 hm (by simp)
  exact ⟨hb.1, hb.2, fun hm => hnk (hmk hm), hnk⟩

theorem WF.of_insert {d : tb_dlist_t} {l : List Nat} (hwf : WF d l) {n : Nat} {rest : List Nat}
    (hfree : d.pool.free = n :: rest) {q : tb_fpool_t} (hk : q.keys = n :: d.pool.keys)
    (hf : q.free = rest) {l2 : List Nat} (hperm : l2.Perm (n :: l)) {hd lst : Nat}
    (hh : hd = l2.headD 0) (hl : lst = l2.getLastD 0) (hlink : Linked q 0 l2 0) :
    WF { d with pool := q, head := hd, last := lst } l2 := by
  obtain ⟨⟨hnd, hb⟩, _, _, _, hp⟩ := hwf
  rw [hfree] at hnd hb
  refine ⟨⟨?_, ?_⟩, hh, hl, hlink, ?_⟩
  · simp only [hk, hf]
    have : (n :: d.pool.keys ++ rest).Perm (d.pool.keys ++ n :: rest) := by
      simpa using (@List.perm_middle _ n d.pool.keys rest).symm
    exact this.nodup_iff.2 hnd
  · intro h hm
    simp only [hk, hf] at hm
    apply hb
    simp only [List.mem_append, List.mem_cons] at hm ⊢
    tauto
  · simp only [hk]
    exact (List.Perm.cons n hp).trans hperm.symm

theorem WF.live {d : tb_dlist_t} {l : List Nat} (hwf : WF d l) {k : Nat} (hk : k ∈ l) :
    ∃ s, tb_fpool_itor_at d.pool k = some s := linked_live hwf.2.2.2.1 hk

theorem headD_mem_of_ne_nil (l : List Nat) (x : Nat) (h : l ≠ []) : l.headD x ∈ l := by
  cases l with
  | nil => exact absurd rfl h
  | cons a t => simp

theorem getLastD_mem_of_ne_nil (l : List Nat) (x : Nat) (h : l ≠ []) : l.getLastD x ∈ l := by
  rcases List.eq_nil_or_concat l with h1 | ⟨t, a, rfl⟩
  · exact absurd h1 h
  · rw [List.concat_eq_append, getLastD_append]; simp

theorem WF.head_ne_zero {d : tb_dlist_t} {l : List Nat} (hwf : WF d l) (h : l ≠ []) :
    d.head ≠ 0 := by
  rw [hwf.2.1]; exact hwf.ne_zero (headD_mem_of_ne_nil l 0 h)

theorem WF.last_ne_zero {d : tb_dlist_t} {l : List Nat} (hwf : WF d l) (h : l ≠ []) :
    d.last ≠ 0 := by
  rw [hwf.2.2.1]; exact hwf.ne_zero (getLastD_mem_of_ne_nil l 0 h)

theorem mod32 {k : Nat} (h : k < 2 ^ 32) : k % 4294967296 = k := Nat.mod_eq_of_lt h

theorem insert_wf_empty {d : tb_dlist_t} (hwf : WF d []) {n : Nat} {rest : List Nat}
    (hfree : d.pool.free = n :: rest) (index : Nat) (item : Option (List Nat)) :
    ∃ d2, tb_dlist_insert d index item = some (n, d2) ∧ WF d2 [n] ∧ InsertFrame d d2 n item := by
  obtain ⟨hn0, hlt, hnl, hnk⟩ := hwf.fresh hfree
  have hh : d.head = 0 := hwf.2.1
  have hl : d.last = 0 := hwf.2.2.1
  obtain ⟨q, hq, hk, hf, _, hat⟩ := insert_empty_effect d index item n rest hfree hn0 hh hl
  refine ⟨_, hq, ?_, ?_⟩
  · refine hwf.of_insert hfree hk hf (List.Perm.refl _) rfl rfl ?_
    simp [Linked, hat]
  · refine ⟨rfl, rfl, rfl, by simp [hf, hfree], ?_, fun k hkn => ?_⟩
    · simp [tb_dlist_itor_at, tb_dlist_itor_const_at, hat]
    · simp [tb_dlist_itor_at, tb_dlist_itor_const_at, hat, hkn]

theorem insert_wf_tail {d : tb_dlist_t} {l : List Nat} (hwf : WF d l) (hne : l ≠ []) {n : Nat}
    {rest : List Nat} (hfree : d.pool.free = n :: rest) (item : Option (List Nat)) :
    ∃ d2, tb_dlist_insert d 0 item = some (n, d2) ∧ WF d2 (l ++ [n]) ∧
      InsertFrame d d2 n item := by
  obtain ⟨hn0, hlt, hnl, hnk⟩ := hwf.fresh hfree
  have hh := hwf.head_ne_zero hne
  have hl := hwf.last_ne_zero hne
  rcases List.eq_nil_or_concat l with h1 | ⟨t, a, rfl⟩
  · exact absurd h1 hne
  rw [List.concat_eq_append] at *
  have hlast : d.last = a := by rw [hwf.2.2.1, getLastD_append]; simp
  have ha : a ∈ t ++ [a] := by simp
  have hlk := hwf.2.2.2.1
  obtain ⟨ht, hx⟩ := (linked_append d.pool t [a] 0 0).1 hlk
  obtain ⟨sl, h1, h2, h3, _⟩ := (linked_cons_iff d.pool _ a [] 0).1 hx
  have han : a ≠ n := fun x => hnl (x ▸ ha)
  obtain ⟨q, hq, hk, hf, _, hat⟩ :=
    insert_tail_effect d item n rest hfree hn0 hh hl sl (hlast ▸ h1) (hlast ▸ han)
  rw [hlast] at hat
  have hnd := hwf.nodup
  have hat_t : ∀ k ∈ t, tb_fpool_itor_at q k = tb_fpool_itor_at d.pool k := by
    intro k hk
    have k1 : k ≠ n := fun x => hnl (by simp [← x, hk])
    have k2 : k ≠ a := by
      intro x; subst x
      exact (List.nodup_append.1 hnd).2.2 hk (by simp)
    simp [hat, k1, k2]
  refine ⟨_, hq, ?_, ?_⟩
  · refine hwf.of_insert hfree hk hf ?_ ?_ ?_ ?_
    · simpa using (@List.perm_append_comm _ (t ++ [a]) [n])
    · simp only [hwf.2.1, headD_append]; simp
    · rw [getLastD_append]; simp
    · rw [List.append_assoc, linked_append]
      refine ⟨(linked_congr t hat_t 0 _).2 (by simpa using ht), ?_⟩
      simp [Linked, hat, han, h2, mod32 hlt, mod32 (hwf.lt ha)]
  · refine ⟨rfl, rfl, rfl, by simp [hf, hfree], ?_, fun k hkn => ?_⟩
    · simp [tb_dlist_itor_at, tb_dlist_itor_const_at, hat]
    · by_cases hka : k = a
      · subst hka; simp [tb_dlist_itor_at, tb_dlist_itor_const_at, hat, hkn, h1]
      · simp [tb_dlist_itor_at, tb_dlist_itor_const_at, hat, hkn, hka]

theorem insert_wf_head {d : tb_dlist_t} {hd : Nat} {t : List Nat} (hwf : WF d (hd :: t))
    {n : Nat} {rest : List Nat} (hfree : d.pool.free = n :: rest) (item : Option (List Nat)) :
    ∃ d2, tb_dlist_insert d hd item = some (n, d2) ∧ WF d2 (n :: hd :: t) ∧
      InsertFrame d d2 n item := by
  obtain ⟨hn0, hlt, hnl, hnk⟩ := hwf.fresh hfree
  have hh := hwf.head_ne_zero (by simp)
  have hl := hwf.last_ne_zero (by simp)
  have hhead : d.head = hd := by rw [hwf.2.1]; rfl
  have ha : hd ∈ hd :: t := by simp
  obtain ⟨sh, h1, h2, h3, h4⟩ := (linked_cons_iff d.pool _ hd t 0).1 hwf.2.2.2.1
  have han : hd ≠ n := fun x => hnl (x ▸ ha)
  obtain ⟨q, hq, hk, hf, _, hat⟩ :=
    insert_head_effect d item n rest hfree hn0 hh hl sh (hhead ▸ h1) (hhead ▸ han)
  rw [hhead] at hat hq
  have hnd := hwf.nodup
  have hat_t : ∀ k ∈ t, tb_fpool_itor_at q k = tb_fpool_itor_at d.pool k := by
    intro k hk
    have k1 : k ≠ n := fun x => hnl (by simp [← x, hk])
    have k2 : k ≠ hd := by
      intro x; subst x
      exact (List.nodup_cons.1 hnd).1 hk
    simp [hat, k1, k2]
  refine ⟨_, hq, ?_, ?_⟩
  · refine hwf.of_insert hfree hk hf (List.Perm.refl _) rfl ?_ ?_
    · rw [hwf.2.2.1, List.getLastD_cons, List.getLastD_cons, List.getLastD_cons]
    · refine linked_cons_of ((hat n).trans (if_pos rfl)) rfl (by simp [mod32 (hwf.lt ha)]) ?_
      refine linked_cons_of ((hat hd).trans ((if_neg han).trans (if_pos rfl)))
        (by simp [mod32 hlt]) h3 ?_
      exact (linked_congr t hat_t hd 0).2 h4
  · refine ⟨rfl, rfl, rfl, by simp [hf, hfree], ?_, fun k hkn => ?_⟩
    · simp [tb_dlist_itor_at, tb_dlist_itor_const_at, hat]
    · by_cases hka : k = hd
      · subst hka; simp [tb_dlist_itor_at, tb_dlist_itor_const_at, hat, hkn, h1]
      · simp [tb_dlist_itor_at, tb_dlist_itor_const_at, hat, hkn, hka]

theorem insert_wf_body {d : tb_dlist_t} {l l2 : List Nat} {pr b : Nat}
    (hwf : WF d (l ++ pr :: b :: l2)) {n : Nat} {rest : List Nat}
    (hfree : d.pool.free = n :: rest) (item : Option (List Nat)) :
    ∃ d2, tb_dlist_insert d b item = some (n, d2) ∧ WF d2 (l ++ pr :: n :: b :: l2) ∧
      InsertFrame d d2 n item := by
  obtain ⟨hn0, hlt, hnl, hnk⟩ := hwf.fresh hfree
  have hh := hwf.head_ne_zero (by simp)
  have hl := hwf.last_ne_zero (by simp)
  have hnd := hwf.nodup
  have hb : b ∈ l ++ pr :: b :: l2 := by simp
  have hp : pr ∈ l ++ pr :: b :: l2 := by simp
  obtain ⟨hl1, hx⟩ := (linked_append d.pool l (pr :: b :: l2) 0 0).1 hwf.2.2.2.1
  obtain ⟨sp, p1, p2, p3, p4⟩ := (linked_cons_iff d.pool _ pr _ 0).1 hx
  obtain ⟨sb, b1, b2, b3, b4⟩ := (linked_cons_iff d.pool _ b _ 0).1 p4
  have hbn : b ≠ n := fun x => hnl (x ▸ hb)
  have hpn : pr ≠ n := fun x => hnl (x ▸ hp)
  have hnd2 : (pr :: b :: l2).Nodup := (List.nodup_append.1 hnd).2.1
  have hpb : pr ≠ b := by
    intro x; subst x
    exact (List.nodup_cons.1 hnd2).1 (by simp)
  have hbh : b ≠ d.head := by
    rw [hwf.2.1, headD_append]
    intro x
    cases l with
    | nil => simp at x; exact hpb x.symm
    | cons a t =>
      simp at x
      exact (List.nodup_append.1 hnd).2.2 (show b ∈ a :: t by simp [x]) (by simp)
  obtain ⟨q, hq, hk, hf, _, hat⟩ :=
    insert_body_effect d b item n rest hfree hn0 hh hl (hwf.ne_zero hb) hbh sb sp b1 hbn
      (b2 ▸ p1) (b2 ▸ hpn) (b2 ▸ hpb)
  rw [b2] at hat
  have hat_l : ∀ k ∈ l, tb_fpool_itor_at q k = tb_fpool_itor_at d.pool k := by
    intro k hk
    have k1 : k ≠ n := fun x => hnl (by simp [← x, hk])
    have k2 : k ≠ b := by
      intro x; subst x
      exact (List.nodup_append.1 hnd).2.2 hk (by simp)
    have k3 : k ≠ pr := by
      intro x; subst x
      exact (List.nodup_append.1 hnd).2.2 hk (by simp)
    simp [hat, k1, k2, k3]
  have hat_l2 : ∀ k ∈ l2, tb_fpool_itor_at q k = tb_fpool_itor_at d.pool k := by
    intro k hk
    have k1 : k ≠ n := fun x => hnl (by simp [← x, hk])
    have k2 : k ≠ b := by
      intro x; subst x
      exact (List.nodup_cons.1 (List.nodup_cons.1 hnd2).2).1 hk
    have k3 : k ≠ pr := by
      intro x; subst x
      exact (List.nodup_cons.1 hnd2).1 (by simp [hk])
    simp [hat, k1, k2, k3]
  refine ⟨_, hq, ?_, ?_⟩
  · refine hwf.of_insert hfree hk hf ?_ ?_ ?_ ?_
    · have h1 : (l ++ pr :: n :: b :: l2).Perm (n :: (l ++ pr :: b :: l2)) := by
        have := (@List.perm_middle _ n (l ++ [pr]) (b :: l2))
        simpa using this
      exact h1
    · simp only [hwf.2.1, headD_append]; simp
    · simp only [hwf.2.2.1, getLastD_append, List.getLastD_cons]
    · rw [linked_append]
      refine ⟨(linked_congr l hat_l 0 _).2 (by simpa using hl1), ?_⟩
      refine linked_cons_of
        ((hat pr).trans ((if_neg hpn).trans ((if_neg hpb).trans (if_pos rfl)))) p2
        (by simp [mod32 hlt]) ?_
      refine linked_cons_of ((hat n).trans (if_pos rfl)) (by simp [mod32 (hwf.lt hp)])
        (by simp [mod32 (hwf.lt hb)]) ?_
      refine linked_cons_of ((hat b).trans ((if_neg hbn).trans (if_pos rfl)))
        (by simp [mod32 hlt]) b3 ?_
      exact (linked_congr l2 hat_l2 b 0).2 b4
  · refine ⟨rfl, rfl, rfl, by simp [hf, hfree], ?_, fun k hkn => ?_⟩
    · simp [tb_dlist_itor_at, tb_dlist_itor_const_at, hat]
    · by_cases hka : k = b
      · subst hka; simp [tb_dlist_itor_at, tb_dlist_itor_const_at, hat, hkn, b1]
      · by_cases hkp : k = pr
        · subst hkp; simp [tb_dlist_itor_at, tb_dlist_itor_const_at, hat, hkn, hka, p1]
        · simp [tb_dlist_itor_at, tb_dlist_itor_const_at, hat, hkn, hka, hkp]

/-- A successful `tb_dlist_insert` on a well-formed list: the handle returned is the
head of the free list, the new forward sequence has it right before `index`, and
nothing else changes. -/
theorem insert_spec {d : tb_dlist_t} {l : List Nat} (hwf : WF d l) {n : Nat} {rest : List Nat}
    (hfree : d.pool.free = n :: rest) (index : Nat) (item : Option (List Nat))
    (hidx : l = [] ∨ index = 0 ∨ index ∈ l) :
    ∃ d2, tb_dlist_insert d index item = some (n, d2) ∧ WF d2 (insert_before n index l) ∧
      InsertFrame d d2 n item := by
  by_cases hl : l = []
  · subst hl
    exact insert_wf_empty hwf hfree index item
  rcases hidx with h | h | h
  · exact absurd h hl
  · subst h
    have h0 : (0 : Nat) ∉ l := fun x => hwf.ne_zero x rfl
    rw [insert_before_not_mem n 0 l h0]
    exact insert_wf_tail hwf hl hfree item
  · obtain ⟨l1, l2, rfl⟩ := List.append_of_mem h
    have hnd := hwf.nodup
    have hni : index ∉ l1 := fun x => (List.nodup_append.1 hnd).2.2 x (by simp)
    rw [insert_before_split n index l1 l2 hni]
    rcases List.eq_nil_or_concat l1 with h1 | ⟨t, a, rfl⟩
    · subst h1
      exact insert_wf_head hwf hfree item
    · rw [List.concat_eq_append] at *
      have e1 : t ++ [a] ++ index :: l2 = t ++ a :: index :: l2 := by simp
      have e2 : t ++ [a] ++ n :: index :: l2 = t ++ a :: n :: index :: l2 := by simp
      rw [e1] at hwf
      rw [e2]
      exact insert_wf_body hwf hfree item

theorem insert_exhausted (d : tb_dlist_t) (index : Nat) (item : Option (List Nat))
    (hput : tb_fpool_put d.pool = (0, d.pool)) : tb_dlist_insert d index item = some (0, d) := by
  unfold tb_dlist_insert
  simp [hput]

theorem put_of_free_nil (p : tb_fpool_t) (h : p.free = []) : tb_fpool_put p = (0, p) := by
  unfold tb_fpool_put
  rw [h]

theorem insert_invalid_aborts {d : tb_dlist_t} {l : List Nat} (hwf : WF d l) (hl : l ≠ [])
    {n : Nat} {rest : List Nat} (hfree : d.pool.free = n :: rest) (index : Nat)
    (item : Option (List Nat)) (hi0 : index ≠ 0) (hil : index ∉ l) :
    tb_dlist_insert d index item = none := by
  obtain ⟨hn0, hlt, hnl, hnk⟩ := hwf.fresh hfree
  have hh := hwf.head_ne_zero hl
  have hls := hwf.last_ne_zero hl
  have hih : index ≠ d.head := by
    intro x; rw [hwf.2.1] at x
    exact hil (x ▸ headD_mem_of_ne_nil l 0 hl)
  have hnone : tb_fpool_itor_at d.pool index = none :=
    itor_at_none_of_not_mem (fun x => hil (hwf.mem_keys.1 x))
  have h00 : tb_fpool_itor_at d.pool 0 = none := by simp [tb_fpool_itor_at]
  obtain ⟨h1, _, _, _, h5⟩ := put_spec d.pool n rest hfree hn0
  obtain ⟨q, hq, hq2, hq3, hq4, hq5⟩ :=
    insert_init_spec d.pool n rest hfree hn0 (insert_payload d.step item)
  have hn0b : ¬ 0 = n := fun x => hn0 x.symm
  unfold tb_dlist_insert
  cases item <;>
  · simp only [h1, hn0, if_false, h5, if_true]
    simp only [insert_payload] at hq
    simp only [hq, hh, hls, and_self, or_self, if_false, hq5, hi0, hih, tb_bits_get_u32_ne]
    by_cases hin : index = n
    · simp [hin, hn0b, h00]
    · simp [hin, hnone]

theorem take_append_drop_at (l : List Nat) (i t : Nat) (h : l[i]? = some t) :
    l = l.take i ++ t :: l.drop (i + 1) ∧ l.drop i = t :: l.drop (i + 1) := by
  have hi : i < l.length := by
    by_contra hc
    rw [List.getElem?_eq_none (not_lt.1 hc)] at h; cases h
  have hd : l.drop i = t :: l.drop (i + 1) := by
    rw [List.drop_eq_getElem_cons hi]
    congr 1
    rw [List.getElem?_eq_getElem hi] at h
    exact Option.some.inj h
  refine ⟨?_, hd⟩
  rw [← hd, List.take_append_drop]

theorem insert_before_at (n t : Nat) (l : List Nat) (hnd : l.Nodup) (i : Nat)
    (h : l[i]? = some t) : insert_before n t l = l.take i ++ [n] ++ l.drop i := by
  obtain ⟨h1, h2⟩ := take_append_drop_at l i t h
  have hni : t ∉ l.take i := by
    rw [h1] at hnd
    exact fun x => (List.nodup_append.1 hnd).2.2 x (by simp)
  conv_lhs => rw [h1]
  rw [insert_before_split n t _ _ hni, h2]
  simp

/-- A successful insert read backwards: the handle is the head of the free list, the
target was the boundary or a node (or the list was empty), and the list is again
well formed. -/
theorem insert_success_inv {d : tb_dlist_t} {l : List Nat} (hwf : WF d l) {index : Nat}
    {item : Option (List Nat)} {n : Nat} {d2 : tb_dlist_t}
    (hins : tb_dlist_insert d index item = some (n, d2)) (hn : n ≠ 0) :
    (∃ rest, d.pool.free = n :: rest) ∧ (l = [] ∨ index = 0 ∨ index ∈ l) ∧
      WF d2 (insert_before n index l) ∧ InsertFrame d d2 n item := by
  cases hfree : d.pool.free with
  | nil =>
    rw [insert_exhausted d index item (put_of_free_nil _ hfree)] at hins
    simp only [Option.some.injEq, Prod.mk.injEq] at hins
    exact absurd hins.1.symm hn
  | cons m rest =>
    by_cases hv : l = [] ∨ index = 0 ∨ index ∈ l
    · obtain ⟨d3, h1, h2, h3⟩ := insert_spec hwf hfree index item hv
      rw [h1] at hins
      simp only [Option.some.injEq, Prod.mk.injEq] at hins
      obtain ⟨rfl, rfl⟩ := hins
      exact ⟨⟨rest, rfl⟩, hv, h2, h3⟩
    · simp only [not_or] at hv
      rw [insert_invalid_aborts hwf hv.1 hfree index item hv.2.1 hv.2.2] at hins
      cases hins

/-! ## `tb_dlist_remove` keeps the list well formed -/

theorem del_spec (f : Slot → Trace → Trace) (p : tb_fpool_t) (h : Nat) (tr : Trace) (s : Slot)
    (hs : tb_fpool_itor_at p h = some s) :
    (tb_fpool_del f p h tr).2 = f s tr ∧
      (tb_fpool_del f p h tr).1.keys = p.keys.filter (fun k => decide (k ≠ h)) ∧
      (tb_fpool_del f p h tr).1.free = h :: p.free ∧
      (tb_fpool_del f p h tr).1.step = p.step ∧
      ∀ k, tb_fpool_itor_at (tb_fpool_del f p h tr).1 k
        = if k = h then none else tb_fpool_itor_at p k := by
  unfold tb_fpool_del
  rw [hs]
  refine ⟨rfl, ?_, rfl, rfl, fun k => ?_⟩
  · simp only [tb_fpool_t.keys]
    exact slot_erase_keys p.slots h
  · simp only [tb_fpool_itor_at, slot_find_erase]
    by_cases hk : k = h
    · simp [hk]
    · simp [hk]

theorem filter_ne_eq_erase (l : List Nat) (h : Nat) (hnd : l.Nodup) :
    l.filter (fun k => decide (k ≠ h)) = l.erase h := by
  induction l with
  | nil => rfl
  | cons a t ih =>
    have hnd2 := (List.nodup_cons.1 hnd)
    by_cases ha : a = h
    · subst ha
      rw [List.filter_cons_of_neg (by simp), List.erase_cons_head]
      apply List.filter_eq_self.2
      intro k hk
      have : k ≠ a := fun x => hnd2.1 (x ▸ hk)
      simpa using this
    · rw [List.filter_cons_of_pos (by simpa using ha), ih hnd2.2, List.erase_cons_tail]
      simpa using ha

theorem WF.of_remove {d : tb_dlist_t} {l : List Nat} (hwf : WF d l) {h : Nat} (hm : h ∈ l)
    {q : tb_fpool_t} (hk : q.keys = d.pool.keys.filter (fun k => decide (k ≠ h)))
    (hf : q.free = h :: d.pool.free) {hd lst : Nat} {tr : Trace}
    (hh : hd = (l.erase h).headD 0) (hl : lst = (l.erase h).getLastD 0)
    (hlink : Linked q 0 (l.erase h) 0) :
    WF { d with pool := q, head := hd, last := lst, released := tr } (l.erase h) := by
  have hmk := hwf.mem_keys.2 hm
  obtain ⟨⟨hnd, hb⟩, _, _, _, hp⟩ := hwf
  have hndk : d.pool.keys.Nodup := List.Nodup.of_append_left hnd
  rw [filter_ne_eq_erase _ _ hndk] at hk
  have hperm : (d.pool.keys.erase h ++ h :: d.pool.free).Perm (d.pool.keys ++ d.pool.free) := by
    have h1 : (d.pool.keys.erase h ++ h :: d.pool.free).Perm
        (h :: d.pool.keys.erase h ++ d.pool.free) :=
      @List.perm_middle _ h (d.pool.keys.erase h) d.pool.free
    exact h1.trans (List.Perm.append_right _ (List.perm_cons_erase hmk).symm)
  refine ⟨⟨?_, ?_⟩, hh, hl, hlink, ?_⟩
  · simp only [hk, hf]
    exact hperm.nodup_iff.2 hnd
  · intro k hkm
    simp only [hk, hf] at hkm
    exact hb k (hperm.mem_iff.1 hkm)
  · simp only [hk]
    exact hp.erase h

theorem erase_split (l1 l2 : List Nat) (h : Nat) (hn : h ∉ l1) :
    (l1 ++ h :: l2).erase h = l1 ++ l2 := by
  rw [List.erase_append_right _ hn, List.erase_cons_head]

theorem remove_wf_only {d : tb_dlist_t} {h : Nat} (hwf : WF d [h]) :
    ∃ d2, tb_dlist_remove d h = some (h, d2) ∧ WF d2 [] ∧ RemoveFrame d d2 h := by
  have hm : h ∈ [h] := by simp
  have h0 := hwf.ne_zero hm
  have hhead : d.head = h := hwf.2.1
  have hlast : d.last = h := hwf.2.2.1
  obtain ⟨s, hs⟩ := hwf.live hm
  obtain ⟨e1, e2, e3, e4, e5⟩ :=
    del_spec (tb_dlist_item_free d.func_free) d.pool h d.released s hs
  have hrem : tb_dlist_remove d h = some (h, { d with
      pool := (tb_fpool_del (tb_dlist_item_free d.func_free) d.pool h d.released).1,
      released := (tb_fpool_del (tb_dlist_item_free d.func_free) d.pool h d.released).2,
      head := 0, last := 0 }) := by
    unfold tb_dlist_remove
    simp only [h0, if_false, hhead, hlast, ne_eq, not_false_eq_true, and_self, if_true,
      not_true_eq_false]
  refine ⟨_, hrem, ?_, ?_⟩
  · have : WF { d with
        pool := (tb_fpool_del (tb_dlist_item_free d.func_free) d.pool h d.released).1,
        released := (tb_fpool_del (tb_dlist_item_free d.func_free) d.pool h d.released).2,
        head := 0, last := 0 } ([h].erase h) :=
      hwf.of_remove hm e2 e3 (by simp) (by simp) (by simp [Linked])
    simpa using this
  · refine ⟨rfl, rfl, e3, ⟨s, hs, e1⟩, by simp [e5], fun k hk => ?_⟩
    simp [tb_dlist_itor_at, tb_dlist_itor_const_at, e5, hk]

theorem remove_wf_head {d : tb_dlist_t} {h nx : Nat} {t : List Nat}
    (hwf : WF d (h :: nx :: t)) :
    ∃ d2, tb_dlist_remove d h = some (nx, d2) ∧ WF d2 (nx :: t) ∧ RemoveFrame d d2 h := by
  have hm : h ∈ h :: nx :: t := by simp
  have hmx : nx ∈ h :: nx :: t := by simp
  have h0 := hwf.ne_zero hm
  have hnd := hwf.nodup
  have hhead : d.head = h := hwf.2.1
  have hlm : d.last ∈ nx :: t := by
    rw [hwf.2.2.1, List.getLastD_cons]
    have := getLastD_mem_of_ne_nil (nx :: t) h (by simp)
    simpa using this
  have hlast : h ≠ d.last := fun x => (List.nodup_cons.1 hnd).1 (x ▸ hlm)
  have hl0 := hwf.last_ne_zero (by simp)
  obtain ⟨s, hs, s2, s3, s4⟩ := (linked_cons_iff d.pool _ h _ 0).1 hwf.2.2.2.1
  obtain ⟨sx, x1, x2, x3, x4⟩ := (linked_cons_iff d.pool _ nx _ 0).1 s4
  have hxh : nx ≠ h := fun x => (List.nodup_cons.1 hnd).1 (by simp [← x])
  have hhx : h ≠ nx := fun x => hxh x.symm
  have hs2 : tb_fpool_itor_at (tb_bits_set_u32_ne d.pool nx 4 0) h = some s := by
    simp [itor_at_set_u32, hhx, hs]
  obtain ⟨e1, e2, e3, e4, e5⟩ :=
    del_spec (tb_dlist_item_free d.func_free) (tb_bits_set_u32_ne d.pool nx 4 0) h
      d.released s hs2
  simp only [set_u32_keys, set_u32_free] at e2 e3
  have her : (h :: nx :: t).erase h = nx :: t := List.erase_cons_head ..
  have hat_t : ∀ k ∈ t, tb_fpool_itor_at
      (tb_fpool_del (tb_dlist_item_free d.func_free) (tb_bits_set_u32_ne d.pool nx 4 0) h
        d.released).1 k = tb_fpool_itor_at d.pool k := by
    intro k hk
    have k1 : k ≠ h := fun x => (List.nodup_cons.1 hnd).1 (by simp [← x, hk])
    have k2 : k ≠ nx := fun x =>
      (List.nodup_cons.1 (List.nodup_cons.1 hnd).2).1 (by simp [← x, hk])
    simp [e5, itor_at_set_u32, k1, k2]
  have hrem : tb_dlist_remove d h = some (nx, { d with
      pool := (tb_fpool_del (tb_dlist_item_free d.func_free)
        (tb_bits_set_u32_ne d.pool nx 4 0) h d.released).1,
      released := (tb_fpool_del (tb_dlist_item_free d.func_free)
        (tb_bits_set_u32_ne d.pool nx 4 0) h d.released).2,
      head := nx }) := by
    unfold tb_dlist_remove
    simp only [h0, if_false, hhead, ne_eq, not_false_eq_true, hl0, and_self, if_true, hlast,
      tb_dlist_itor_next, hs, tb_bits_get_u32_ne, s3, List.headD_cons, x1]
  refine ⟨_, hrem, ?_, ?_⟩
  · rw [← her]
    refine hwf.of_remove hm e2 e3 (by rw [her]; rfl)
      (by rw [her, hwf.2.2.1]; simp only [List.getLastD_cons]) ?_
    rw [her]
    refine linked_cons_of (s := { sx with prev := 0 }) ?_ rfl x3 ?_
    · simp [e5, itor_at_set_u32, hxh, x1, Slot.set_u32]
    · exact (linked_congr t hat_t nx 0).2 x4
  · refine ⟨rfl, rfl, e3, ⟨s, hs, e1⟩, by simp [e5], fun k hk => ?_⟩
    by_cases hkx : k = nx
    · subst hkx
      simp [tb_dlist_itor_at, tb_dlist_itor_const_at, e5, hk, itor_at_set_u32, x1, Slot.set_u32]
    · simp [tb_dlist_itor_at, tb_dlist_itor_const_at, e5, hk, itor_at_set_u32, hkx]

theorem remove_wf_last {d : tb_dlist_t} {l : List Nat} {pv h : Nat}
    (hwf : WF d (l ++ [pv, h])) :
    ∃ d2, tb_dlist_remove d h = some (pv, d2) ∧ WF d2 (l ++ [pv]) ∧ RemoveFrame d d2 h := by
  have hm : h ∈ l ++ [pv, h] := by simp
  have hmp : pv ∈ l ++ [pv, h] := by simp
  have h0 := hwf.ne_zero hm
  have hnd := hwf.nodup
  have hsplit : l ++ [pv, h] = (l ++ [pv]) ++ h :: [] := by simp
  have hnl : h ∉ l ++ [pv] := by
    rw [hsplit] at hnd
    exact fun x => (List.nodup_append.1 hnd).2.2 x (by simp)
  have hlast : d.last = h := by rw [hwf.2.2.1, getLastD_append]; rfl
  have hhm : d.head ∈ l ++ [pv] := by
    rw [hwf.2.1, hsplit, headD_append]
    have := headD_mem_of_ne_nil (l ++ [pv]) ([h].headD 0) (by simp)
    exact this
  have hhead : d.head ≠ h := fun x => hnl (x ▸ hhm)
  have hh0 := hwf.head_ne_zero (by simp)
  obtain ⟨hl1, hx⟩ := (linked_append d.pool l [pv, h] 0 0).1 hwf.2.2.2.1
  obtain ⟨sp, p1, p2, p3, p4⟩ := (linked_cons_iff d.pool _ pv _ 0).1 hx
  obtain ⟨s, hs, s2, s3, _⟩ := (linked_cons_iff d.pool _ h _ 0).1 p4
  have hph : pv ≠ h := fun x => hnl (by simp [← x])
  have hhp : h ≠ pv := fun x => hph x.symm
  have hs2 : tb_fpool_itor_at (tb_bits_set_u32_ne d.pool pv 0 0) h = some s := by
    simp [itor_at_set_u32, hhp, hs]
  obtain ⟨e1, e2, e3, e4, e5⟩ :=
    del_spec (tb_dlist_item_free d.func_free) (tb_bits_set_u32_ne d.pool pv 0 0) h
      d.released s hs2
  simp only [set_u32_keys, set_u32_free] at e2 e3
  have her : (l ++ [pv, h]).erase h = l ++ [pv] := by
    rw [hsplit, erase_split _ _ _ hnl]; simp
  have hat_l : ∀ k ∈ l, tb_fpool_itor_at
      (tb_fpool_del (tb_dlist_item_free d.func_free) (tb_bits_set_u32_ne d.pool pv 0 0) h
        d.released).1 k = tb_fpool_itor_at d.pool k := by
    intro k hk
    have k1 : k ≠ h := fun x => hnl (by simp [← x, hk])
    have k2 : k ≠ pv := fun x =>
      (List.nodup_append.1 hnd).2.2 hk (by simp [← x])
    simp [e5, itor_at_set_u32, k1, k2]
  have hrem : tb_dlist_remove d h = some (pv, { d with
      pool := (tb_fpool_del (tb_dlist_item_free d.func_free)
        (tb_bits_set_u32_ne d.pool pv 0 0) h d.released).1,
      released := (tb_fpool_del (tb_dlist_item_free d.func_free)
        (tb_bits_set_u32_ne d.pool pv 0 0) h d.released).2,
      last := pv }) := by
    have hhead2 : ¬ h = d.head := fun x => hhead x.symm
    unfold tb_dlist_remove
    simp only [h0, if_false, hlast, ne_eq, not_false_eq_true, hh0, and_self, if_true, hhead,
      hhead2, tb_dlist_itor_prev, hs, tb_bits_get_u32_ne, s2]
    simp [p1]
  refine ⟨_, hrem, ?_, ?_⟩
  · rw [← her]
    refine hwf.of_remove hm e2 e3
      (by rw [her, hwf.2.1, hsplit, headD_append, headD_append, headD_append]; rfl)
      (by rw [her, getLastD_append]; rfl) ?_
    rw [her, linked_append]
    refine ⟨(linked_congr l hat_l 0 _).2 (by simpa using hl1), ?_⟩
    refine linked_cons_of (s := { sp with next := 0 }) ?_ p2 rfl trivial
    simp [e5, itor_at_set_u32, hph, p1, Slot.set_u32]
  · refine ⟨rfl, rfl, e3, ⟨s, hs, e1⟩, by simp [e5], fun k hk => ?_⟩
    by_cases hkx : k = pv
    · subst hkx
      simp [tb_dlist_itor_at, tb_dlist_itor_const_at, e5, hk, itor_at_set_u32, p1, Slot.set_u32]
    · simp [tb_dlist_itor_at, tb_dlist_itor_const_at, e5, hk, itor_at_set_u32, hkx]

theorem remove_wf_body {d : tb_dlist_t} {l t : List Nat} {pv h nx : Nat}
    (hwf : WF d (l ++ pv :: h :: nx :: t)) :
    ∃ d2, tb_dlist_remove d h = some (nx, d2) ∧ WF d2 (l ++ pv :: nx :: t) ∧
      RemoveFrame d d2 h := by
  have hm : h ∈ l ++ pv :: h :: nx :: t := by simp
  have hmp : pv ∈ l ++ pv :: h :: nx :: t := by simp
  have hmx : nx ∈ l ++ pv :: h :: nx :: t := by simp
  have h0 := hwf.ne_zero hm
  have hnd := hwf.nodup
  have hsplit : l ++ pv :: h :: nx :: t = (l ++ [pv]) ++ h :: (nx :: t) := by simp
  have hnd2 : ((l ++ [pv]) ++ h :: (nx :: t)).Nodup := hsplit ▸ hnd
  have hnl : h ∉ l ++ [pv] := fun x => (List.nodup_append.1 hnd2).2.2 x (by simp)
  have hnt : h ∉ nx :: t := (List.nodup_cons.1 (List.nodup_append.1 hnd2).2.1).1
  have hhm : d.head ∈ l ++ [pv] := by
    rw [hwf.2.1, hsplit, headD_append]
    exact headD_mem_of_ne_nil (l ++ [pv]) _ (by simp)
  have hhead : d.head ≠ h := fun x => hnl (x ▸ hhm)
  have hlm : d.last ∈ nx :: t := by
    rw [hwf.2.2.1, hsplit, getLastD_append, List.getLastD_cons]
    exact getLastD_mem_of_ne_nil (nx :: t) _ (by simp)
  have hlast : d.last ≠ h := fun x => hnt (x ▸ hlm)
  have hhl : d.head ≠ d.last := by
    intro x
    exact (List.nodup_append.1 hnd2).2.2 hhm (List.mem_cons_of_mem _ (x ▸ hlm))
  have hh0 := hwf.head_ne_zero (by simp)
  have hl0 := hwf.last_ne_zero (by simp)
  obtain ⟨hl1, hx⟩ := (linked_append d.pool l (pv :: h :: nx :: t) 0 0).1 hwf.2.2.2.1
  obtain ⟨sp, p1, p2, p3, p4⟩ := (linked_cons_iff d.pool _ pv _ 0).1 hx
  obtain ⟨s, hs, s2, s3, s4⟩ := (linked_cons_iff d.pool _ h _ 0).1 p4
  obtain ⟨sx, x1, x2, x3, x4⟩ := (linked_cons_iff d.pool _ nx _ 0).1 s4
  have hph : pv ≠ h := fun x => hnl (by simp [← x])
  have hhp : h ≠ pv := fun x => hph x.symm
  have hxh : nx ≠ h := fun x => hnt (by simp [← x])
  have hhx : h ≠ nx := fun x => hxh x.symm
  have hpx : pv ≠ nx := fun x =>
    (List.nodup_append.1 hnd2).2.2 (show pv ∈ l ++ [pv] by simp) (by simp [x])
  have hxp : nx ≠ pv := fun x => hpx x.symm
  have hs2 : tb_fpool_itor_at
      (tb_bits_set_u32_ne (tb_bits_set_u32_ne d.pool pv 0 nx) nx 4 pv) h = some s := by
    simp [itor_at_set_u32, hhp, hhx, hs]
  obtain ⟨e1, e2, e3, e4, e5⟩ :=
    del_spec (tb_dlist_item_free d.func_free)
      (tb_bits_set_u32_ne (tb_bits_set_u32_ne d.pool pv 0 nx) nx 4 pv) h d.released s hs2
  simp only [set_u32_keys, set_u32_free] at e2 e3
  have her : (l ++ pv :: h :: nx :: t).erase h = l ++ pv :: nx :: t := by
    rw [hsplit, erase_split _ _ _ hnl]; simp
  have hat_l : ∀ k ∈ l, tb_fpool_itor_at
      (tb_fpool_del (tb_dlist_item_free d.func_free)
        (tb_bits_set_u32_ne (tb_bits_set_u32_ne d.pool pv 0 nx) nx 4 pv) h d.released).1 k
        = tb_fpool_itor_at d.pool k := by
    intro k hk
    have k1 : k ≠ h := fun x => hnl (by simp [← x, hk])
    have k2 : k ≠ pv := fun x => (List.nodup_append.1 hnd).2.2 hk (by simp [← x])
    have k3 : k ≠ nx := fun x => (List.nodup_append.1 hnd).2.2 hk (by simp [← x])
    simp [e5, itor_at_set_u32, k1, k2, k3]
  have hat_t : ∀ k ∈ t, tb_fpool_itor_at
      (tb_fpool_del (tb_dlist_item_free d.func_free)
        (tb_bits_set_u32_ne (tb_bits_set_u32_ne d.pool pv 0 nx) nx 4 pv) h d.released).1 k
        = tb_fpool_itor_at d.pool k := by
    intro k hk
    have k1 : k ≠ h := fun x => hnt (by simp [← x, hk])
    have k2 : k ≠ pv := fun x =>
      (List.nodup_append.1 hnd2).2.2 (show pv ∈ l ++ [pv] by simp) (by simp [← x, hk])
    have k3 : k ≠ nx := fun x =>
      (List.nodup_cons.1 (List.nodup_cons.1 (List.nodup_append.1 hnd2).2.1).2).1 (x ▸ hk)
    simp [e5, itor_at_set_u32, k1, k2, k3]
  have hrem : tb_dlist_remove d h = some (nx, { d with
      pool := (tb_fpool_del (tb_dlist_item_free d.func_free)
        (tb_bits_set_u32_ne (tb_bits_set_u32_ne d.pool pv 0 nx) nx 4 pv) h d.released).1,
      released := (tb_fpool_del (tb_dlist_item_free d.func_free)
        (tb_bits_set_u32_ne (tb_bits_set_u32_ne d.pool pv 0 nx) nx 4 pv) h d.released).2 }) := by
    have hhead2 : ¬ h = d.head := fun x => hhead x.symm
    have hlast2 : ¬ h = d.last := fun x => hlast x.symm
    have s3b : s.next = nx := s3
    unfold tb_dlist_remove
    simp only [h0, if_false, ne_eq, not_false_eq_true, hh0, hl0, and_self, if_true, hhl,
      hhead2, hlast2, hs, tb_bits_get_u32_ne, s2, s3b]
    simp [p1, x1]
  refine ⟨_, hrem, ?_, ?_⟩
  · rw [← her]
    refine hwf.of_remove hm e2 e3 (by rw [her, hwf.2.1, headD_append, headD_append]; rfl)
      (by rw [her, hwf.2.2.1, getLastD_append, getLastD_append]
          simp only [List.getLastD_cons]) ?_
    rw [her, linked_append]
    refine ⟨(linked_congr l hat_l 0 _).2 (by simpa using hl1), ?_⟩
    refine linked_cons_of (s := { sp with next := nx }) ?_ p2 rfl ?_
    · simp [e5, itor_at_set_u32, hph, hpx, p1, Slot.set_u32, mod32 (hwf.lt hmx)]
    refine linked_cons_of (s := { sx with prev := pv }) ?_ rfl x3 ?_
    · simp [e5, itor_at_set_u32, hxh, hxp, x1, Slot.set_u32, mod32 (hwf.lt hmp)]
    · exact (linked_congr t hat_t nx 0).2 x4
  · refine ⟨rfl, rfl, e3, ⟨s, hs, e1⟩, by simp [e5], fun k hk => ?_⟩
    by_cases hkx : k = pv
    · subst hkx
      simp [tb_dlist_itor_at, tb_dlist_itor_const_at, e5, hk, itor_at_set_u32, p1, Slot.set_u32,
        hpx]
    · by_cases hkn : k = nx
      · subst hkn
        simp [tb_dlist_itor_at, tb_dlist_itor_const_at, e5, hk, itor_at_set_u32, x1,
          Slot.set_u32, hkx]
      · simp [tb_dlist_itor_at, tb_dlist_itor_const_at, e5, hk, itor_at_set_u32, hkx, hkn]

theorem remove_returns {d d2 : tb_dlist_t} {h r : Nat}
    (hrem : tb_dlist_remove d h = some (r, d2)) (h0 : h ≠ 0) (hh : d.head ≠ 0)
    (hl : d.last ≠ 0) : remove_result d h = some r := by
  unfold tb_dlist_remove at hrem
  unfold remove_result
  simp only [h0, if_false, ne_eq, hh, not_false_eq_true, hl, and_self, if_true] at hrem
  by_cases c1 : d.head = d.last
  · simp only [c1, if_true] at hrem ⊢
    by_cases c2 : d.last = h
    · simp only [c2, not_true_eq_false, if_false, Option.some.injEq, Prod.mk.injEq] at hrem
      rw [hrem.1]
    · simp [c2] at hrem
  · simp only [c1, if_false] at hrem ⊢
    by_cases c2 : h = d.head
    · simp only [c2, if_true] at hrem ⊢
      cases hn : tb_dlist_itor_next d d.head with
      | none => simp [hn] at hrem
      | some nx =>
        simp only [hn] at hrem
        cases hx : tb_fpool_itor_at d.pool nx with
        | none => simp [hx] at hrem
        | some sx =>
          simp only [hx, Option.some.injEq, Prod.mk.injEq] at hrem
          rw [hrem.1]
    · simp only [c2, if_false] at hrem ⊢
      by_cases c3 : h = d.last
      · simp only [c3, if_true] at hrem ⊢
        cases hn : tb_dlist_itor_prev d d.last with
        | none => simp [hn] at hrem
        | some pv =>
          simp only [hn] at hrem
          cases hx : tb_fpool_itor_at d.pool pv with
          | none => simp [hx] at hrem
          | some sx =>
            simp only [hx, Option.some.injEq, Prod.mk.injEq] at hrem
            rw [hrem.1]
      · simp only [c3, if_false] at hrem ⊢
        cases hb : tb_fpool_itor_at d.pool h with
        | none => simp [hb] at hrem
        | some sb =>
          simp only [hb] at hrem
          cases hx : tb_fpool_itor_at d.pool (tb_bits_get_u32_ne sb 0) with
          | none => simp [hx] at hrem
          | some sx =>
            simp only [hx] at hrem
            cases hp : tb_fpool_itor_at d.pool (tb_bits_get_u32_ne sb 4) with
            | none => simp [hp] at hrem
            | some sp =>
              simp only [hp, Option.some.injEq, Prod.mk.injEq] at hrem
              simp [tb_dlist_itor_next, h0, hb, hrem.1]

/-- `tb_dlist_remove` of a node of a well-formed list: it returns, the node leaves
the forward sequence, and nothing else changes. -/
theorem remove_spec {d : tb_dlist_t} {l : List Nat} (hwf : WF d l) {h : Nat} (hm : h ∈ l) :
    ∃ r d2, tb_dlist_remove d h = some (r, d2) ∧ WF d2 (l.erase h) ∧ RemoveFrame d d2 h ∧
      remove_result d h = some r := by
  have key : ∃ r d2, tb_dlist_remove d h = some (r, d2) ∧ WF d2 (l.erase h) ∧
      RemoveFrame d d2 h := by
    obtain ⟨l1, l2, rfl⟩ := List.append_of_mem hm
    have hnd := hwf.nodup
    have hni : h ∉ l1 := fun x => (List.nodup_append.1 hnd).2.2 x (by simp)
    rw [erase_split l1 l2 h hni]
    rcases List.eq_nil_or_concat l1 with h1 | ⟨t, a, rfl⟩
    · subst h1
      cases l2 with
      | nil =>
        obtain ⟨d2, e1, e2, e3⟩ := remove_wf_only (by simpa using hwf)
        exact ⟨_, _, e1, by simpa using e2, e3⟩
      | cons nx t2 =>
        obtain ⟨d2, e1, e2, e3⟩ := remove_wf_head (by simpa using hwf)
        exact ⟨_, _, e1, by simpa using e2, e3⟩
    · rw [List.concat_eq_append] at *
      cases l2 with
      | nil =>
        have hwf2 : WF d (t ++ [a, h]) := by simpa using hwf
        obtain ⟨d2, e1, e2, e3⟩ := remove_wf_last hwf2
        exact ⟨_, _, e1, by simpa using e2, e3⟩
      | cons nx t2 =>
        have hwf2 : WF d (t ++ a :: h :: nx :: t2) := by simpa using hwf
        obtain ⟨d2, e1, e2, e3⟩ := remove_wf_body hwf2
        exact ⟨_, _, e1, by simpa using e2, e3⟩
  obtain ⟨r, d2, e1, e2, e3⟩ := key
  have hne : l ≠ [] := List.ne_nil_of_mem hm
  exact ⟨r, d2, e1, e2, e3,
    remove_returns e1 (hwf.ne_zero hm) (hwf.head_ne_zero hne) (hwf.last_ne_zero hne)⟩

/-! ## `tb_dlist_replace` and `tb_dlist_clear` -/

theorem linked_congr_links {p q : tb_fpool_t} (l : List Nat)
    (hagree : ∀ h ∈ l, (tb_fpool_itor_at q h).map (fun s => (s.prev, s.next))
      = (tb_fpool_itor_at p h).map (fun s => (s.prev, s.next))) (pv nx : Nat) :
    Linked p pv l nx → Linked q pv l nx := by
  induction l generalizing pv with
  | nil => simp [Linked]
  | cons h t ih =>
    intro hl
    have ht : ∀ k ∈ t, (tb_fpool_itor_at q k).map (fun s => (s.prev, s.next))
        = (tb_fpool_itor_at p k).map (fun s => (s.prev, s.next)) :=
      fun k hk => hagree k (List.mem_cons_of_mem _ hk)
    obtain ⟨s, h1, h2, h3, h4⟩ := (linked_cons_iff p pv h t nx).1 hl
    have hh := hagree h (List.mem_cons_self _ _)
    rw [h1] at hh
    cases hq : tb_fpool_itor_at q h with
    | none => rw [hq] at hh; cases hh
    | some sq =>
      rw [hq] at hh
      simp only [Option.map_some', Option.some.injEq, Prod.mk.injEq] at hh
      exact linked_cons_of hq (hh.1.trans h2) (hh.2.trans h3) (ih ht h h4)

/-- `tb_dlist_replace` at a node of a well-formed list with a present item. -/
theorem replace_spec {d : tb_dlist_t} {l : List Nat} (hwf : WF d l) {h : Nat} (hm : h ∈ l)
    (bytes : List Nat) :
    ∃ s, tb_fpool_itor_at d.pool h = some s ∧
      tb_dlist_replace d h (some bytes)
        = some (h, { d with pool := slot_set_data d.pool h (tb_memcpy bytes d.step),
                            released := if d.func_free then d.released ++ [s.data]
                                        else d.released }) ∧
      WF { d with pool := slot_set_data d.pool h (tb_memcpy bytes d.step),
                  released := if d.func_free then d.released ++ [s.data] else d.released } l := by
  obtain ⟨s, hs⟩ := hwf.live hm
  refine ⟨s, hs, ?_, ?_⟩
  · unfold tb_dlist_replace tb_dlist_itor_at tb_dlist_itor_const_at
    simp only [hs]
  · obtain ⟨⟨hnd, hb⟩, h1, h2, h3, h4⟩ := hwf
    refine ⟨⟨by simpa using hnd, by simpa using hb⟩, h1, h2, ?_, by simpa using h4⟩
    refine linked_congr_links l (fun k _ => ?_) 0 0 h3
    simp only [itor_at_set_data]
    by_cases hk : k = h
    · subst hk; simp [hs]
    · simp [hk]

theorem replace_none_spec (d : tb_dlist_t) (h : Nat) (s : Slot)
    (hs : tb_fpool_itor_at d.pool h = some s) : tb_dlist_replace d h none = some (h, d) := by
  unfold tb_dlist_replace tb_dlist_itor_at tb_dlist_itor_const_at
  simp only [hs]

theorem replace_unresolved_aborts (d : tb_dlist_t) (h : Nat) (item : Option (List Nat))
    (hs : tb_fpool_itor_at d.pool h = none) : tb_dlist_replace d h item = none := by
  unfold tb_dlist_replace tb_dlist_itor_at tb_dlist_itor_const_at
  simp only [hs]

theorem replace_wf {d : tb_dlist_t} {l : List Nat} (hwf : WF d l) {h r : Nat}
    {item : Option (List Nat)} {d2 : tb_dlist_t}
    (hrep : tb_dlist_replace d h item = some (r, d2)) : WF d2 l := by
  cases hs : tb_fpool_itor_at d.pool h with
  | none => rw [replace_unresolved_aborts d h item hs] at hrep; cases hrep
  | some s =>
    cases item with
    | none =>
      rw [replace_none_spec d h s hs] at hrep
      simp only [Option.some.injEq, Prod.mk.injEq] at hrep
      exact hrep.2 ▸ hwf
    | some bytes =>
      have hm : h ∈ l := hwf.mem_keys.1 (itor_at_some_mem hs).2
      obtain ⟨s2, _, e2, e3⟩ := replace_spec hwf hm bytes
      rw [e2] at hrep
      simp only [Option.some.injEq, Prod.mk.injEq] at hrep
      exact hrep.2 ▸ e3

theorem clear_wf {d : tb_dlist_t} {l : List Nat} (hwf : WF d l) : WF (tb_dlist_clear d) [] := by
  obtain ⟨⟨hnd, hb⟩, _⟩ := hwf
  unfold tb_dlist_clear tb_fpool_clear
  refine ⟨⟨?_, ?_⟩, rfl, rfl, trivial, ?_⟩
  · simpa [tb_fpool_t.keys] using hnd
  · simpa [tb_fpool_t.keys] using hb
  · simp [tb_fpool_t.keys]

theorem foldl_item_free (ff : Bool) (sl : List (Nat × Slot)) (tr : Trace) :
    sl.foldl (fun t e => tb_dlist_item_free ff e.2 t) tr
      = if ff then tr ++ sl.map (fun e => e.2.data) else tr := by
  induction sl generalizing tr with
  | nil => cases ff <;> simp
  | cons e t ih =>
    rw [List.foldl_cons, ih]
    cases ff <;> simp [tb_dlist_item_free]

/-! ## Reachable lists -/

theorem init_wf (step : Nat) (supply : List Nat) (func_free : Bool)
    (hp : PoolOK (tb_fpool_init (8 + step) supply)) :
    WF (tb_dlist_init step supply func_free) [] :=
  ⟨hp, rfl, rfl, trivial, by simp [tb_dlist_init, tb_fpool_init, tb_fpool_t.keys]⟩

theorem Reachable.wf {d : tb_dlist_t} (hr : Reachable d) : ∃ l, WF d l := by
  induction hr with
  | init step supply ff hp => exact ⟨[], init_wf step supply ff hp⟩
  | insert _ hins hn ih =>
    obtain ⟨l, hwf⟩ := ih
    exact ⟨_, (insert_success_inv hwf hins hn).2.2.1⟩
  | remove _ hw hm hrem ih =>
    obtain ⟨l, hwf⟩ := ih
    rw [hwf.forward] at hw
    cases hw
    obtain ⟨r, d3, e1, e2, _⟩ := remove_spec hwf hm
    rw [e1] at hrem
    simp only [Option.some.injEq, Prod.mk.injEq] at hrem
    exact ⟨_, hrem.2 ▸ e2⟩
  | replace _ hrep ih =>
    obtain ⟨l, hwf⟩ := ih
    exact ⟨l, replace_wf hwf hrep⟩
  | clear _ ih =>
    obtain ⟨l, hwf⟩ := ih
    exact ⟨[], clear_wf hwf⟩

/-! ## Payload walks -/

theorem payloads_at_some_iff (d : tb_dlist_t) (l : List Nat) (P : List (List Nat)) :
    payloads_at d l = some P ↔ l.map (tb_dlist_itor_at d) = P.map some := by
  induction l generalizing P with
  | nil =>
    simp only [payloads_at, Option.some.injEq, List.map_nil]
    constructor
    · rintro rfl; rfl
    · intro h; cases P with
      | nil => rfl
      | cons a t => cases h
  | cons h t ih =>
    simp only [payloads_at, List.map_cons]
    cases hx : tb_dlist_itor_at d h with
    | none =>
      cases hp : payloads_at d t <;> cases P <;> simp
    | some x =>
      cases hp : payloads_at d t with
      | none =>
        cases P with
        | nil => simp
        | cons a P2 =>
          have := (ih P2).not.1 (by simp [hp])
          simp only [List.map_cons, List.cons.injEq, not_and, reduceCtorEq, false_iff]
          intro _; exact this
      | some xs =>
        have h2 := (ih xs).1 hp
        cases P with
        | nil => simp
        | cons a P2 =>
          simp only [Option.some.injEq, List.cons.injEq, List.map_cons, h2]
          constructor
          · rintro ⟨rfl, rfl⟩; exact ⟨rfl, rfl⟩
          · rintro ⟨rfl, h3⟩
            exact ⟨rfl, List.map_injective_iff.2 (Option.some_injective _) h3⟩

theorem payloads_at_reverse (d : tb_dlist_t) (l : List Nat) (P : List (List Nat))
    (h : payloads_at d l = some P) : payloads_at d l.reverse = some P.reverse := by
  rw [payloads_at_some_iff] at h ⊢
  rw [List.map_reverse, List.map_reverse, h]

theorem payloads_at_eq_map (d : tb_dlist_t) (l : List Nat) (P : List (List Nat))
    (h : payloads_at d l = some P) : P = l.map (fun k => (tb_dlist_itor_at d k).getD []) := by
  rw [payloads_at_some_iff] at h
  have := congrArg (List.map (fun o : Option (List Nat) => o.getD [])) h
  simp only [List.map_map] at this
  rw [show ((fun o : Option (List Nat) => o.getD []) ∘ some) = id from rfl, List.map_id] at this
  exact this.symm

theorem slot_find_of_mem (sl : List (Nat × Slot)) (hnd : (sl.map Prod.fst).Nodup)
    (e : Nat × Slot) (he : e ∈ sl) : slot_find sl e.1 = some e.2 := by
  induction sl with
  | nil => cases he
  | cons a t ih =>
    simp only [List.map_cons, List.nodup_cons] at hnd
    rcases List.mem_cons.1 he with rfl | h
    · simp [slot_find]
    · have : a.1 ≠ e.1 := fun x => hnd.1 (x ▸ List.mem_map_of_mem Prod.fst h)
      simp [slot_find, this, ih hnd.2 h]

theorem WF.payloads_perm {d : tb_dlist_t} {l : List Nat} (hwf : WF d l) {P : List (List Nat)}
    (hP : payloads_at d l = some P) : (d.pool.slots.map (fun e => e.2.data)).Perm P := by
  rw [payloads_at_eq_map d l P hP]
  have hk : d.pool.keys.Nodup := List.Nodup.of_append_left hwf.1.1
  have h1 : d.pool.slots.map (fun e => e.2.data)
      = d.pool.keys.map (fun k => (tb_dlist_itor_at d k).getD []) := by
    simp only [tb_fpool_t.keys, List.map_map]
    apply List.map_congr_left
    intro e he
    have h0 : e.1 ≠ 0 :=
      (hwf.1.2 e.1 (List.mem_append_left _ (List.mem_map_of_mem Prod.fst he))).1
    simp [tb_dlist_itor_at, tb_dlist_itor_const_at, tb_fpool_itor_at, h0,
      slot_find_of_mem d.pool.slots hk e he]
  rw [h1]
  exact hwf.2.2.2.2.map _

theorem WF.fwd_payloads {d : tb_dlist_t} {l : List Nat} (hwf : WF d l) :
    forward_payloads d = payloads_at d l := by
  unfold forward_payloads; rw [hwf.forward]

theorem WF.bwd_payloads {d : tb_dlist_t} {l : List Nat} (hwf : WF d l) :
    backward_payloads d = payloads_at d l.reverse := by
  unfold backward_payloads; rw [hwf.backward]

theorem insert_tail_all_spec (xs : List (List Nat)) :
    ∀ (d d2 : tb_dlist_t) (l : List Nat) (P : List (List Nat)), WF d l →
      payloads_at d l = some P → insert_tail_all d xs = some d2 →
      ∃ l2, WF d2 l2 ∧ l2.length = l.length + xs.length ∧ d2.step = d.step ∧
        payloads_at d2 l2 = some (P ++ xs.map (fun x => tb_memcpy x d.step)) := by
  induction xs with
  | nil =>
    intro d d2 l P hwf hP h
    simp only [insert_tail_all, Option.some.injEq] at h
    subst h
    exact ⟨l, hwf, by simp, rfl, by simpa using hP⟩
  | cons x xs ih =>
    intro d d2 l P hwf hP h
    simp only [insert_tail_all] at h
    cases hi : tb_dlist_insert_tail d (some x) with
    | none => simp [hi] at h
    | some r =>
      obtain ⟨n, d1⟩ := r
      simp only [hi] at h
      by_cases hn : n = 0
      · simp [hn] at h
      · simp only [hn, if_false] at h
        obtain ⟨_, _, hwf1, hfr⟩ := insert_success_inv hwf hi hn
        have h0 : (0 : Nat) ∉ l := fun x => hwf.ne_zero x rfl
        have hnl : n ∉ l := by
          obtain ⟨⟨rest, hfree⟩, _⟩ := insert_success_inv hwf hi hn
          exact (hwf.fresh hfree).2.2.1
        rw [tb_dlist_itor_tail, insert_before_not_mem n 0 l h0] at hwf1
        have hP1 : payloads_at d1 (l ++ [n]) = some (P ++ [tb_memcpy x d.step]) := by
          rw [payloads_at_some_iff] at hP ⊢
          rw [List.map_append, List.map_append, ← hP]
          congr 1
          · apply List.map_congr_left
            intro k hk
            exact hfr.2.2.2.2.2 k (fun e => hnl (e ▸ hk))
          · simp [hfr.2.2.2.2.1, insert_payload]
        obtain ⟨l2, e1, e2, e3, e4⟩ := ih d1 d2 (l ++ [n]) _ hwf1 hP1 h
        refine ⟨l2, e1, ?_, e3.trans hfr.1, ?_⟩
        · simp [e2]; omega
        · rw [e4, hfr.1]; simp

/-! ## The claims -/

/-- C1: in a well-formed list with forward walk `l`, a successful
`tb_dlist_insert(target, item)` returning `n` returns a handle that is not in `l`, and
the new forward walk is `l ++ [n]` when `target` is 0, `take i l ++ [n] ++ drop i l`
when `target` is the node at position `i` of `l`, and `[n]` on an empty list whatever
`target` is. -/
theorem C1_insert_places_node (d d2 : tb_dlist_t) (l : List Nat) (target n : Nat)
    (item : Option (List Nat)) (hwf : WF d l)
    (hins : tb_dlist_insert d target item = some (n, d2)) (hn : n ≠ 0) :
    forward_walk d = some l ∧ n ∉ l ∧
      (target = 0 → forward_walk d2 = some (l ++ [n])) ∧
      (∀ i, l[i]? = some target → forward_walk d2 = some (l.take i ++ [n] ++ l.drop i)) ∧
      (l = [] → forward_walk d2 = some [n]) := by
  obtain ⟨⟨rest, hfree⟩, _, hwf2, _⟩ := insert_success_inv hwf hins hn
  have hw := hwf2.forward
  refine ⟨hwf.forward, (hwf.fresh hfree).2.2.1, ?_, ?_, ?_⟩
  · rintro rfl
    have h0 : (0 : Nat) ∉ l := fun x => hwf.ne_zero x rfl
    rwa [insert_before_not_mem n 0 l h0] at hw
  · intro i hi
    rwa [insert_before_at n target l hwf.nodup i hi] at hw
  · rintro rfl
    exact hw

theorem C1_insert_places_node_witness :
    WF ex_123 [1, 2, 3] ∧ tb_dlist_insert ex_123 2 (some [9, 0, 0, 0]) = some (4, ex_1423) ∧
      forward_walk ex_1423 = some [1, 4, 2, 3] :=
  ⟨by decide, by decide,
    (C1_insert_places_node ex_123 ex_1423 [1, 2, 3] 2 4 (some [9, 0, 0, 0]) (by decide)
      (by decide) (by decide)).2.2.2.1 1 (by decide)⟩

/-- C2: in a well-formed list with forward walk `l`, `tb_dlist_remove(h)` of a node `h`
of `l` returns, the new forward walk is `l` with `h` erased (the other handles in the
same order), `size()` has decreased by exactly one, and `head`/`last` are the first
and last element of the new walk (0 when it is empty). -/
theorem C2_remove_erases_node (d : tb_dlist_t) (l : List Nat) (h : Nat) (hwf : WF d l)
    (hm : h ∈ l) :
    ∃ r d2, tb_dlist_remove d h = some (r, d2) ∧
      forward_walk d2 = some (l.erase h) ∧
      l.erase h = l.filter (fun k => decide (k ≠ h)) ∧
      tb_dlist_size d2 + 1 = tb_dlist_size d ∧
      tb_dlist_itor_head d2 = (l.erase h).headD 0 ∧
      tb_dlist_itor_last d2 = (l.erase h).getLastD 0 := by
  obtain ⟨r, d2, e1, e2, _, _⟩ := remove_spec hwf hm
  refine ⟨r, d2, e1, e2.forward, (filter_ne_eq_erase l h hwf.nodup).symm, ?_, e2.2.1, e2.2.2.1⟩
  rw [e2.size, hwf.size, List.length_erase_of_mem hm]
  have : 0 < l.length := List.length_pos_of_mem hm
  omega

theorem C2_remove_erases_node_witness :
    ∃ r d2, tb_dlist_remove ex_123 2 = some (r, d2) ∧
      forward_walk d2 = some [1, 3] ∧
      [1, 3] = [1, 2, 3].filter (fun k => decide (k ≠ 2)) ∧
      tb_dlist_size d2 + 1 = 3 ∧
      tb_dlist_itor_head d2 = 1 ∧ tb_dlist_itor_last d2 = 3 :=
  C2_remove_erases_node ex_123 [1, 2, 3] 2 (by decide) (by decide)

/-- C3: in every list reachable from `tb_dlist_init` (over a pool keeping its
contract) by successful inserts and removes of nodes of the list (and by replaces and
clears), the forward walk from `head` and the backward walk from `last` both reach the
boundary 0 within `size()` steps, the backward walk is the reverse of the forward walk,
and `size()` is the length of both. -/
theorem C3_walks_agree (d : tb_dlist_t) (hr : Reachable d) :
    ∃ l, forward_walk d = some l ∧ backward_walk d = some l.reverse ∧
      tb_dlist_size d = l.length ∧ tb_dlist_size d = l.reverse.length := by
  obtain ⟨l, hwf⟩ := hr.wf
  exact ⟨l, hwf.forward, hwf.backward, hwf.size, by simpa using hwf.size⟩

theorem C3_walks_agree_witness :
    ∃ l, forward_walk ex_13 = some l ∧ backward_walk ex_13 = some l.reverse ∧
      tb_dlist_size ex_13 = l.length ∧ tb_dlist_size ex_13 = l.reverse.length :=
  C3_walks_agree ex_13
    (Reachable.remove (l := [1, 2, 3]) (h := 2) (r := 3)
      (Reachable.insert
        (Reachable.insert
          (Reachable.insert
            (Reachable.init 4 [1, 2, 3, 4, 5] true (by decide))
            (by decide : tb_dlist_insert (tb_dlist_init 4 [1, 2, 3, 4, 5] true) 0
              (some [1, 0, 0, 0]) = some (1, ex_1)) (by decide))
          (by decide : tb_dlist_insert ex_1 0 (some [2, 0, 0, 0]) = some (2, ex_12))
          (by decide))
        (by decide : tb_dlist_insert ex_12 0 (some [3, 0, 0, 0]) = some (3, ex_123))
        (by decide))
      (by decide) (by decide) (by decide : tb_dlist_remove ex_123 2 = some (3, ex_13)))

/-- C4 (the code at the failing input): removing the only node of a list returns the
handle of the removed node itself, not its former `next`, the boundary 0. -/
theorem C4_remove_only_node_returns_removed_handle :
    WF ex_1 [1] ∧ tb_dlist_itor_next ex_1 1 = some 0 ∧
      (tb_dlist_remove ex_1 1).map Prod.fst = some 1 := by
  decide

/-- C5: when the pool's `put` returns 0 (the pool never hands out the handle 0, so
this is exhaustion), `tb_dlist_insert` returns 0 and the list is exactly as before:
`head`, `last`, the pool with every slot, and the release trace. -/
theorem C5_insert_all_or_nothing (d : tb_dlist_t) (target : Nat) (item : Option (List Nat))
    (hc : 0 ∉ d.pool.free) (hput : (tb_fpool_put d.pool).1 = 0) :
    tb_dlist_insert d target item = some (0, d) := by
  cases hfree : d.pool.free with
  | nil => exact insert_exhausted d target item (put_of_free_nil _ hfree)
  | cons m rest =>
    exfalso
    unfold tb_fpool_put at hput
    rw [hfree] at hput hc
    simp only at hput
    exact hc (by simp [hput])

theorem C5_insert_all_or_nothing_witness :
    tb_dlist_insert ex_full 1 (some [9, 0, 0, 0]) = some (0, ex_full) :=
  C5_insert_all_or_nothing ex_full 1 (some [9, 0, 0, 0]) (by decide) (by decide)

/-- C6: in a well-formed list with forward walk `l`, `tb_dlist_replace(h, item)` at a
node `h` with a present item returns `h`, sets the payload at `h` to the first `step`
bytes of the item, leaves `head`, `last`, `size()`, every `next`/`prev` link, the
forward walk and every other payload unchanged, and hands the payload `h` held before
to the release callback exactly once (when a callback is registered; otherwise
nothing is released). -/
theorem C6_replace_changes_one_payload (d : tb_dlist_t) (l : List Nat) (h : Nat)
    (bytes : List Nat) (hwf : WF d l) (hm : h ∈ l) :
    ∃ old d2, tb_dlist_itor_at d h = some old ∧
      tb_dlist_replace d h (some bytes) = some (h, d2) ∧
      tb_dlist_itor_at d2 h = some (bytes.take d.step) ∧
      d2.head = d.head ∧ d2.last = d.last ∧ tb_dlist_size d2 = tb_dlist_size d ∧
      (∀ k, tb_dlist_itor_next d2 k = tb_dlist_itor_next d k ∧
        tb_dlist_itor_prev d2 k = tb_dlist_itor_prev d k) ∧
      forward_walk d2 = some l ∧
      (∀ k, k ≠ h → tb_dlist_itor_at d2 k = tb_dlist_itor_at d k) ∧
      d2.released = (if d.func_free then d.released ++ [old] else d.released) := by
  obtain ⟨s, hs, e2, e3⟩ := replace_spec hwf hm bytes
  refine ⟨s.data, _, by simp [tb_dlist_itor_at, tb_dlist_itor_const_at, hs], e2, ?_, rfl, rfl,
    ?_, fun k => ?_, e3.forward, fun k hk => ?_, rfl⟩
  · simp [tb_dlist_itor_at, tb_dlist_itor_const_at, itor_at_set_data, hs, tb_memcpy]
  · exact set_data_size _ _ _
  · by_cases hk : k = h
    · subst hk
      simp [tb_dlist_itor_next, tb_dlist_itor_prev, itor_at_set_data, hs, tb_bits_get_u32_ne]
    · simp [tb_dlist_itor_next, tb_dlist_itor_prev, itor_at_set_data, hk]
  · simp [tb_dlist_itor_at, tb_dlist_itor_const_at, itor_at_set_data, hk]

theorem C6_replace_changes_one_payload_witness :
    ∃ old d2, tb_dlist_itor_at ex_123 2 = some old ∧
      tb_dlist_replace ex_123 2 (some [7, 0, 0, 0]) = some (2, d2) ∧
      tb_dlist_itor_at d2 2 = some [7, 0, 0, 0] ∧
      d2.head = 1 ∧ d2.last = 3 ∧ tb_dlist_size d2 = 3 ∧
      (∀ k, tb_dlist_itor_next d2 k = tb_dlist_itor_next ex_123 k ∧
        tb_dlist_itor_prev d2 k = tb_dlist_itor_prev ex_123 k) ∧
      forward_walk d2 = some [1, 2, 3] ∧
      (∀ k, k ≠ 2 → tb_dlist_itor_at d2 k = tb_dlist_itor_at ex_123 k) ∧
      d2.released = [] ++ [old] :=
  C6_replace_changes_one_payload ex_123 [1, 2, 3] 2 [7, 0, 0, 0] (by decide) (by decide)

/-- C7 (the code at the failing input): `tb_dlist_replace` with the missing handle 0
aborts inside `tb_dlist_itor_at`, with or without an item; it is a no-op returning the
handle only when the handle resolves and the item is missing. -/
theorem C7_replace_missing_handle_aborts :
    tb_dlist_replace ex_123 0 (some [9, 0, 0, 0]) = none ∧
      tb_dlist_replace ex_123 0 none = none ∧
      tb_dlist_replace ex_123 2 none = some (2, ex_123) := by
  decide

/-- C8: after a successful `tb_dlist_insert(target, item)` returning `n` on a
well-formed list with forward walk `l`, the payload read by `tb_dlist_itor_at(n)` is
the first `step` bytes of the item when it is present and `step` zero bytes when it is
absent, and the payload read at every handle of `l` is unchanged. -/
theorem C8_read_after_insert (d d2 : tb_dlist_t) (l : List Nat) (target n : Nat)
    (item : Option (List Nat)) (hwf : WF d l)
    (hins : tb_dlist_insert d target item = some (n, d2)) (hn : n ≠ 0) :
    tb_dlist_itor_at d2 n
        = some (match item with
                | some bytes => bytes.take d.step
                | none => List.replicate d.step 0) ∧
      ∀ k ∈ l, tb_dlist_itor_at d2 k = tb_dlist_itor_at d k := by
  obtain ⟨⟨rest, hfree⟩, _, _, hfr⟩ := insert_success_inv hwf hins hn
  refine ⟨?_, fun k hk => hfr.2.2.2.2.2 k (fun e => (hwf.fresh hfree).2.2.1 (e ▸ hk))⟩
  rw [hfr.2.2.2.2.1]
  cases item <;> rfl

theorem C8_read_after_insert_witness :
    tb_dlist_itor_at ex_1423 4 = some [9, 0, 0, 0] ∧
      ∀ k ∈ [1, 2, 3], tb_dlist_itor_at ex_1423 k = tb_dlist_itor_at ex_123 k :=
  C8_read_after_insert ex_123 ex_1423 [1, 2, 3] 2 4 (some [9, 0, 0, 0]) (by decide)
    (by decide) (by decide)

/-- C9: on a well-formed list whose forward walk of payloads is `P`, `tb_dlist_clear`
leaves `size() == 0` and `head == last == 0`, and the payloads handed to the release
callback by the call are those of `P`, each exactly once (in the order of the pool) and
nothing else; without a registered callback nothing is released. -/
theorem C9_clear_releases_every_payload (d : tb_dlist_t) (l : List Nat)
    (P : List (List Nat)) (hwf : WF d l) (hP : forward_payloads d = some P) :
    tb_dlist_size (tb_dlist_clear d) = 0 ∧ (tb_dlist_clear d).head = 0 ∧
      (tb_dlist_clear d).last = 0 ∧
      ∃ rel, (tb_dlist_clear d).released = d.released ++ rel ∧
        (d.func_free = true → rel.Perm P) ∧ (d.func_free = false → rel = []) := by
  rw [hwf.fwd_payloads] at hP
  refine ⟨rfl, rfl, rfl, if d.func_free then d.pool.slots.map (fun e => e.2.data) else [],
    ?_, ?_, ?_⟩
  · simp only [tb_dlist_clear, tb_fpool_clear, foldl_item_free]
    cases d.func_free <;> simp
  · intro hf
    simp only [hf, if_true]
    exact hwf.payloads_perm hP
  · intro hf
    simp [hf]

theorem C9_clear_releases_every_payload_witness :
    forward_payloads ex_013 = some [[0, 0, 0, 0], [1, 0, 0, 0], [3, 0, 0, 0]] ∧
      tb_dlist_size (tb_dlist_clear ex_013) = 0 ∧ (tb_dlist_clear ex_013).head = 0 ∧
      (tb_dlist_clear ex_013).last = 0 ∧
      ∃ rel, (tb_dlist_clear ex_013).released = ex_013.released ++ rel ∧
        (ex_013.func_free = true → rel.Perm [[0, 0, 0, 0], [1, 0, 0, 0], [3, 0, 0, 0]]) ∧
        (ex_013.func_free = false → rel = []) :=
  ⟨by decide,
    C9_clear_releases_every_payload ex_013 [2, 1, 3] _ (by decide) (by decide)⟩

/-- C10: successful calls `tb_dlist_insert_tail(x1)`, ..., `tb_dlist_insert_tail(xn)` on
an empty list give a list whose forward walk of payloads is the `step` bytes of
`x1, ..., xn` in this order (the items themselves when each has `step` bytes), whose
backward walk of payloads is the reverse, and whose `size()` is `n`. -/
theorem C10_insert_tail_keeps_order (d d2 : tb_dlist_t) (xs : List (List Nat))
    (hwf : WF d []) (hall : insert_tail_all d xs = some d2) :
    forward_payloads d2 = some (xs.map (fun x => x.take d.step)) ∧
      backward_payloads d2 = some (xs.map (fun x => x.take d.step)).reverse ∧
      tb_dlist_size d2 = xs.length ∧
      ((∀ x ∈ xs, x.length = d.step) →
        forward_payloads d2 = some xs ∧ backward_payloads d2 = some xs.reverse) := by
  obtain ⟨l2, e1, e2, _, e4⟩ := insert_tail_all_spec xs d d2 [] [] hwf rfl hall
  simp only [List.nil_append, tb_memcpy] at e4
  have hb := payloads_at_reverse d2 l2 _ e4
  rw [← e1.fwd_payloads] at e4
  rw [← e1.bwd_payloads] at hb
  refine ⟨e4, hb, by rw [e1.size, e2]; simp, fun hlen => ?_⟩
  have hx : xs.map (fun x => x.take d.step) = xs := by
    conv_rhs => rw [← List.map_id xs]
    apply List.map_congr_left
    intro x hx
    simp [← hlen x hx]
  rw [hx] at e4 hb
  exact ⟨e4, hb⟩

theorem C10_insert_tail_keeps_order_witness :
    insert_tail_all ex_empty [[1, 0, 0, 0], [2, 0, 0, 0], [3, 0, 0, 0]] = some ex_123 ∧
      forward_payloads ex_123 = some [[1, 0, 0, 0], [2, 0, 0, 0], [3, 0, 0, 0]] ∧
      backward_payloads ex_123 = some [[3, 0, 0, 0], [2, 0, 0, 0], [1, 0, 0, 0]] ∧
      tb_dlist_size ex_123 = 3 :=
  have h := C10_insert_tail_keeps_order ex_empty ex_123
    [[1, 0, 0, 0], [2, 0, 0, 0], [3, 0, 0, 0]] (by decide) (by decide)
  ⟨by decide, h.1, h.2.1, h.2.2.1⟩

/-! ## Sequences of calls -/

theorem insert_before_head (n : Nat) (d : tb_dlist_t) (l : List Nat) (hwf : WF d l) :
    insert_before n (tb_dlist_itor_head d) l = n :: l := by
  cases l with
  | nil => rfl
  | cons hd t =>
    have : hd = tb_dlist_itor_head d := hwf.2.1.symm
    simp [insert_before, this]

theorem insert_before_length (n t : Nat) (l : List Nat) :
    (insert_before n t l).length = l.length + 1 := by
  simpa using (insert_before_perm n t l).length_eq

theorem payloads_at_insert_cons {d d2 : tb_dlist_t} {l : List Nat} {P : List (List Nat)}
    {n : Nat} {item : Option (List Nat)} (hfr : InsertFrame d d2 n item) (hnl : n ∉ l)
    (hP : payloads_at d l = some P) :
    payloads_at d2 (n :: l) = some (insert_payload d.step item :: P) := by
  rw [payloads_at_some_iff] at hP ⊢
  rw [List.map_cons, List.map_cons, hfr.2.2.2.2.1, ← hP]
  congr 1
  apply List.map_congr_left
  intro k hk
  exact hfr.2.2.2.2.2 k (fun e => hnl (e ▸ hk))

theorem insert_head_all_spec (xs : List (List Nat)) :
    ∀ (d d2 : tb_dlist_t) (l : List Nat) (P : List (List Nat)), WF d l →
      payloads_at d l = some P → insert_head_all d xs = some d2 →
      ∃ l2, WF d2 l2 ∧ l2.length = l.length + xs.length ∧ d2.step = d.step ∧
        payloads_at d2 l2 = some ((xs.map (fun x => tb_memcpy x d.step)).reverse ++ P) := by
  induction xs with
  | nil =>
    intro d d2 l P hwf hP h
    simp only [insert_head_all, Option.some.injEq] at h
    subst h
    exact ⟨l, hwf, by simp, rfl, by simpa using hP⟩
  | cons x xs ih =>
    intro d d2 l P hwf hP h
    simp only [insert_head_all] at h
    cases hi : tb_dlist_insert_head d (some x) with
    | none => simp [hi] at h
    | some r =>
      obtain ⟨n, d1⟩ := r
      simp only [hi] at h
      by_cases hn : n = 0
      · simp [hn] at h
      · simp only [hn, if_false] at h
        obtain ⟨⟨rest, hfree⟩, _, hwf1, hfr⟩ := insert_success_inv hwf hi hn
        have hnl : n ∉ l := (hwf.fresh hfree).2.2.1
        rw [insert_before_head n d l hwf] at hwf1
        have hP1 := payloads_at_insert_cons hfr hnl hP
        obtain ⟨l2, e1, e2, e3, e4⟩ := ih d1 d2 (n :: l) _ hwf1 hP1 h
        refine ⟨l2, e1, ?_, e3.trans hfr.1, ?_⟩
        · simp [e2]; omega
        · rw [e4, hfr.1]; simp [insert_payload]

theorem insert_seq_wf (cs : List (Nat × Option (List Nat))) :
    ∀ (d d2 : tb_dlist_t) (l : List Nat), WF d l → insert_seq d cs = some d2 →
      ∃ l2, WF d2 l2 ∧ l2.length = l.length + cs.length := by
  induction cs with
  | nil =>
    intro d d2 l hwf h
    simp only [insert_seq, Option.some.injEq] at h
    subst h
    exact ⟨l, hwf, by simp⟩
  | cons c cs ih =>
    intro d d2 l hwf h
    simp only [insert_seq] at h
    cases hi : tb_dlist_insert d c.1 c.2 with
    | none => simp [hi] at h
    | some r =>
      obtain ⟨n, d1⟩ := r
      simp only [hi] at h
      by_cases hn : n = 0
      · simp [hn] at h
      · simp only [hn, if_false] at h
        obtain ⟨_, _, hwf1, _⟩ := insert_success_inv hwf hi hn
        obtain ⟨l2, e1, e2⟩ := ih d1 d2 _ hwf1 h
        exact ⟨l2, e1, by rw [e2, insert_before_length]; simp; omega⟩

theorem remove_seq_wf (hs : List Nat) :
    ∀ (d d2 : tb_dlist_t) (l : List Nat), WF d l → remove_seq d hs = some d2 →
      ∃ l2, WF d2 l2 ∧ l2.length + hs.length = l.length := by
  induction hs with
  | nil =>
    intro d d2 l hwf h
    simp only [remove_seq, Option.some.injEq] at h
    subst h
    exact ⟨l, hwf, by simp⟩
  | cons a hs ih =>
    intro d d2 l hwf h
    simp only [remove_seq, hwf.forward] at h
    by_cases hm : a ∈ l
    · simp only [hm, if_true] at h
      obtain ⟨r, d1, e1, e2, _⟩ := remove_spec hwf hm
      simp only [e1] at h
      obtain ⟨l2, f1, f2⟩ := ih d1 d2 _ e2 h
      refine ⟨l2, f1, ?_⟩
      have h3 := List.length_erase_of_mem hm
      have h4 : 0 < l.length := List.length_pos_of_mem hm
      simp only [List.length_cons]
      omega
    · simp [hm] at h

theorem WF.nil_iff {d : tb_dlist_t} {l : List Nat} (hwf : WF d l) :
    (d.head = 0 ↔ l = []) ∧ (d.last = 0 ↔ l = []) ∧ (tb_dlist_size d = 0 ↔ l = []) := by
  have hhead : d.head = 0 ↔ l = [] := by
    constructor
    · intro hz
      by_contra hne
      exact hwf.head_ne_zero hne hz
    · rintro rfl
      exact hwf.2.1
  have hlast : d.last = 0 ↔ l = [] := by
    constructor
    · intro hz
      by_contra hne
      exact hwf.last_ne_zero hne hz
    · rintro rfl
      exact hwf.2.2.1
  have hsize : tb_dlist_size d = 0 ↔ l = [] := by
    rw [hwf.size]
    exact List.length_eq_zero
  exact ⟨hhead, hlast, hsize⟩

theorem WF.links_at {d : tb_dlist_t} {a b : List Nat} {h : Nat} (hwf : WF d (a ++ h :: b)) :
    tb_dlist_itor_next d h = some (b.headD 0) ∧ tb_dlist_itor_prev d h = some (a.getLastD 0) := by
  obtain ⟨_, hx⟩ := (linked_append d.pool a (h :: b) 0 0).1 hwf.2.2.2.1
  obtain ⟨s, h1, h2, h3, _⟩ := (linked_cons_iff d.pool _ h b 0).1 hx
  have h0 : h ≠ 0 := (itor_at_some_mem h1).1
  simp [tb_dlist_itor_next, tb_dlist_itor_prev, h0, h1, tb_bits_get_u32_ne, h2, h3]

theorem WF.prev_next {d : tb_dlist_t} {l : List Nat} (hwf : WF d l) {h : Nat} (hm : h ∈ l) :
    (tb_dlist_itor_next d h).bind (tb_dlist_itor_prev d) = some h ∧
      (tb_dlist_itor_prev d h).bind (tb_dlist_itor_next d) = some h := by
  obtain ⟨a, b, rfl⟩ := List.append_of_mem hm
  obtain ⟨e1, e2⟩ := hwf.links_at
  rw [e1, e2]
  constructor
  · cases b with
    | nil =>
      simp only [List.headD_nil, Option.some_bind, tb_dlist_itor_prev, if_true]
      rw [hwf.2.2.1, getLastD_append]; rfl
    | cons x t =>
      have hwf2 : WF d ((a ++ [h]) ++ x :: t) := by simpa using hwf
      simp only [List.headD_cons, Option.some_bind]
      rw [hwf2.links_at.2, getLastD_append]; rfl
  · rcases List.eq_nil_or_concat a with h1 | ⟨t, x, rfl⟩
    · subst h1
      simp only [List.getLastD_nil, Option.some_bind, tb_dlist_itor_next, if_true]
      rw [hwf.2.1]; rfl
    · rw [List.concat_eq_append] at *
      have hwf2 : WF d (t ++ x :: (h :: b)) := by simpa using hwf
      simp only [getLastD_append, List.getLastD_cons, List.getLastD_nil, Option.some_bind]
      rw [hwf2.links_at.1]; rfl

theorem insert_failed_unchanged {d d2 : tb_dlist_t} {l : List Nat} (hwf : WF d l)
    {index : Nat} {item : Option (List Nat)}
    (hins : tb_dlist_insert d index item = some (0, d2)) : d2 = d := by
  cases hfree : d.pool.free with
  | nil =>
    rw [insert_exhausted d index item (put_of_free_nil _ hfree)] at hins
    simp only [Option.some.injEq, Prod.mk.injEq, true_and] at hins
    exact hins.symm
  | cons m rest =>
    have hm0 := (hwf.fresh hfree).1
    by_cases hv : l = [] ∨ index = 0 ∨ index ∈ l
    · obtain ⟨d3, h1, _, _⟩ := insert_spec hwf hfree index item hv
      rw [h1] at hins
      simp only [Option.some.injEq, Prod.mk.injEq] at hins
      exact absurd hins.1 hm0
    · simp only [not_or] at hv
      rw [insert_invalid_aborts hwf hv.1 hfree index item hv.2.1 hv.2.2] at hins
      cases hins

theorem Reachable.insert_any {d d2 : tb_dlist_t} (hr : Reachable d) {index n : Nat}
    {item : Option (List Nat)} (hins : tb_dlist_insert d index item = some (n, d2)) :
    Reachable d2 := by
  by_cases hn : n = 0
  · subst hn
    obtain ⟨l, hwf⟩ := hr.wf
    rw [insert_failed_unchanged hwf hins]
    exact hr
  · exact Reachable.insert hr hins hn

theorem ex_13_reachable : Reachable ex_13 :=
  Reachable.remove (l := [1, 2, 3]) (h := 2) (r := 3)
    (Reachable.insert
      (Reachable.insert
        (Reachable.insert
          (Reachable.init 4 [1, 2, 3, 4, 5] true (by decide))
          (by decide : tb_dlist_insert (tb_dlist_init 4 [1, 2, 3, 4, 5] true) 0
            (some [1, 0, 0, 0]) = some (1, ex_1)) (by decide))
        (by decide : tb_dlist_insert ex_1 0 (some [2, 0, 0, 0]) = some (2, ex_12))
        (by decide))
      (by decide : tb_dlist_insert ex_12 0 (some [3, 0, 0, 0]) = some (3, ex_123))
      (by decide))
    (by decide) (by decide) (by decide : tb_dlist_remove ex_123 2 = some (3, ex_13))

/-! ## The claims, continued -/

/-- C11: on a well-formed list with forward payload walk `P`, successful calls
`tb_dlist_insert_head(x1)`, ..., `tb_dlist_insert_head(xn)` give the forward payload
walk `[xn, ..., x1] ++ P` (the `step` bytes of each item; the items themselves when
each has `step` bytes). -/
theorem C11_insert_head_lifo (d d2 : tb_dlist_t) (xs : List (List Nat)) (l : List Nat)
    (P : List (List Nat)) (hwf : WF d l) (hP : forward_payloads d = some P)
    (hall : insert_head_all d xs = some d2) :
    forward_payloads d2 = some ((xs.map (fun x => x.take d.step)).reverse ++ P) ∧
      ((∀ x ∈ xs, x.length = d.step) → forward_payloads d2 = some (xs.reverse ++ P)) := by
  rw [hwf.fwd_payloads] at hP
  obtain ⟨l2, e1, _, _, e4⟩ := insert_head_all_spec xs d d2 l P hwf hP hall
  simp only [tb_memcpy] at e4
  rw [← e1.fwd_payloads] at e4
  refine ⟨e4, fun hlen => ?_⟩
  have hx : xs.map (fun x => x.take d.step) = xs := by
    conv_rhs => rw [← List.map_id xs]
    apply List.map_congr_left
    intro x hx
    simp [← hlen x hx]
  rwa [hx] at e4

theorem C11_insert_head_lifo_witness :
    (insert_head_all ex_empty [[65, 0, 0, 0], [66, 0, 0, 0], [67, 0, 0, 0]] = some ex_cba ∧
      forward_payloads ex_cba = some [[67, 0, 0, 0], [66, 0, 0, 0], [65, 0, 0, 0]]) ∧
    (forward_payloads ex_13 = some [[1, 0, 0, 0], [3, 0, 0, 0]] ∧
      insert_head_all ex_13 [[0, 0, 0, 0]] = some ex_013 ∧
      forward_payloads ex_013 = some [[0, 0, 0, 0], [1, 0, 0, 0], [3, 0, 0, 0]]) :=
  ⟨⟨by decide,
      (C11_insert_head_lifo ex_empty ex_cba [[65, 0, 0, 0], [66, 0, 0, 0], [67, 0, 0, 0]] [] []
        (by decide) (by decide) (by decide)).1⟩,
    ⟨by decide, by decide,
      (C11_insert_head_lifo ex_13 ex_013 [[0, 0, 0, 0]] [1, 3]
        [[1, 0, 0, 0], [3, 0, 0, 0]] (by decide) (by decide) (by decide)).1⟩⟩

/-- C12: starting from an empty list, a sequence of N successful inserts followed by
N calls of `tb_dlist_remove`, each on a handle that is in the list at the time of the
call, leaves `size() == 0` and `head == last == 0`. -/
theorem C12_inserts_then_removes_empty (d0 d1 d2 : tb_dlist_t)
    (cs : List (Nat × Option (List Nat))) (hs : List Nat) (hwf : WF d0 [])
    (hins : insert_seq d0 cs = some d1) (hrem : remove_seq d1 hs = some d2)
    (hN : hs.length = cs.length) :
    tb_dlist_size d2 = 0 ∧ d2.head = 0 ∧ d2.last = 0 := by
  obtain ⟨l1, w1, n1⟩ := insert_seq_wf cs d0 d1 [] hwf hins
  obtain ⟨l2, w2, n2⟩ := remove_seq_wf hs d1 d2 l1 w1 hrem
  have hl : l2 = [] := by
    apply List.length_eq_zero.1
    simp only [List.length_nil] at n1
    omega
  subst hl
  exact ⟨w2.nil_iff.2.2.2 rfl, w2.nil_iff.1.2 rfl, w2.nil_iff.2.1.2 rfl⟩

theorem C12_inserts_then_removes_empty_witness :
    insert_seq ex_empty [(0, some [1, 0, 0, 0]), (0, some [2, 0, 0, 0]), (0, some [3, 0, 0, 0])]
        = some ex_123 ∧
      remove_seq ex_123 [2, 1, 3] = some ex_gone ∧
      tb_dlist_size ex_gone = 0 ∧ ex_gone.head = 0 ∧ ex_gone.last = 0 :=
  ⟨by decide, by decide,
    C12_inserts_then_removes_empty ex_empty ex_123 ex_gone
      [(0, some [1, 0, 0, 0]), (0, some [2, 0, 0, 0]), (0, some [3, 0, 0, 0])] [2, 1, 3]
      (by decide) (by decide) (by decide) (by decide)⟩

theorem nremove_head_loop_spec (n : Nat) :
    ∀ (d : tb_dlist_t) (l : List Nat), WF d l →
      ∃ d2, nremove_head_loop n d = some (l.take n, d2) ∧ WF d2 (l.drop n) := by
  induction n with
  | zero =>
    intro d l hwf
    exact ⟨d, by simp [nremove_head_loop], by simpa using hwf⟩
  | succ n ih =>
    intro d l hwf
    cases l with
    | nil =>
      refine ⟨d, ?_, by simpa using hwf⟩
      have : tb_dlist_size d = 0 := hwf.nil_iff.2.2.2 rfl
      simp [nremove_head_loop, this]
    | cons h t =>
      have hs : tb_dlist_size d ≠ 0 := by rw [hwf.size]; simp
      have hh : tb_dlist_itor_head d = h := hwf.2.1
      obtain ⟨r, d1, e1, e2, _⟩ := remove_spec hwf (List.mem_cons_self h t)
      rw [List.erase_cons_head] at e2
      obtain ⟨d3, f1, f2⟩ := ih d1 t e2
      refine ⟨d3, ?_, by simpa using f2⟩
      simp [nremove_head_loop, hs, tb_dlist_remove_head, hh, e1, f1]

/-- C13: on a well-formed list with forward walk `l`, `tb_dlist_nremove_head(n)` returns,
leaves the forward walk `drop n l` (so `size()` is `|l| - min(n, |l|)`), makes its
`tb_dlist_remove_head` calls on exactly the first `min(n, |l|)` nodes of `l` (never on
an empty list, where the head is 0), and returns the new head (0 when the result is
empty). -/
theorem C13_nremove_head_drops (d : tb_dlist_t) (l : List Nat) (n : Nat) (hwf : WF d l) :
    ∃ calls d2, nremove_head_loop n d = some (calls, d2) ∧
      tb_dlist_nremove_head d n = some ((l.drop n).headD 0, d2) ∧
      forward_walk d2 = some (l.drop n) ∧
      tb_dlist_size d2 = l.length - min n l.length ∧
      calls = l.take n ∧ calls.length = min n l.length ∧ (∀ h ∈ calls, h ≠ 0) ∧
      tb_dlist_itor_head d2 = (l.drop n).headD 0 := by
  obtain ⟨d2, e1, e2⟩ := nremove_head_loop_spec n d l hwf
  refine ⟨l.take n, d2, e1, ?_, e2.forward, ?_, rfl, by simp, ?_, e2.2.1⟩
  · simp only [tb_dlist_nremove_head, e1, Option.map_some', tb_dlist_itor_head, e2.2.1]
  · rw [e2.size, List.length_drop]; omega
  · intro h hm
    exact hwf.ne_zero (List.mem_of_mem_take hm)

theorem C13_nremove_head_drops_witness :
    (∃ calls d2, nremove_head_loop 2 ex_123 = some (calls, d2) ∧
      tb_dlist_nremove_head ex_123 2 = some (3, d2) ∧
      forward_walk d2 = some [3] ∧ tb_dlist_size d2 = 1 ∧
      calls = [1, 2] ∧ calls.length = 2 ∧ (∀ h ∈ calls, h ≠ 0) ∧
      tb_dlist_itor_head d2 = 3) ∧
    (∃ calls d2, nremove_head_loop 5 ex_3 = some (calls, d2) ∧
      tb_dlist_nremove_head ex_3 5 = some (0, d2) ∧
      forward_walk d2 = some [] ∧ tb_dlist_size d2 = 0 ∧
      calls = [3] ∧ calls.length = 1 ∧ (∀ h ∈ calls, h ≠ 0) ∧
      tb_dlist_itor_head d2 = 0) :=
  ⟨C13_nremove_head_drops ex_123 [1, 2, 3] 2 (by decide),
    C13_nremove_head_drops ex_3 [3] 5 (by decide)⟩

/-- C15: in a well-formed list `tb_dlist_itor_tail` is 0, `tb_dlist_itor_next(0)` is
`head`, `tb_dlist_itor_prev(0)` is `last`, and for every `h` that is 0 or a node of the
list `itor_prev(itor_next(h)) == h` and `itor_next(itor_prev(h)) == h`; in particular
`next(last) == 0` and `prev(head) == 0` in a non-empty list. -/
theorem C15_next_prev_inverse (d : tb_dlist_t) (l : List Nat) (hwf : WF d l) :
    tb_dlist_itor_tail d = 0 ∧ tb_dlist_itor_next d 0 = some (tb_dlist_itor_head d) ∧
      tb_dlist_itor_prev d 0 = some (tb_dlist_itor_last d) ∧
      (∀ h, h = 0 ∨ h ∈ l →
        (tb_dlist_itor_next d h).bind (tb_dlist_itor_prev d) = some h ∧
        (tb_dlist_itor_prev d h).bind (tb_dlist_itor_next d) = some h) ∧
      (l ≠ [] → tb_dlist_itor_next d (tb_dlist_itor_last d) = some 0 ∧
        tb_dlist_itor_prev d (tb_dlist_itor_head d) = some 0) := by
  have hends : l ≠ [] → tb_dlist_itor_next d d.last = some 0 ∧
      tb_dlist_itor_prev d d.head = some 0 := by
    intro hne
    constructor
    · rcases List.eq_nil_or_concat l with h1 | ⟨t, x, rfl⟩
      · exact absurd h1 hne
      · rw [List.concat_eq_append] at *
        have hl : d.last = x := by rw [hwf.2.2.1, getLastD_append]; rfl
        rw [hl]
        exact hwf.links_at.1
    · cases l with
      | nil => exact absurd rfl hne
      | cons x t =>
        have hh : d.head = x := hwf.2.1
        have hwf2 : WF d ([] ++ x :: t) := hwf
        rw [hh]
        exact hwf2.links_at.2
  refine ⟨rfl, rfl, rfl, ?_, hends⟩
  rintro h (rfl | hm)
  · by_cases hne : l = []
    · subst hne
      have h1 : d.head = 0 := hwf.2.1
      have h2 : d.last = 0 := hwf.2.2.1
      simp [tb_dlist_itor_next, tb_dlist_itor_prev, h1, h2]
    · obtain ⟨e1, e2⟩ := hends hne
      simp only [tb_dlist_itor_next, tb_dlist_itor_prev, if_true, Option.some_bind] at e1 e2 ⊢
      exact ⟨e2, e1⟩
  · exact hwf.prev_next hm

theorem C15_next_prev_inverse_witness :
    tb_dlist_itor_tail ex_123 = 0 ∧ tb_dlist_itor_next ex_123 0 = some 1 ∧
      tb_dlist_itor_prev ex_123 0 = some 3 ∧
      (∀ h, h = 0 ∨ h ∈ [1, 2, 3] →
        (tb_dlist_itor_next ex_123 h).bind (tb_dlist_itor_prev ex_123) = some h ∧
        (tb_dlist_itor_prev ex_123 h).bind (tb_dlist_itor_next ex_123) = some h) ∧
      (([1, 2, 3] : List Nat) ≠ [] → tb_dlist_itor_next ex_123 3 = some 0 ∧
        tb_dlist_itor_prev ex_123 1 = some 0) :=
  C15_next_prev_inverse ex_123 [1, 2, 3] (by decide)

/-- C16: in every list reachable from `tb_dlist_init` by insert, remove of nodes of
the list, replace and clear: `head == 0` iff `last == 0` iff `size() == 0`, `size() == 1`
implies `head == last`, and `head` and `last` are both non-zero whenever they are not
both zero, so the assertion of `tb_dlist_insert` does not fail; an insert that returns,
successful or not, leads again to such a list. -/
theorem C16_head_last_size (d : tb_dlist_t) (hr : Reachable d) :
    (d.head = 0 ↔ d.last = 0) ∧ (d.last = 0 ↔ tb_dlist_size d = 0) ∧
      (tb_dlist_size d = 1 → d.head = d.last) ∧
      (¬ (d.head = 0 ∧ d.last = 0) → d.head ≠ 0 ∧ d.last ≠ 0) ∧
      (∀ index item n d2, tb_dlist_insert d index item = some (n, d2) → Reachable d2) := by
  obtain ⟨l, hwf⟩ := hr.wf
  obtain ⟨h1, h2, h3⟩ := hwf.nil_iff
  refine ⟨h1.trans h2.symm, h2.trans h3.symm, ?_, ?_, fun _ _ _ _ h => hr.insert_any h⟩
  · intro hs
    rw [hwf.size] at hs
    obtain ⟨x, rfl⟩ := List.length_eq_one.1 hs
    rw [hwf.2.1, hwf.2.2.1]; rfl
  · intro hn
    have hne : l ≠ [] := by
      intro hl
      exact hn ⟨h1.2 hl, h2.2 hl⟩
    exact ⟨hwf.head_ne_zero hne, hwf.last_ne_zero hne⟩

theorem C16_head_last_size_witness :
    (ex_13.head = 0 ↔ ex_13.last = 0) ∧ (ex_13.last = 0 ↔ tb_dlist_size ex_13 = 0) ∧
      (tb_dlist_size ex_13 = 1 → ex_13.head = ex_13.last) ∧
      (¬ (ex_13.head = 0 ∧ ex_13.last = 0) → ex_13.head ≠ 0 ∧ ex_13.last ≠ 0) ∧
      (∀ index item n d2, tb_dlist_insert ex_13 index item = some (n, d2) → Reachable d2) :=
  C16_head_last_size ex_13 ex_13_reachable

/-- C17: in a well-formed list, `tb_dlist_remove(h)` of a node `h` returns, hands the
payload stored at `h` to the release callback exactly once (nothing is released when no
callback is registered, and the removal still takes place), frees exactly the slot `h`
(its handle goes back to the free list and no longer resolves, the live count drops by
one) and leaves the payload of every other handle as it was. -/
theorem C17_remove_releases_once (d : tb_dlist_t) (l : List Nat) (h : Nat) (hwf : WF d l)
    (hm : h ∈ l) :
    ∃ r d2 payload, tb_dlist_itor_at d h = some payload ∧
      tb_dlist_remove d h = some (r, d2) ∧
      d2.released = (if d.func_free then d.released ++ [payload] else d.released) ∧
      d2.pool.free = h :: d.pool.free ∧ tb_fpool_itor_at d2.pool h = none ∧
      tb_dlist_size d2 + 1 = tb_dlist_size d ∧
      forward_walk d2 = some (l.erase h) ∧
      (∀ k, k ≠ h → tb_dlist_itor_at d2 k = tb_dlist_itor_at d k) := by
  obtain ⟨r, d2, e1, e2, ⟨_, _, f3, ⟨s, f4, f5⟩, f6, f7⟩, _⟩ := remove_spec hwf hm
  refine ⟨r, d2, s.data, by simp [tb_dlist_itor_at, tb_dlist_itor_const_at, f4], e1, ?_, f3, f6,
    ?_, e2.forward, f7⟩
  · rw [f5]; rfl
  · rw [e2.size, hwf.size, List.length_erase_of_mem hm]
    have : 0 < l.length := List.length_pos_of_mem hm
    omega

theorem C17_remove_releases_once_witness :
    ∃ r d2 payload, tb_dlist_itor_at ex_123 2 = some payload ∧
      tb_dlist_remove ex_123 2 = some (r, d2) ∧
      d2.released = [] ++ [payload] ∧
      d2.pool.free = 2 :: [4, 5] ∧ tb_fpool_itor_at d2.pool 2 = none ∧
      tb_dlist_size d2 + 1 = 3 ∧
      forward_walk d2 = some [1, 3] ∧
      (∀ k, k ≠ 2 → tb_dlist_itor_at d2 k = tb_dlist_itor_at ex_123 k) :=
  C17_remove_releases_once ex_123 [1, 2, 3] 2 (by decide) (by decide)

/-! ## The nodes an insert touches -/

theorem WF.slot_links {d : tb_dlist_t} {a b : List Nat} {h : Nat} (hwf : WF d (a ++ h :: b)) :
    ∃ s, tb_fpool_itor_at d.pool h = some s ∧ s.next = b.headD 0 ∧ s.prev = a.getLastD 0 := by
  obtain ⟨_, hx⟩ := (linked_append d.pool a (h :: b) 0 0).1 hwf.2.2.2.1
  obtain ⟨s, h1, h2, h3, _⟩ := (linked_cons_iff d.pool _ h b 0).1 hx
  exact ⟨s, h1, h3, h2⟩

theorem WF.links_mem {d : tb_dlist_t} {l : List Nat} (hwf : WF d l) {k : Nat} {s : Slot}
    (hs : tb_fpool_itor_at d.pool k = some s) :
    (s.next = 0 ∨ s.next ∈ l) ∧ (s.prev = 0 ∨ s.prev ∈ l) ∧
      (k ≠ d.head → s.prev ∈ l ∧ s.prev ≠ k) := by
  have hm : k ∈ l := hwf.mem_keys.1 (itor_at_some_mem hs).2
  obtain ⟨a, b, rfl⟩ := List.append_of_mem hm
  obtain ⟨s2, e1, e2, e3⟩ := hwf.slot_links
  rw [hs] at e1
  cases e1
  have hnd := hwf.nodup
  refine ⟨?_, ?_, fun hk => ?_⟩
  · rw [e2]
    cases b with
    | nil => left; rfl
    | cons x t => right; simp
  · rw [e3]
    rcases List.eq_nil_or_concat a with h1 | ⟨t, x, rfl⟩
    · left; rw [h1]; rfl
    · right; rw [List.concat_eq_append, getLastD_append]; simp
  · rw [e3]
    rcases List.eq_nil_or_concat a with h1 | ⟨t, x, rfl⟩
    · subst h1
      exact absurd hwf.2.1.symm hk
    · rw [List.concat_eq_append] at *
      rw [getLastD_append]
      refine ⟨by simp, ?_⟩
      intro hx
      simp only [List.getLastD_cons, List.getLastD_nil] at hx
      exact (List.nodup_append.1 hnd).2.2 (show x ∈ t ++ [x] by simp) (by simp [hx])

/-- C20: a successful `tb_dlist_insert(target, item)` returning `n` on a well-formed list
modifies at most two of the nodes that existed before: none on an empty list, only the
old last (its `next` becomes `n`) when `target` is 0, only the old head (its `prev`
becomes `n`) when `target` is the head, only `target` (its `prev` becomes `n`) and its
former predecessor (its `next` becomes `n`) otherwise; each changed field held another
value before, and every other slot keeps its `next`, `prev` and payload. -/
theorem C20_insert_touches_two_nodes (d d2 : tb_dlist_t) (l : List Nat) (target n : Nat)
    (item : Option (List Nat)) (hwf : WF d l)
    (hins : tb_dlist_insert d target item = some (n, d2)) (hn : n ≠ 0) :
    (l = [] → ∀ k, k ≠ n → tb_fpool_itor_at d2.pool k = tb_fpool_itor_at d.pool k) ∧
    (l ≠ [] → target = 0 →
      ∃ s, tb_fpool_itor_at d.pool d.last = some s ∧ s.next ≠ n ∧
        tb_fpool_itor_at d2.pool d.last = some { s with next := n } ∧
        ∀ k, k ≠ n → k ≠ d.last → tb_fpool_itor_at d2.pool k = tb_fpool_itor_at d.pool k) ∧
    (l ≠ [] → target = d.head →
      ∃ s, tb_fpool_itor_at d.pool d.head = some s ∧ s.prev ≠ n ∧
        tb_fpool_itor_at d2.pool d.head = some { s with prev := n } ∧
        ∀ k, k ≠ n → k ≠ d.head → tb_fpool_itor_at d2.pool k = tb_fpool_itor_at d.pool k) ∧
    (l ≠ [] → target ≠ 0 → target ≠ d.head →
      ∃ sb sp, tb_fpool_itor_at d.pool target = some sb ∧
        tb_fpool_itor_at d.pool sb.prev = some sp ∧ sb.prev ≠ target ∧
        sb.prev ≠ n ∧ sp.next ≠ n ∧
        tb_fpool_itor_at d2.pool target = some { sb with prev := n } ∧
        tb_fpool_itor_at d2.pool sb.prev = some { sp with next := n } ∧
        ∀ k, k ≠ n → k ≠ target → k ≠ sb.prev →
          tb_fpool_itor_at d2.pool k = tb_fpool_itor_at d.pool k) := by
  obtain ⟨⟨rest, hfree⟩, hv, _, _⟩ := insert_success_inv hwf hins hn
  obtain ⟨hn0, hlt, hnl, hnk⟩ := hwf.fresh hfree
  have hfresh : ∀ {k : Nat} {s : Slot}, tb_fpool_itor_at d.pool k = some s →
      s.next ≠ n ∧ s.prev ≠ n := by
    intro k s hs
    obtain ⟨h1, h2, _⟩ := hwf.links_mem hs
    constructor
    · rcases h1 with h | h
      · rw [h]; exact fun x => hn0 x.symm
      · exact fun x => hnl (x ▸ h)
    · rcases h2 with h | h
      · rw [h]; exact fun x => hn0 x.symm
      · exact fun x => hnl (x ▸ h)
  refine ⟨fun hl => ?_, fun hl ht => ?_, fun hl ht => ?_, fun hl ht0 hth => ?_⟩
  · subst hl
    obtain ⟨q, hq, _, _, _, hat⟩ :=
      insert_empty_effect d target item n rest hfree hn0 hwf.2.1 hwf.2.2.1
    rw [hq] at hins
    simp only [Option.some.injEq, Prod.mk.injEq, true_and] at hins
    subst hins
    intro k hk
    simp [hat, hk]
  · subst ht
    have hh := hwf.head_ne_zero hl
    have hls := hwf.last_ne_zero hl
    have hlm : d.last ∈ l := by rw [hwf.2.2.1]; exact getLastD_mem_of_ne_nil l 0 hl
    obtain ⟨s, hs⟩ := hwf.live hlm
    have hne : d.last ≠ n := fun x => hnl (x ▸ hlm)
    obtain ⟨q, hq, _, _, _, hat⟩ := insert_tail_effect d item n rest hfree hn0 hh hls s hs hne
    rw [hq] at hins
    simp only [Option.some.injEq, Prod.mk.injEq, true_and] at hins
    subst hins
    refine ⟨s, hs, (hfresh hs).1, ?_, fun k hk1 hk2 => ?_⟩
    · simp [hat, hne, mod32 hlt]
    · simp [hat, hk1, hk2]
  · have hh := hwf.head_ne_zero hl
    have hls := hwf.last_ne_zero hl
    have hhm : d.head ∈ l := by rw [hwf.2.1]; exact headD_mem_of_ne_nil l 0 hl
    obtain ⟨s, hs⟩ := hwf.live hhm
    have hne : d.head ≠ n := fun x => hnl (x ▸ hhm)
    obtain ⟨q, hq, _, _, _, hat⟩ := insert_head_effect d item n rest hfree hn0 hh hls s hs hne
    rw [ht, hq] at hins
    simp only [Option.some.injEq, Prod.mk.injEq, true_and] at hins
    subst hins
    refine ⟨s, hs, (hfresh hs).2, ?_, fun k hk1 hk2 => ?_⟩
    · simp [hat, hne, mod32 hlt]
    · simp [hat, hk1, hk2]
  · have hh := hwf.head_ne_zero hl
    have hls := hwf.last_ne_zero hl
    have htm : target ∈ l := by
      rcases hv with h | h | h
      · exact absurd h hl
      · exact absurd h ht0
      · exact h
    obtain ⟨sb, hb⟩ := hwf.live htm
    obtain ⟨_, _, hp⟩ := hwf.links_mem hb
    obtain ⟨hpm, hpt⟩ := hp hth
    obtain ⟨sp, hsp⟩ := hwf.live hpm
    have hne : target ≠ n := fun x => hnl (x ▸ htm)
    have hpn : sb.prev ≠ n := fun x => hnl (x ▸ hpm)
    obtain ⟨q, hq, _, _, _, hat⟩ :=
      insert_body_effect d target item n rest hfree hn0 hh hls ht0 hth sb sp hb hne hsp hpn hpt
    rw [hq] at hins
    simp only [Option.some.injEq, Prod.mk.injEq, true_and] at hins
    subst hins
    refine ⟨sb, sp, hb, hsp, hpt, hpn, (hfresh hsp).1, ?_, ?_, fun k hk1 hk2 hk3 => ?_⟩
    · simp [hat, hne, mod32 hlt]
    · simp [hat, hpn, hpt, mod32 hlt]
    · simp [hat, hk1, hk2, hk3]

theorem C20_insert_touches_two_nodes_witness :
    ∃ sb sp, tb_fpool_itor_at ex_123.pool 2 = some sb ∧
      tb_fpool_itor_at ex_123.pool sb.prev = some sp ∧ sb.prev ≠ 2 ∧
      sb.prev ≠ 4 ∧ sp.next ≠ 4 ∧
      tb_fpool_itor_at ex_1423.pool 2 = some { sb with prev := 4 } ∧
      tb_fpool_itor_at ex_1423.pool sb.prev = some { sp with next := 4 } ∧
      ∀ k, k ≠ 4 → k ≠ 2 → k ≠ sb.prev →
        tb_fpool_itor_at ex_1423.pool k = tb_fpool_itor_at ex_123.pool k :=
  (C20_insert_touches_two_nodes ex_123 ex_1423 [1, 2, 3] 2 4 (some [9, 0, 0, 0])
    (by decide) (by decide) (by decide)).2.2.2 (by decide) (by decide) (by decide)

/-! ## Bulk insertion -/

theorem WF.free_nodup {d : tb_dlist_t} {l : List Nat} (hwf : WF d l) : d.pool.free.Nodup :=
  List.Nodup.of_append_right hwf.1.1

theorem ninsert_loop_spec (item : Option (List Nat)) (ns : List Nat) :
    ∀ (d : tb_dlist_t) (a b : List Nat) (c : Nat) (rest : List Nat),
      WF d (a ++ c :: b) → d.pool.free = ns ++ rest →
      ∃ d2, ninsert_loop item ns.length d c = some (ns.getLastD c, d2) ∧
        WF d2 (a ++ ns.reverse ++ c :: b) ∧ d2.pool.free = rest ∧ d2.step = d.step ∧
        (∀ k ∈ ns, tb_dlist_itor_at d2 k = some (insert_payload d.step item)) ∧
        (∀ k, k ∉ ns → tb_dlist_itor_at d2 k = tb_dlist_itor_at d k) := by
  induction ns with
  | nil =>
    intro d a b c rest hwf hfree
    exact ⟨d, rfl, by simpa using hwf, by simpa using hfree, rfl, by simp, fun _ _ => rfl⟩
  | cons n ns ih =>
    intro d a b c rest hwf hfree
    have hfree2 : d.pool.free = n :: (ns ++ rest) := by simpa using hfree
    have hnd := hwf.nodup
    have hca : c ∉ a := fun x => (List.nodup_append.1 hnd).2.2 x (by simp)
    have hfn := hwf.free_nodup
    rw [hfree2] at hfn
    have hnns : n ∉ ns := fun x => (List.nodup_cons.1 hfn).1 (List.mem_append_left _ x)
    obtain ⟨d1, e1, e2, e3⟩ := insert_spec hwf hfree2 c item (Or.inr (Or.inr (by simp)))
    rw [insert_before_split n c a b hca] at e2
    have hfree1 : d1.pool.free = ns ++ rest := by rw [e3.2.2.2.1, hfree2]; rfl
    obtain ⟨d2, f1, f2, f3, f4, f5, f6⟩ := ih d1 a (c :: b) n rest e2 hfree1
    refine ⟨d2, ?_, by simpa using f2, f3, f4.trans e3.1, fun k hk => ?_, fun k hk => ?_⟩
    · simp only [List.length_cons, ninsert_loop, e1, List.getLastD_cons]
      exact f1
    · rcases List.mem_cons.1 hk with rfl | hk
      · rw [f6 k hnns]; exact e3.2.2.2.2.1
      · rw [f5 k hk, e3.1]
    · have h1 : k ≠ n := fun x => hk (by simp [x])
      have h2 : k ∉ ns := fun x => hk (List.mem_cons_of_mem _ x)
      rw [f6 k h2]; exact e3.2.2.2.2.2 k h1

theorem ninsert_loop_tail_spec (item : Option (List Nat)) (n : Nat) (ns : List Nat)
    (d : tb_dlist_t) (l : List Nat) (target : Nat) (rest : List Nat) (hwf : WF d l)
    (hfree : d.pool.free = (n :: ns) ++ rest) (ht : target = 0 ∨ l = []) :
    ∃ d2, ninsert_loop item (n :: ns).length d target = some ((n :: ns).getLastD target, d2) ∧
      WF d2 (l ++ (n :: ns).reverse) ∧ d2.pool.free = rest ∧ d2.step = d.step ∧
      (∀ k ∈ n :: ns, tb_dlist_itor_at d2 k = some (insert_payload d.step item)) ∧
      (∀ k, k ∉ n :: ns → tb_dlist_itor_at d2 k = tb_dlist_itor_at d k) := by
  have hfree2 : d.pool.free = n :: (ns ++ rest) := by simpa using hfree
  have hfn := hwf.free_nodup
  rw [hfree2] at hfn
  have hnns : n ∉ ns := fun x => (List.nodup_cons.1 hfn).1 (List.mem_append_left _ x)
  have hv : l = [] ∨ target = 0 ∨ target ∈ l := by
    rcases ht with h | h
    · exact Or.inr (Or.inl h)
    · exact Or.inl h
  obtain ⟨d1, e1, e2, e3⟩ := insert_spec hwf hfree2 target item hv
  have hib : insert_before n target l = l ++ [n] := by
    rcases ht with h | h
    · subst h
      exact insert_before_not_mem n 0 l (fun x => hwf.ne_zero x rfl)
    · subst h; rfl
  rw [hib] at e2
  have hfree1 : d1.pool.free = ns ++ rest := by rw [e3.2.2.2.1, hfree2]; rfl
  obtain ⟨d2, f1, f2, f3, f4, f5, f6⟩ := ninsert_loop_spec item ns d1 l [] n rest e2 hfree1
  refine ⟨d2, ?_, by simpa using f2, f3, f4.trans e3.1, fun k hk => ?_, fun k hk => ?_⟩
  · simp only [List.length_cons, ninsert_loop, e1, List.getLastD_cons]
    exact f1
  · rcases List.mem_cons.1 hk with rfl | hk
    · rw [f6 k hnns]; exact e3.2.2.2.2.1
    · rw [f5 k hk, e3.1]
  · have h1 : k ≠ n := fun x => hk (by simp [x])
    have h2 : k ∉ ns := fun x => hk (List.mem_cons_of_mem _ x)
    rw [f6 k h2]; exact e3.2.2.2.2.2 k h1

theorem WF.free_fresh {d : tb_dlist_t} {l : List Nat} (hwf : WF d l) {k : Nat}
    (hk : k ∈ d.pool.free) : k ∉ l ∧ k ≠ 0 := by
  refine ⟨fun hm => ?_, (hwf.1.2 k (List.mem_append_right _ hk)).1⟩
  exact (List.nodup_append.1 hwf.1.1).2.2 (hwf.mem_keys.2 hm) hk

theorem reverse_head_getLastD (ns : List Nat) (x : Nat) (h : ns ≠ []) :
    ns.reverse.head? = some (ns.getLastD x) := by
  rcases List.eq_nil_or_concat ns with h1 | ⟨t, y, rfl⟩
  · exact absurd h1 h
  · rw [List.concat_eq_append, getLastD_append]; simp

/-- C14: on a well-formed list with forward walk `l`, with `target` 0 or a node of `l`,
and with a pool able to hand out the `count >= 1` handles `ns` (all allocations
succeed), `tb_dlist_ninsert(target, item, count)` returns, the `count` new nodes `ns`
are not nodes of `l` and each holds the item, they form one run (in reverse order of
allocation) placed right before `target`, at the end of the list when `target` is 0,
the rest of `l` keeps its order and payloads, and the handle returned is the first
node of the run. -/
theorem C14_ninsert_contiguous_run (d : tb_dlist_t) (l : List Nat) (target : Nat)
    (item : Option (List Nat)) (count : Nat) (ns rest : List Nat) (hwf : WF d l)
    (hc : 1 ≤ count) (hfree : d.pool.free = ns ++ rest) (hlen : ns.length = count)
    (ht : target = 0 ∨ target ∈ l) :
    ∃ r d2, tb_dlist_ninsert d target item count = some (r, d2) ∧
      ns.reverse.head? = some r ∧
      (target = 0 → forward_walk d2 = some (l ++ ns.reverse)) ∧
      (∀ i, l[i]? = some target →
        forward_walk d2 = some (l.take i ++ ns.reverse ++ l.drop i)) ∧
      (∀ k ∈ ns, k ∉ l ∧ tb_dlist_itor_at d2 k = some (insert_payload d.step item)) ∧
      (∀ k ∈ l, tb_dlist_itor_at d2 k = tb_dlist_itor_at d k) ∧
      tb_dlist_size d2 = tb_dlist_size d + count := by
  have hc0 : count ≠ 0 := by omega
  have hns : ns ≠ [] := by
    intro h; rw [h] at hlen; simp at hlen; omega
  have hfr : ∀ k ∈ ns, k ∉ l := fun k hk =>
    (hwf.free_fresh (by rw [hfree]; exact List.mem_append_left _ hk)).1
  have hun : tb_dlist_ninsert d target item count = ninsert_loop item ns.length d target := by
    simp [tb_dlist_ninsert, hc0, hlen]
  by_cases h0 : target = 0
  · subst h0
    cases ns with
    | nil => exact absurd rfl hns
    | cons n ns2 =>
      obtain ⟨d2, f1, f2, _, _, f5, f6⟩ :=
        ninsert_loop_tail_spec item n ns2 d l 0 rest hwf hfree (Or.inl rfl)
      refine ⟨_, d2, hun.trans f1, reverse_head_getLastD _ _ hns, fun _ => f2.forward,
        fun i hi => ?_, fun k hk => ⟨hfr k hk, f5 k hk⟩,
        fun k hk => f6 k (fun x => hfr k x hk), ?_⟩
      · have hm0 : (0 : Nat) ∈ l := by
          rw [(take_append_drop_at l i 0 hi).1]; simp
        exact absurd rfl (hwf.ne_zero hm0)
      · rw [f2.size, hwf.size, ← hlen]; simp
  · have hm : target ∈ l := ht.resolve_left h0
    obtain ⟨a, b, hab⟩ := List.append_of_mem hm
    have hwf1 : WF d (a ++ target :: b) := hab ▸ hwf
    obtain ⟨d2, f1, f2, _, _, f5, f6⟩ := ninsert_loop_spec item ns d a b target rest hwf1 hfree
    refine ⟨_, d2, hun.trans f1, reverse_head_getLastD _ _ hns, fun h => absurd h h0,
      fun i hi => ?_, fun k hk => ⟨hfr k hk, f5 k hk⟩,
      fun k hk => f6 k (fun x => hfr k x hk), ?_⟩
    · obtain ⟨h1, h2⟩ := take_append_drop_at l i target hi
      have hwf2 : WF d (l.take i ++ target :: l.drop (i + 1)) := h1 ▸ hwf
      obtain ⟨d3, g1, g2, _⟩ :=
        ninsert_loop_spec item ns d (l.take i) (l.drop (i + 1)) target rest hwf2 hfree
      rw [f1] at g1
      simp only [Option.some.injEq, Prod.mk.injEq, true_and] at g1
      subst g1
      rw [g2.forward, h2]
    · rw [f2.size, hwf.size, ← hlen, hab]
      simp only [List.length_append, List.length_reverse, List.length_cons]
      omega

theorem C14_ninsert_contiguous_run_witness :
    ∃ r d2, tb_dlist_ninsert ex_1 1 (some [7, 0, 0, 0]) 3 = some (r, d2) ∧
      [2, 3, 4].reverse.head? = some r ∧
      ((1 : Nat) = 0 → forward_walk d2 = some ([1] ++ [2, 3, 4].reverse)) ∧
      (∀ i, [1][i]? = some 1 →
        forward_walk d2 = some ([1].take i ++ [2, 3, 4].reverse ++ [1].drop i)) ∧
      (∀ k ∈ [2, 3, 4], k ∉ [1] ∧
        tb_dlist_itor_at d2 k = some (insert_payload 4 (some [7, 0, 0, 0]))) ∧
      (∀ k ∈ [1], tb_dlist_itor_at d2 k = tb_dlist_itor_at ex_1 k) ∧
      tb_dlist_size d2 = tb_dlist_size ex_1 + 3 :=
  C14_ninsert_contiguous_run ex_1 [1] 1 (some [7, 0, 0, 0]) 3 [2, 3, 4] [5] (by decide)
    (by decide) (by decide) (by decide) (by decide)

/-! ## Bulk replacement -/

/-- What `tb_dlist_replace` with a present item leaves as it was. -/
theorem replace_frame {d : tb_dlist_t} {l : List Nat} (hwf : WF d l) {h : Nat} (hm : h ∈ l)
    (bytes : List Nat) :
    ∃ old d1, tb_dlist_itor_at d h = some old ∧
      tb_dlist_replace d h (some bytes) = some (h, d1) ∧ WF d1 l ∧
      d1.step = d.step ∧ d1.func_free = d.func_free ∧ d1.head = d.head ∧ d1.last = d.last ∧
      tb_dlist_itor_at d1 h = some (tb_memcpy bytes d.step) ∧
      (∀ k, k ≠ h → tb_dlist_itor_at d1 k = tb_dlist_itor_at d k) ∧
      (∀ k, tb_dlist_itor_next d1 k = tb_dlist_itor_next d k ∧
        tb_dlist_itor_prev d1 k = tb_dlist_itor_prev d k) ∧
      d1.released = (if d.func_free then d.released ++ [old] else d.released) := by
  obtain ⟨s, hs, e2, e3⟩ := replace_spec hwf hm bytes
  refine ⟨s.data, _, by simp [tb_dlist_itor_at, tb_dlist_itor_const_at, hs], e2, e3, rfl, rfl,
    rfl, rfl, ?_, fun k hk => ?_, fun k => ?_, rfl⟩
  · simp [tb_dlist_itor_at, tb_dlist_itor_const_at, itor_at_set_data, hs]
  · simp [tb_dlist_itor_at, tb_dlist_itor_const_at, itor_at_set_data, hk]
  · by_cases hk : k = h
    · subst hk
      simp [tb_dlist_itor_next, tb_dlist_itor_prev, itor_at_set_data, hs, tb_bits_get_u32_ne]
    · simp [tb_dlist_itor_next, tb_dlist_itor_prev, itor_at_set_data, hk]

theorem nreplace_loop_spec (bytes : List Nat) (k : Nat) :
    ∀ (d : tb_dlist_t) (a t : List Nat), WF d (a ++ t) →
      ∃ olds d2, payloads_at d (t.take k) = some olds ∧
        nreplace_loop (some bytes) 0 k d (t.headD 0) = some d2 ∧ WF d2 (a ++ t) ∧
        d2.step = d.step ∧ d2.func_free = d.func_free ∧ d2.head = d.head ∧
        d2.last = d.last ∧
        (∀ x ∈ t.take k, tb_dlist_itor_at d2 x = some (tb_memcpy bytes d.step)) ∧
        (∀ x, x ∉ t.take k → tb_dlist_itor_at d2 x = tb_dlist_itor_at d x) ∧
        (∀ x, tb_dlist_itor_next d2 x = tb_dlist_itor_next d x ∧
          tb_dlist_itor_prev d2 x = tb_dlist_itor_prev d x) ∧
        d2.released = (if d.func_free then d.released ++ olds else d.released) := by
  induction k with
  | zero =>
    intro d a t hwf
    refine ⟨[], d, rfl, rfl, hwf, rfl, rfl, rfl, rfl, by simp, fun _ _ => rfl,
      fun _ => ⟨rfl, rfl⟩, by simp⟩
  | succ k ih =>
    intro d a t hwf
    cases t with
    | nil =>
      refine ⟨[], d, rfl, by simp [nreplace_loop], hwf, rfl, rfl, rfl, rfl, by simp,
        fun _ _ => rfl, fun _ => ⟨rfl, rfl⟩, by simp⟩
    | cons h t =>
      have hm : h ∈ a ++ h :: t := by simp
      have h0 : h ≠ 0 := hwf.ne_zero hm
      have hnd := hwf.nodup
      have hht : h ∉ t := (List.nodup_cons.1 (List.nodup_append.1 hnd).2.1).1
      obtain ⟨old, d1, r1, r2, r3, r4, r5, r6, r7, r8, r9, r10, r11⟩ :=
        replace_frame hwf hm bytes
      have hnx : tb_dlist_itor_next d1 h = some (t.headD 0) := by
        rw [(r10 h).1]; exact hwf.links_at.1
      have hwf1 : WF d1 ((a ++ [h]) ++ t) := by simpa using r3
      obtain ⟨olds, d2, f1, f2, f3, f4, f5, f6, f7, f8, f9, f10, f11⟩ := ih d1 (a ++ [h]) t hwf1
      have hne : ∀ x ∈ t.take k, x ≠ h := fun x hx e => hht (e ▸ List.mem_of_mem_take hx)
      refine ⟨old :: olds, d2, ?_, ?_, by simpa using f3, f4.trans r4, f5.trans r5,
        f6.trans r6, f7.trans r7, fun x hx => ?_, fun x hx => ?_, fun x => ?_, ?_⟩
      · rw [payloads_at_some_iff] at f1 ⊢
        simp only [List.take_succ_cons, List.map_cons, r1, ← f1]
        congr 1
        apply List.map_congr_left
        intro x hx
        exact (r9 x (hne x hx)).symm
      · simp only [nreplace_loop, List.headD_cons, h0, if_false, r2, hnx]
        exact f2
      · simp only [List.take_succ_cons, List.mem_cons] at hx
        rcases hx with rfl | hx
        · rw [f9 x (fun e => hht (List.mem_of_mem_take e))]; exact r8
        · rw [f8 x hx, r4]
      · simp only [List.take_succ_cons, List.mem_cons, not_or] at hx
        rw [f9 x hx.2]; exact r9 x hx.1
      · exact ⟨((f10 x).1).trans (r10 x).1, ((f10 x).2).trans (r10 x).2⟩
      · rw [f11, r5, r11]
        cases d.func_free <;> simp

theorem nreplace_last_loop_spec (bytes : List Nat) (k : Nat) :
    ∀ (d : tb_dlist_t) (a t : List Nat) (node : Nat), WF d (a ++ t) →
      ∃ d2, nreplace_last_loop (some bytes) 0 k d (a.getLastD 0) node
          = some ((a.drop (a.length - k)).headD node, d2) ∧ WF d2 (a ++ t) ∧
        d2.step = d.step ∧ d2.head = d.head ∧ d2.last = d.last ∧
        (∀ x ∈ a.drop (a.length - k), tb_dlist_itor_at d2 x = some (tb_memcpy bytes d.step)) ∧
        (∀ x, x ∉ a.drop (a.length - k) → tb_dlist_itor_at d2 x = tb_dlist_itor_at d x) ∧
        (∀ x, tb_dlist_itor_next d2 x = tb_dlist_itor_next d x ∧
          tb_dlist_itor_prev d2 x = tb_dlist_itor_prev d x) := by
  induction k with
  | zero =>
    intro d a t node hwf
    refine ⟨d, by simp [nreplace_last_loop], hwf, rfl, rfl, rfl, by simp, fun _ _ => rfl,
      fun _ => ⟨rfl, rfl⟩⟩
  | succ k ih =>
    intro d a t node hwf
    rcases List.eq_nil_or_concat a with h1 | ⟨a2, h, rfl⟩
    · subst h1
      refine ⟨d, by simp [nreplace_last_loop], hwf, rfl, rfl, rfl, by simp, fun _ _ => rfl,
        fun _ => ⟨rfl, rfl⟩⟩
    · rw [List.concat_eq_append] at *
      have hwf0 : WF d (a2 ++ h :: t) := by simpa using hwf
      have hm : h ∈ a2 ++ h :: t := by simp
      have h0 : h ≠ 0 := hwf0.ne_zero hm
      have hnd := hwf0.nodup
      have hha : h ∉ a2 := fun x => (List.nodup_append.1 hnd).2.2 x (by simp)
      obtain ⟨old, d1, r1, r2, r3, r4, r5, r6, r7, r8, r9, r10, r11⟩ :=
        replace_frame hwf0 hm bytes
      have hpv : tb_dlist_itor_prev d1 h = some (a2.getLastD 0) := by
        rw [(r10 h).2]; exact hwf0.links_at.2
      obtain ⟨d2, f2, f3, f4, f6, f7, f8, f9, f10⟩ := ih d1 a2 (h :: t) h r3
      have hlen : (a2 ++ [h]).length - (k + 1) = a2.length - k := by simp
      have hdrop : (a2 ++ [h]).drop (a2.length - k) = a2.drop (a2.length - k) ++ [h] :=
        List.drop_append_of_le_length (by omega)
      have hgl : (a2 ++ [h]).getLastD 0 = h := by rw [getLastD_append]; rfl
      rw [hlen, hdrop, hgl]
      refine ⟨d2, ?_, by simpa using f3, f4.trans r4, f6.trans r6, f7.trans r7,
        fun x hx => ?_, fun x hx => ?_,
        fun x => ⟨((f10 x).1).trans (r10 x).1, ((f10 x).2).trans (r10 x).2⟩⟩
      · simp only [nreplace_last_loop, h0, if_false, r2, hpv, headD_append, List.headD_cons]
        exact f2
      · simp only [List.mem_append, List.mem_singleton] at hx
        rcases hx with hx | rfl
        · rw [f8 x hx, r4]
        · rw [f9 x (fun e => hha (List.mem_of_mem_drop e))]; exact r8
      · simp only [List.mem_append, List.mem_singleton, not_or] at hx
        rw [f9 x hx.1]; exact r9 x hx.2

/-- C18: on a well-formed list with forward walk `l`, for the node `h` at position `i`,
a present item and `count >= 1`, `tb_dlist_nreplace(h, item, count)` returns `h`; the
nodes at positions `i .. min(i + count, |l|) - 1` (the list `take count (drop i l)`)
and only these get the `step` bytes of the item as payload, every link, `head`, `last`
and the forward walk are unchanged, and the release callback receives the prior
payloads of the replaced nodes, one each in walk order (nothing without a callback);
the loop ends at the end of the list. -/
theorem C18_nreplace_range (d : tb_dlist_t) (l : List Nat) (h i : Nat) (bytes : List Nat)
    (count : Nat) (hwf : WF d l) (hi : l[i]? = some h) (hc : 1 ≤ count) :
    ∃ olds d2, tb_dlist_nreplace d h (some bytes) count = some (h, d2) ∧
      ((l.drop i).take count).length = min (i + count) l.length - i ∧
      payloads_at d ((l.drop i).take count) = some olds ∧
      (∀ x ∈ (l.drop i).take count, tb_dlist_itor_at d2 x = some (bytes.take d.step)) ∧
      (∀ x, x ∉ (l.drop i).take count → tb_dlist_itor_at d2 x = tb_dlist_itor_at d x) ∧
      (∀ x, tb_dlist_itor_next d2 x = tb_dlist_itor_next d x ∧
        tb_dlist_itor_prev d2 x = tb_dlist_itor_prev d x) ∧
      d2.head = d.head ∧ d2.last = d.last ∧ forward_walk d2 = some l ∧
      d2.released = (if d.func_free then d.released ++ olds else d.released) := by
  obtain ⟨h1, h2⟩ := take_append_drop_at l i h hi
  have hwf1 : WF d (l.take i ++ l.drop i) := by rw [List.take_append_drop]; exact hwf
  obtain ⟨olds, d2, f1, f2, f3, _, _, f6, f7, f8, f9, f10, f11⟩ :=
    nreplace_loop_spec bytes count d (l.take i) (l.drop i) hwf1
  have hhd : (l.drop i).headD 0 = h := by rw [h2]; rfl
  rw [hhd] at f2
  rw [List.take_append_drop] at f3
  have hc0 : count ≠ 0 := by omega
  refine ⟨olds, d2, ?_, ?_, f1, f8, f9, f10, f6, f7, f3.forward, f11⟩
  · simp [tb_dlist_nreplace, hc0, tb_dlist_itor_tail, f2]
  · rw [List.length_take, List.length_drop]; omega

theorem C18_nreplace_range_witness :
    ∃ olds d2, tb_dlist_nreplace ex_123 2 (some [7, 0, 0, 0]) 5 = some (2, d2) ∧
      (([1, 2, 3].drop 1).take 5).length = min (1 + 5) 3 - 1 ∧
      payloads_at ex_123 [2, 3] = some olds ∧
      (∀ x ∈ [2, 3], tb_dlist_itor_at d2 x = some [7, 0, 0, 0]) ∧
      (∀ x, x ∉ [2, 3] → tb_dlist_itor_at d2 x = tb_dlist_itor_at ex_123 x) ∧
      (∀ x, tb_dlist_itor_next d2 x = tb_dlist_itor_next ex_123 x ∧
        tb_dlist_itor_prev d2 x = tb_dlist_itor_prev ex_123 x) ∧
      d2.head = 1 ∧ d2.last = 3 ∧ forward_walk d2 = some [1, 2, 3] ∧
      d2.released = [] ++ olds :=
  C18_nreplace_range ex_123 [1, 2, 3] 2 1 [7, 0, 0, 0] 5 (by decide) (by decide) (by decide)

/-- C19: on a well-formed list with forward walk `l`, for a present item and any `count`,
`tb_dlist_nreplace_last(item, count)` returns; the last `min(count, |l|)` nodes of `l`
(the list `drop (|l| - count) l`) and only these get the `step` bytes of the item as
payload, every link, `head`, `last` and the forward walk are unchanged, and the handle
returned is the front-most replaced node, the node at position `|l| - min(count, |l|)`,
or 0 when nothing was replaced (`count == 0` or the list is empty). -/
theorem C19_nreplace_last_range (d : tb_dlist_t) (l : List Nat) (bytes : List Nat)
    (count : Nat) (hwf : WF d l) :
    ∃ r d2, tb_dlist_nreplace_last d (some bytes) count = some (r, d2) ∧
      (l.drop (l.length - count)).length = min count l.length ∧
      r = (l.drop (l.length - count)).headD 0 ∧
      (count = 0 ∨ l = [] → r = 0) ∧
      (count ≠ 0 → l ≠ [] → l[l.length - min count l.length]? = some r) ∧
      (∀ x ∈ l.drop (l.length - count), tb_dlist_itor_at d2 x = some (bytes.take d.step)) ∧
      (∀ x, x ∉ l.drop (l.length - count) → tb_dlist_itor_at d2 x = tb_dlist_itor_at d x) ∧
      (∀ x, tb_dlist_itor_next d2 x = tb_dlist_itor_next d x ∧
        tb_dlist_itor_prev d2 x = tb_dlist_itor_prev d x) ∧
      d2.head = d.head ∧ d2.last = d.last ∧ forward_walk d2 = some l := by
  have hwf1 : WF d (l ++ []) := by simpa using hwf
  obtain ⟨d2, f2, f3, _, f6, f7, f8, f9, f10⟩ :=
    nreplace_last_loop_spec bytes count d l [] 0 hwf1
  rw [← hwf.2.2.1] at f2
  rw [List.append_nil] at f3
  refine ⟨_, d2, f2, ?_, rfl, ?_, ?_, f8, f9, f10, f6, f7, f3.forward⟩
  · rw [List.length_drop]; omega
  · rintro (h | h)
    · subst h; simp
    · subst h; simp
  · intro hc hl
    have hpos : 0 < l.length := List.length_pos.2 hl
    have hlt : l.length - min count l.length < l.length := by omega
    have heq : l.length - count = l.length - min count l.length := by omega
    rw [heq, List.drop_eq_getElem_cons hlt, List.headD_cons, List.getElem?_eq_getElem hlt]

theorem C19_nreplace_last_range_witness :
    ∃ r d2, tb_dlist_nreplace_last ex_123 (some [7, 0, 0, 0]) 2 = some (r, d2) ∧
      ([1, 2, 3].drop (3 - 2)).length = min 2 3 ∧
      r = 2 ∧
      ((2 : Nat) = 0 ∨ ([1, 2, 3] : List Nat) = [] → r = 0) ∧
      ((2 : Nat) ≠ 0 → ([1, 2, 3] : List Nat) ≠ [] → [1, 2, 3][3 - min 2 3]? = some r) ∧
      (∀ x ∈ [2, 3], tb_dlist_itor_at d2 x = some [7, 0, 0, 0]) ∧
      (∀ x, x ∉ [2, 3] → tb_dlist_itor_at d2 x = tb_dlist_itor_at ex_123 x) ∧
      (∀ x, tb_dlist_itor_next d2 x = tb_dlist_itor_next ex_123 x ∧
        tb_dlist_itor_prev d2 x = tb_dlist_itor_prev ex_123 x) ∧
      d2.head = 1 ∧ d2.last = 3 ∧ forward_walk d2 = some [1, 2, 3] :=
  C19_nreplace_last_range ex_123 [1, 2, 3] [7, 0, 0, 0] 2 (by decide)

/-! ## Removal without effect, and bulk removal -/

theorem remove_zero (d : tb_dlist_t) : tb_dlist_remove d 0 = some (0, d) := by
  simp [tb_dlist_remove]

theorem remove_of_empty (d : tb_dlist_t) (h : Nat) (he : d.head = 0 ∨ d.last = 0) :
    tb_dlist_remove d h = some (h, d) := by
  unfold tb_dlist_remove
  by_cases h0 : h = 0
  · simp [h0]
  · have : ¬ (d.head ≠ 0 ∧ d.last ≠ 0) := by
      rintro ⟨h1, h2⟩
      rcases he with e | e
      · exact h1 e
      · exact h2 e
    simp only [h0, if_false, this]

/-- C21: `tb_dlist_remove` changes nothing on a missing handle or an empty list: for
every list `tb_dlist_remove(0)` returns 0, and `tb_dlist_remove(h)` on a list whose
`head` or `last` is 0 returns `h`; in both cases the list returned is the list given
(`head`, `last`, the pool and the release trace included).  Hence
`tb_dlist_remove_head` and `tb_dlist_remove_last` on an empty list return 0 and change
nothing. -/
theorem C21_remove_without_effect (d : tb_dlist_t) (h : Nat) :
    tb_dlist_remove d 0 = some (0, d) ∧
      (d.head = 0 ∨ d.last = 0 → tb_dlist_remove d h = some (h, d)) ∧
      (d.head = 0 → tb_dlist_remove_head d = some (0, d)) ∧
      (d.last = 0 → tb_dlist_remove_last d = some (0, d)) := by
  refine ⟨remove_zero d, remove_of_empty d h, fun e => ?_, fun e => ?_⟩
  · simp only [tb_dlist_remove_head, tb_dlist_itor_head, e]
    exact remove_zero d
  · simp only [tb_dlist_remove_last, tb_dlist_itor_last, e]
    exact remove_zero d

theorem C21_remove_without_effect_witness :
    tb_dlist_remove ex_123 0 = some (0, ex_123) ∧
      tb_dlist_remove ex_gone 7 = some (7, ex_gone) ∧
      tb_dlist_remove_head ex_gone = some (0, ex_gone) ∧
      tb_dlist_remove_last ex_gone = some (0, ex_gone) :=
  ⟨(C21_remove_without_effect ex_123 7).1,
    (C21_remove_without_effect ex_gone 7).2.1 (by decide),
    (C21_remove_without_effect ex_gone 7).2.2.1 (by decide),
    (C21_remove_without_effect ex_gone 7).2.2.2 (by decide)⟩

theorem nremove_loop_empty (k : Nat) (d : tb_dlist_t) (c : Nat)
    (he : d.head = 0 ∨ d.last = 0) : nremove_loop k d c = some (c, d) := by
  induction k with
  | zero => rfl
  | succ k ih => simp only [nremove_loop, remove_of_empty d c he, ih]

theorem nremove_loop_spec (k : Nat) :
    ∀ (d : tb_dlist_t) (a b : List Nat) (c : Nat), WF d (a ++ c :: b) →
      ∃ r d2, nremove_loop k d c = some (r, d2) ∧
        WF d2 (a.take (min a.length (a.length + b.length + 1 - k)) ++ (c :: b).drop k) := by
  induction k with
  | zero =>
    intro d a b c hwf
    refine ⟨c, d, rfl, ?_⟩
    have e : min a.length (a.length + b.length + 1 - 0) = a.length := by omega
    rw [e, List.take_length]
    exact hwf
  | succ k ih =>
    intro d a b c hwf
    cases b with
    | cons x b2 =>
      have hstep : ∃ d1, tb_dlist_remove d c = some (x, d1) ∧ WF d1 (a ++ x :: b2) := by
        rcases List.eq_nil_or_concat a with h1 | ⟨a2, p, rfl⟩
        · subst h1
          obtain ⟨d1, e1, e2, _⟩ := remove_wf_head (by simpa using hwf)
          exact ⟨d1, e1, by simpa using e2⟩
        · rw [List.concat_eq_append] at *
          have hwf2 : WF d (a2 ++ p :: c :: x :: b2) := by simpa using hwf
          obtain ⟨d1, e1, e2, _⟩ := remove_wf_body hwf2
          exact ⟨d1, e1, by simpa using e2⟩
      obtain ⟨d1, e1, e2⟩ := hstep
      obtain ⟨r, d2, f1, f2⟩ := ih d1 a b2 x e2
      refine ⟨r, d2, by simp only [nremove_loop, e1]; exact f1, ?_⟩
      have e : a.length + (x :: b2).length + 1 - (k + 1) = a.length + b2.length + 1 - k := by
        simp only [List.length_cons]; omega
      rw [e, List.drop_succ_cons]
      exact f2
    | nil =>
      rcases List.eq_nil_or_concat a with h1 | ⟨a2, p, rfl⟩
      · subst h1
        obtain ⟨d1, e1, e2, _⟩ := remove_wf_only (by simpa using hwf)
        refine ⟨c, d1, ?_, by simpa using e2⟩
        simp only [nremove_loop, e1]
        exact nremove_loop_empty k d1 c (Or.inl e2.2.1)
      · rw [List.concat_eq_append] at *
        have hwf2 : WF d (a2 ++ [p, c]) := by simpa using hwf
        obtain ⟨d1, e1, e2, _⟩ := remove_wf_last hwf2
        obtain ⟨r, d2, f1, f2⟩ := ih d1 a2 [] p e2
        refine ⟨r, d2, by simp only [nremove_loop, e1]; exact f1, ?_⟩
        have hgoal : (a2 ++ [p]).take (min (a2 ++ [p]).length
              ((a2 ++ [p]).length + ([] : List Nat).length + 1 - (k + 1))) ++ [c].drop (k + 1)
            = a2.take (min a2.length (a2.length + ([] : List Nat).length + 1 - k))
              ++ [p].drop k := by
          cases k with
          | zero =>
            have e1 : min (a2 ++ [p]).length
                ((a2 ++ [p]).length + ([] : List Nat).length + 1 - (0 + 1))
                = (a2 ++ [p]).length := by simp
            have e2 : min a2.length (a2.length + ([] : List Nat).length + 1 - 0)
                = a2.length := by simp
            rw [e1, e2, List.take_length, List.take_length]
            simp
          | succ j =>
            have e1 : min (a2 ++ [p]).length
                ((a2 ++ [p]).length + ([] : List Nat).length + 1 - (j + 1 + 1))
                = a2.length - j := by
              simp only [List.length_append, List.length_singleton, List.length_nil]; omega
            have e2 : min a2.length (a2.length + ([] : List Nat).length + 1 - (j + 1))
                = a2.length - j := by
              simp only [List.length_nil]; omega
            rw [e1, e2, List.take_append_of_le_length (by omega)]
            simp
        rw [hgoal]
        exact f2

/-- C22: on a well-formed list with forward walk `l`, for the node `h` at position `i`
and `k >= 1`, `tb_dlist_nremove(h, k)` returns (it never aborts) and removes exactly
`min(k, |l|)` nodes: the new forward walk is `take i l ++ drop (i + k) l` when
`i + k <= |l|`, and `take (|l| - k) l` otherwise (the empty walk when `k >= |l|`). -/
theorem C22_nremove_walk (d : tb_dlist_t) (l : List Nat) (h i k : Nat) (hwf : WF d l)
    (hi : l[i]? = some h) (hk : 1 ≤ k) :
    ∃ r d2, tb_dlist_nremove d h k = some (r, d2) ∧
      tb_dlist_size d2 = l.length - min k l.length ∧
      (i + k ≤ l.length → forward_walk d2 = some (l.take i ++ l.drop (i + k))) ∧
      (l.length < i + k → forward_walk d2 = some (l.take (l.length - k))) ∧
      (l.length ≤ k → forward_walk d2 = some []) := by
  obtain ⟨h1, h2⟩ := take_append_drop_at l i h hi
  have hlt : i < l.length := by
    by_contra hc
    rw [List.getElem?_eq_none (not_lt.1 hc)] at hi; cases hi
  have hwf1 : WF d (l.take i ++ h :: l.drop (i + 1)) := h1 ▸ hwf
  obtain ⟨r, d2, f1, f2⟩ := nremove_loop_spec k d (l.take i) (l.drop (i + 1)) h hwf1
  have hk0 : k ≠ 0 := by omega
  have hla : (l.take i).length = i := by rw [List.length_take]; omega
  have hidx : (l.take i).length + (l.drop (i + 1)).length + 1 - k = l.length - k := by
    rw [hla, List.length_drop]; omega
  rw [← h2, hidx, hla, List.drop_drop] at f2
  have hfwd1 : i + k ≤ l.length → forward_walk d2 = some (l.take i ++ l.drop (i + k)) := by
    intro hle
    have e : min i (l.length - k) = i := by omega
    rw [e, List.take_take, Nat.min_self] at f2
    exact f2.forward
  have hfwd2 : l.length < i + k → forward_walk d2 = some (l.take (l.length - k)) := by
    intro hgt
    have e : min i (l.length - k) = l.length - k := by omega
    have e2 : min (l.length - k) i = l.length - k := by omega
    rw [e, List.take_take, e2, List.drop_eq_nil_of_le (by omega), List.append_nil] at f2
    exact f2.forward
  refine ⟨r, d2, by simpa [tb_dlist_nremove, hk0] using f1, ?_, hfwd1, hfwd2, fun hle => ?_⟩
  · by_cases hc : i + k ≤ l.length
    · have hw := hfwd1 hc
      have hw2 := f2.forward
      rw [hw] at hw2
      have := f2.size
      rw [← Option.some.inj hw2] at this
      rw [this, List.length_append, List.length_take, List.length_drop]
      omega
    · have hw := hfwd2 (by omega)
      have hw2 := f2.forward
      rw [hw] at hw2
      have := f2.size
      rw [← Option.some.inj hw2] at this
      rw [this, List.length_take]
      omega
  · by_cases hc : i + k ≤ l.length
    · have hw := hfwd1 hc
      have e1 : i = 0 := by omega
      have e2 : l.drop (i + k) = [] := List.drop_eq_nil_of_le (by omega)
      rw [e2, e1] at hw
      simpa using hw
    · have hw := hfwd2 (by omega)
      have e : l.length - k = 0 := by omega
      rw [e] at hw
      simpa using hw

theorem C22_nremove_walk_witness :
    (∃ r d2, tb_dlist_nremove ex_12345 3 2 = some (r, d2) ∧
      tb_dlist_size d2 = 5 - min 2 5 ∧
      (2 + 2 ≤ 5 → forward_walk d2 = some [1, 2, 5]) ∧
      (5 < 2 + 2 → forward_walk d2 = some [1, 2, 3]) ∧
      (5 ≤ 2 → forward_walk d2 = some [])) ∧
    (∃ r d2, tb_dlist_nremove ex_12345 3 4 = some (r, d2) ∧
      tb_dlist_size d2 = 5 - min 4 5 ∧
      (2 + 4 ≤ 5 → forward_walk d2 = some [1, 2]) ∧
      (5 < 2 + 4 → forward_walk d2 = some [1]) ∧
      (5 ≤ 4 → forward_walk d2 = some [])) :=
  ⟨C22_nremove_walk ex_12345 [1, 2, 3, 4, 5] 3 2 2 (by decide) (by decide) (by decide),
    C22_nremove_walk ex_12345 [1, 2, 3, 4, 5] 3 2 4 (by decide) (by decide) (by decide)⟩

/-! ## The width of the link fields -/

theorem WF.adjacent {d : tb_dlist_t} {l : List Nat} (hwf : WF d l) : Adjacent d l := by
  intro a b x y hl
  subst hl
  constructor
  · exact hwf.links_at.1
  · have hwf2 : WF d ((a ++ [x]) ++ y :: b) := by simpa using hwf
    have := hwf2.links_at.2
    rwa [getLastD_append] at this

theorem mod32_ne_of_le {n : Nat} (h : 2 ^ 32 ≤ n) : n % 2 ^ 32 ≠ n := by
  have : n % 2 ^ 32 < 2 ^ 32 := Nat.mod_lt _ (by norm_num)
  omega

theorem insert_empty_links (d : tb_dlist_t) (index : Nat) (item : Option (List Nat))
    (n : Nat) (rest : List Nat) (hfree : d.pool.free = n :: rest) (hn0 : n ≠ 0)
    (hh : d.head = 0) (hl : d.last = 0) :
    ∃ d2, tb_dlist_insert d index item = some (n, d2) ∧ d2.head = n ∧ d2.last = n ∧
      tb_dlist_itor_next d2 n = some 0 ∧ tb_dlist_itor_prev d2 n = some 0 := by
  obtain ⟨q, hq, _, _, _, hat⟩ := insert_empty_effect d index item n rest hfree hn0 hh hl
  refine ⟨_, hq, rfl, rfl, ?_, ?_⟩
  · simp [tb_dlist_itor_next, hn0, hat, tb_bits_get_u32_ne]
  · simp [tb_dlist_itor_prev, hn0, hat, tb_bits_get_u32_ne]

theorem insert_tail_links (d : tb_dlist_t) (item : Option (List Nat)) (n : Nat)
    (rest : List Nat) (sl : Slot) (hfree : d.pool.free = n :: rest) (hn0 : n ≠ 0)
    (hh : d.head ≠ 0) (hl : d.last ≠ 0) (hlast : tb_fpool_itor_at d.pool d.last = some sl)
    (hln : d.last ≠ n) :
    ∃ d2, tb_dlist_insert d 0 item = some (n, d2) ∧ d2.last = n ∧
      tb_dlist_itor_next d2 d.last = some (n % 2 ^ 32) ∧
      tb_dlist_itor_prev d2 n = some (d.last % 2 ^ 32) ∧
      tb_dlist_itor_next d2 n = some 0 := by
  obtain ⟨q, hq, _, _, _, hat⟩ := insert_tail_effect d item n rest hfree hn0 hh hl sl hlast hln
  refine ⟨_, hq, rfl, ?_, ?_, ?_⟩
  · simp [tb_dlist_itor_next, hl, hat, hln, tb_bits_get_u32_ne]
  · simp [tb_dlist_itor_prev, hn0, hat, tb_bits_get_u32_ne]
  · simp [tb_dlist_itor_next, hn0, hat, tb_bits_get_u32_ne]

theorem insert_head_links (d : tb_dlist_t) (item : Option (List Nat)) (n : Nat)
    (rest : List Nat) (sh : Slot) (hfree : d.pool.free = n :: rest) (hn0 : n ≠ 0)
    (hh : d.head ≠ 0) (hl : d.last ≠ 0) (hhead : tb_fpool_itor_at d.pool d.head = some sh)
    (hhn : d.head ≠ n) :
    ∃ d2, tb_dlist_insert d d.head item = some (n, d2) ∧ d2.head = n ∧
      tb_dlist_itor_prev d2 d.head = some (n % 2 ^ 32) ∧
      tb_dlist_itor_next d2 n = some (d.head % 2 ^ 32) ∧
      tb_dlist_itor_prev d2 n = some 0 := by
  obtain ⟨q, hq, _, _, _, hat⟩ := insert_head_effect d item n rest hfree hn0 hh hl sh hhead hhn
  refine ⟨_, hq, rfl, ?_, ?_, ?_⟩
  · simp [tb_dlist_itor_prev, hh, hat, hhn, tb_bits_get_u32_ne]
  · simp [tb_dlist_itor_next, hn0, hat, tb_bits_get_u32_ne]
  · simp [tb_dlist_itor_prev, hn0, hat, tb_bits_get_u32_ne]

theorem insert_body_links (d : tb_dlist_t) (target : Nat) (item : Option (List Nat)) (n : Nat)
    (rest : List Nat) (sb sp : Slot) (hfree : d.pool.free = n :: rest) (hn0 : n ≠ 0)
    (hh : d.head ≠ 0) (hl : d.last ≠ 0) (ht0 : target ≠ 0) (hth : target ≠ d.head)
    (hbody : tb_fpool_itor_at d.pool target = some sb) (htn : target ≠ n)
    (hprev : tb_fpool_itor_at d.pool sb.prev = some sp) (hpn : sb.prev ≠ n)
    (hpt : sb.prev ≠ target) :
    ∃ d2, tb_dlist_insert d target item = some (n, d2) ∧
      d2.head = d.head ∧ d2.last = d.last ∧
      tb_dlist_itor_next d2 sb.prev = some (n % 2 ^ 32) ∧
      tb_dlist_itor_prev d2 target = some (n % 2 ^ 32) ∧
      tb_dlist_itor_next d2 n = some (target % 2 ^ 32) ∧
      tb_dlist_itor_prev d2 n = some (sb.prev % 2 ^ 32) := by
  obtain ⟨q, hq, _, _, _, hat⟩ :=
    insert_body_effect d target item n rest hfree hn0 hh hl ht0 hth sb sp hbody htn hprev hpn hpt
  have hp0 : sb.prev ≠ 0 := (itor_at_some_mem hprev).1
  refine ⟨_, hq, rfl, rfl, ?_, ?_, ?_, ?_⟩
  · simp [tb_dlist_itor_next, hp0, hat, hpn, hpt, tb_bits_get_u32_ne]
  · simp [tb_dlist_itor_prev, ht0, hat, htn, tb_bits_get_u32_ne]
  · simp [tb_dlist_itor_next, hn0, hat, tb_bits_get_u32_ne]
  · simp [tb_dlist_itor_prev, hn0, hat, tb_bits_get_u32_ne]

theorem remove_head_links (d : tb_dlist_t) (s sx : Slot) (hh : d.head ≠ 0) (hl : d.last ≠ 0)
    (hhl : d.head ≠ d.last) (hs : tb_fpool_itor_at d.pool d.head = some s)
    (hx : tb_fpool_itor_at d.pool s.next = some sx) (hxh : s.next ≠ d.head) :
    ∃ d2, tb_dlist_remove d d.head = some (s.next, d2) ∧ d2.head = s.next ∧
      tb_dlist_itor_prev d2 s.next = some 0 := by
  have hx0 : s.next ≠ 0 := (itor_at_some_mem hx).1
  have hhx : ¬ d.head = s.next := fun e => hxh e.symm
  have hs2 : tb_fpool_itor_at (tb_bits_set_u32_ne d.pool s.next 4 0) d.head = some s := by
    simp [itor_at_set_u32, hhx, hs]
  obtain ⟨_, _, _, _, e5⟩ :=
    del_spec (tb_dlist_item_free d.func_free) (tb_bits_set_u32_ne d.pool s.next 4 0) d.head
      d.released s hs2
  have hrem : tb_dlist_remove d d.head = some (s.next, { d with
      pool := (tb_fpool_del (tb_dlist_item_free d.func_free)
        (tb_bits_set_u32_ne d.pool s.next 4 0) d.head d.released).1,
      released := (tb_fpool_del (tb_dlist_item_free d.func_free)
        (tb_bits_set_u32_ne d.pool s.next 4 0) d.head d.released).2,
      head := s.next }) := by
    unfold tb_dlist_remove
    simp only [hh, if_false, ne_eq, not_false_eq_true, hl, and_self, if_true, hhl,
      tb_dlist_itor_next, hs, tb_bits_get_u32_ne]
    simp [hx]
  refine ⟨_, hrem, rfl, ?_⟩
  simp [tb_dlist_itor_prev, hx0, e5, hxh, itor_at_set_u32, hx, tb_bits_get_u32_ne, Slot.set_u32]

theorem remove_last_links (d : tb_dlist_t) (s sp : Slot) (hh : d.head ≠ 0) (hl : d.last ≠ 0)
    (hhl : d.head ≠ d.last) (hs : tb_fpool_itor_at d.pool d.last = some s)
    (hp : tb_fpool_itor_at d.pool s.prev = some sp) (hpl : s.prev ≠ d.last) :
    ∃ d2, tb_dlist_remove d d.last = some (s.prev, d2) ∧ d2.last = s.prev ∧
      tb_dlist_itor_next d2 s.prev = some 0 := by
  have hp0 : s.prev ≠ 0 := (itor_at_some_mem hp).1
  have hlp : ¬ d.last = s.prev := fun e => hpl e.symm
  have hlh : ¬ d.last = d.head := fun e => hhl e.symm
  have hs2 : tb_fpool_itor_at (tb_bits_set_u32_ne d.pool s.prev 0 0) d.last = some s := by
    simp [itor_at_set_u32, hlp, hs]
  obtain ⟨_, _, _, _, e5⟩ :=
    del_spec (tb_dlist_item_free d.func_free) (tb_bits_set_u32_ne d.pool s.prev 0 0) d.last
      d.released s hs2
  have hrem : tb_dlist_remove d d.last = some (s.prev, { d with
      pool := (tb_fpool_del (tb_dlist_item_free d.func_free)
        (tb_bits_set_u32_ne d.pool s.prev 0 0) d.last d.released).1,
      released := (tb_fpool_del (tb_dlist_item_free d.func_free)
        (tb_bits_set_u32_ne d.pool s.prev 0 0) d.last d.released).2,
      last := s.prev }) := by
    unfold tb_dlist_remove
    simp only [hl, if_false, ne_eq, not_false_eq_true, hh, and_self, if_true, hhl, hlh,
      tb_dlist_itor_prev, hs, tb_bits_get_u32_ne]
    simp [hp]
  refine ⟨_, hrem, rfl, ?_⟩
  simp [tb_dlist_itor_next, hp0, e5, hpl, itor_at_set_u32, hp, tb_bits_get_u32_ne, Slot.set_u32]

theorem remove_body_links (d : tb_dlist_t) (h : Nat) (sb sx sp : Slot) (h0 : h ≠ 0)
    (hh : d.head ≠ 0) (hl : d.last ≠ 0) (hhl : d.head ≠ d.last) (hih : h ≠ d.head)
    (hil : h ≠ d.last) (hb : tb_fpool_itor_at d.pool h = some sb)
    (hx : tb_fpool_itor_at d.pool sb.next = some sx)
    (hp : tb_fpool_itor_at d.pool sb.prev = some sp) (hxh : sb.next ≠ h) (hph : sb.prev ≠ h) :
    ∃ d2, tb_dlist_remove d h = some (sb.next, d2) ∧
      tb_dlist_itor_next d2 sb.prev = some (sb.next % 2 ^ 32) ∧
      tb_dlist_itor_prev d2 sb.next = some (sb.prev % 2 ^ 32) := by
  have hx0 : sb.next ≠ 0 := (itor_at_some_mem hx).1
  have hp0 : sb.prev ≠ 0 := (itor_at_some_mem hp).1
  have hhx : ¬ h = sb.next := fun e => hxh e.symm
  have hhp : ¬ h = sb.prev := fun e => hph e.symm
  have hs2 : tb_fpool_itor_at
      (tb_bits_set_u32_ne (tb_bits_set_u32_ne d.pool sb.prev 0 sb.next) sb.next 4 sb.prev) h
      = some sb := by
    simp [itor_at_set_u32, hhx, hhp, hb]
  obtain ⟨_, _, _, _, e5⟩ :=
    del_spec (tb_dlist_item_free d.func_free)
      (tb_bits_set_u32_ne (tb_bits_set_u32_ne d.pool sb.prev 0 sb.next) sb.next 4 sb.prev) h
      d.released sb hs2
  have hrem : tb_dlist_remove d h = some (sb.next, { d with
      pool := (tb_fpool_del (tb_dlist_item_free d.func_free)
        (tb_bits_set_u32_ne (tb_bits_set_u32_ne d.pool sb.prev 0 sb.next) sb.next 4 sb.prev)
        h d.released).1,
      released := (tb_fpool_del (tb_dlist_item_free d.func_free)
        (tb_bits_set_u32_ne (tb_bits_set_u32_ne d.pool sb.prev 0 sb.next) sb.next 4 sb.prev)
        h d.released).2 }) := by
    unfold tb_dlist_remove
    simp only [h0, if_false, ne_eq, not_false_eq_true, hh, hl, and_self, if_true, hhl, hih,
      hil, hb, tb_bits_get_u32_ne]
    simp [hp, hx]
  refine ⟨_, hrem, ?_, ?_⟩
  · simp only [tb_dlist_itor_next, if_neg hp0, e5, if_neg hph, itor_at_set_u32]
    by_cases hpx : sb.prev = sb.next
    · simp [hpx, hx, tb_bits_get_u32_ne, Slot.set_u32]
    · have hxp : ¬ sb.next = sb.prev := fun e => hpx e.symm
      simp [hpx, hxp, hp, tb_bits_get_u32_ne, Slot.set_u32]
  · simp only [tb_dlist_itor_prev, if_neg hx0, e5, if_neg hxh, itor_at_set_u32]
    by_cases hpx : sb.next = sb.prev
    · simp [hpx, hp, tb_bits_get_u32_ne, Slot.set_u32]
    · simp [hpx, hx, tb_bits_get_u32_ne, Slot.set_u32]

/-- C23: the link fields keep 32 bits, at every link write of the list.  When
`tb_dlist_insert` hands out the handle `n`, whatever its size: on the tail branch the old
last node reads `n mod 2^32` as its successor; on the head branch the old head reads
`n mod 2^32` as its predecessor; on the interior branch (target neither 0 nor the head)
the target reads `n mod 2^32` as its predecessor and the target's old predecessor reads
`n mod 2^32` as its successor; in each branch the new node's own two links read its
neighbours modulo `2^32` (0 at an end, and both 0 on the empty list), and for
`n ≥ 2^32` every link that should name `n` reads a value different from `n`.
`tb_dlist_remove` writes links the same way: after removing the head (resp. the last
node) the new end reads 0 inwards, and after removing an interior node its two
neighbours read each other modulo `2^32`.  On a well-formed list, whose pool handles
are all below `2^32` (free ones included), `n < 2^32` and both insert and remove keep
every pair of neighbours adjacent. -/
theorem C23_links_keep_low_32_bits (d : tb_dlist_t) :
    (∀ (item : Option (List Nat)) (n : Nat) (rest : List Nat),
      d.pool.free = n :: rest → n ≠ 0 →
      (∀ index, d.head = 0 → d.last = 0 →
        ∃ d2, tb_dlist_insert d index item = some (n, d2) ∧ d2.head = n ∧ d2.last = n ∧
          tb_dlist_itor_next d2 n = some 0 ∧ tb_dlist_itor_prev d2 n = some 0) ∧
      (∀ sl, d.head ≠ 0 → d.last ≠ 0 → tb_fpool_itor_at d.pool d.last = some sl →
        d.last ≠ n →
        ∃ d2, tb_dlist_insert d 0 item = some (n, d2) ∧ d2.last = n ∧
          tb_dlist_itor_next d2 d.last = some (n % 2 ^ 32) ∧
          tb_dlist_itor_prev d2 n = some (d.last % 2 ^ 32) ∧
          tb_dlist_itor_next d2 n = some 0 ∧
          (2 ^ 32 ≤ n → tb_dlist_itor_next d2 d.last ≠ some n)) ∧
      (∀ sh, d.head ≠ 0 → d.last ≠ 0 → tb_fpool_itor_at d.pool d.head = some sh →
        d.head ≠ n →
        ∃ d2, tb_dlist_insert d d.head item = some (n, d2) ∧ d2.head = n ∧
          tb_dlist_itor_prev d2 d.head = some (n % 2 ^ 32) ∧
          tb_dlist_itor_next d2 n = some (d.head % 2 ^ 32) ∧
          tb_dlist_itor_prev d2 n = some 0 ∧
          (2 ^ 32 ≤ n → tb_dlist_itor_prev d2 d.head ≠ some n)) ∧
      (∀ target sb sp, d.head ≠ 0 → d.last ≠ 0 → target ≠ 0 → target ≠ d.head →
        tb_fpool_itor_at d.pool target = some sb → target ≠ n →
        tb_fpool_itor_at d.pool sb.prev = some sp → sb.prev ≠ n → sb.prev ≠ target →
        ∃ d2, tb_dlist_insert d target item = some (n, d2) ∧
          d2.head = d.head ∧ d2.last = d.last ∧
          tb_dlist_itor_next d2 sb.prev = some (n % 2 ^ 32) ∧
          tb_dlist_itor_prev d2 target = some (n % 2 ^ 32) ∧
          tb_dlist_itor_next d2 n = some (target % 2 ^ 32) ∧
          tb_dlist_itor_prev d2 n = some (sb.prev % 2 ^ 32) ∧
          (2 ^ 32 ≤ n → tb_dlist_itor_next d2 sb.prev ≠ some n ∧
            tb_dlist_itor_prev d2 target ≠ some n)) ∧
      (∀ l target, WF d l → target = 0 ∨ target ∈ l →
        n < 2 ^ 32 ∧ ∃ d2, tb_dlist_insert d target item = some (n, d2) ∧
          Adjacent d2 (insert_before n target l) ∧
          forward_walk d2 = some (insert_before n target l))) ∧
    (∀ s sx, d.head ≠ 0 → d.last ≠ 0 → d.head ≠ d.last →
      tb_fpool_itor_at d.pool d.head = some s → tb_fpool_itor_at d.pool s.next = some sx →
      s.next ≠ d.head →
      ∃ d2, tb_dlist_remove d d.head = some (s.next, d2) ∧ d2.head = s.next ∧
        tb_dlist_itor_prev d2 s.next = some 0) ∧
    (∀ s sp, d.head ≠ 0 → d.last ≠ 0 → d.head ≠ d.last →
      tb_fpool_itor_at d.pool d.last = some s → tb_fpool_itor_at d.pool s.prev = some sp →
      s.prev ≠ d.last →
      ∃ d2, tb_dlist_remove d d.last = some (s.prev, d2) ∧ d2.last = s.prev ∧
        tb_dlist_itor_next d2 s.prev = some 0) ∧
    (∀ h sb sx sp, h ≠ 0 → d.head ≠ 0 → d.last ≠ 0 → d.head ≠ d.last → h ≠ d.head →
      h ≠ d.last → tb_fpool_itor_at d.pool h = some sb →
      tb_fpool_itor_at d.pool sb.next = some sx → tb_fpool_itor_at d.pool sb.prev = some sp →
      sb.next ≠ h → sb.prev ≠ h →
      ∃ d2, tb_dlist_remove d h = some (sb.next, d2) ∧
        tb_dlist_itor_next d2 sb.prev = some (sb.next % 2 ^ 32) ∧
        tb_dlist_itor_prev d2 sb.next = some (sb.prev % 2 ^ 32)) ∧
    (∀ l h, WF d l → h ∈ l →
      ∃ r d2, tb_dlist_remove d h = some (r, d2) ∧ Adjacent d2 (l.erase h) ∧
        forward_walk d2 = some (l.erase h)) := by
  refine ⟨fun item n rest hfree hn0 => ⟨?_, ?_, ?_, ?_, ?_⟩, ?_, ?_, ?_, ?_⟩
  · intro index hh hl
    exact insert_empty_links d index item n rest hfree hn0 hh hl
  · intro sl hh hl hlast hln
    obtain ⟨d2, e1, e2, e3, e4, e5⟩ := insert_tail_links d item n rest sl hfree hn0 hh hl hlast hln
    refine ⟨d2, e1, e2, e3, e4, e5, fun hge => ?_⟩
    rw [e3]
    exact fun e => mod32_ne_of_le hge (Option.some.inj e)
  · intro sh hh hl hhead hhn
    obtain ⟨d2, e1, e2, e3, e4, e5⟩ := insert_head_links d item n rest sh hfree hn0 hh hl hhead hhn
    refine ⟨d2, e1, e2, e3, e4, e5, fun hge => ?_⟩
    rw [e3]
    exact fun e => mod32_ne_of_le hge (Option.some.inj e)
  · intro target sb sp hh hl ht0 hth hbody htn hprev hpn hpt
    obtain ⟨d2, e1, e0, e9, e2, e3, e4, e5⟩ :=
      insert_body_links d target item n rest sb sp hfree hn0 hh hl ht0 hth hbody htn hprev hpn hpt
    refine ⟨d2, e1, e0, e9, e2, e3, e4, e5, fun hge => ?_⟩
    rw [e2, e3]
    have hne : ¬ some (n % 2 ^ 32) = some n := fun e => mod32_ne_of_le hge (Option.some.inj e)
    exact ⟨hne, hne⟩
  · intro l target hwf ht
    obtain ⟨d2, e1, e2, _⟩ := insert_spec hwf hfree target item (Or.inr ht)
    exact ⟨(hwf.fresh hfree).2.1, d2, e1, e2.adjacent, e2.forward⟩
  · intro s sx hh hl hhl hs hx hxh
    exact remove_head_links d s sx hh hl hhl hs hx hxh
  · intro s sp hh hl hhl hs hp hpl
    exact remove_last_links d s sp hh hl hhl hs hp hpl
  · intro h sb sx sp h0 hh hl hhl hih hil hb hx hp hxh hph
    exact remove_body_links d h sb sx sp h0 hh hl hhl hih hil hb hx hp hxh hph
  · intro l h hwf hm
    obtain ⟨r, d2, e1, e2, _⟩ := remove_spec hwf hm
    exact ⟨r, d2, e1, e2.adjacent, e2.forward⟩

theorem C23_links_keep_low_32_bits_witness :
    (∃ d2, tb_dlist_insert ex_wide 0 (some [9, 0, 0, 0]) = some (4294967298, d2) ∧
      d2.last = 4294967298 ∧
      tb_dlist_itor_next d2 1 = some (4294967298 % 2 ^ 32) ∧
      tb_dlist_itor_prev d2 4294967298 = some (1 % 2 ^ 32) ∧
      tb_dlist_itor_next d2 4294967298 = some 0 ∧
      (2 ^ 32 ≤ 4294967298 → tb_dlist_itor_next d2 1 ≠ some 4294967298)) ∧
    (∃ d2, tb_dlist_insert ex_wide2 2 (some [9, 0, 0, 0]) = some (4294967303, d2) ∧
      d2.head = 1 ∧ d2.last = 2 ∧
      tb_dlist_itor_next d2 1 = some (4294967303 % 2 ^ 32) ∧
      tb_dlist_itor_prev d2 2 = some (4294967303 % 2 ^ 32) ∧
      tb_dlist_itor_next d2 4294967303 = some (2 % 2 ^ 32) ∧
      tb_dlist_itor_prev d2 4294967303 = some (1 % 2 ^ 32) ∧
      (2 ^ 32 ≤ 4294967303 → tb_dlist_itor_next d2 1 ≠ some 4294967303 ∧
        tb_dlist_itor_prev d2 2 ≠ some 4294967303)) :=
  ⟨((C23_links_keep_low_32_bits ex_wide).1 (some [9, 0, 0, 0]) 4294967298 []
      (by decide) (by decide)).2.1 { next := 0, prev := 0, data := [1, 0, 0, 0] }
      (by decide) (by decide) (by decide) (by decide),
    ((C23_links_keep_low_32_bits ex_wide2).1 (some [9, 0, 0, 0]) 4294967303 []
      (by decide) (by decide)).2.2.2.1 2 { next := 0, prev := 1, data := [2, 0, 0, 0] }
      { next := 2, prev := 0, data := [1, 0, 0, 0] }
      (by decide) (by decide) (by decide) (by decide) (by decide) (by decide) (by decide)
      (by decide) (by decide)⟩

end TBox
